import Mathlib

/-!
# GNU Radio: counter packet formatter and OFDM MIMO frame acquisition

A shallow embedding of

* `gr-digital/lib/packet_formatter_counter.cc` (header codec of the counter variant), and
* `gnuradio-core/src/lib/general/gr_ofdm_mimo_frame_acquisition.cc` (acquisition engine),

followed by theorems about the embedded definitions.

Conventions.

* Unsigned machine integers are natural numbers; every place where the C++ code truncates
  or wraps carries an explicit `% 2 ^ w` (or `to_unsigned`, `to_int`).
* The host is little-endian (the byte order for which the formatter's `byteswap` followed by
  `memcpy` produces network order, and the one the unit tests run on): the memory image
  of an unsigned integer is the list of its bytes, least significant first.
* A byte of a freshly allocated buffer is `none` until something is copied over it.
* Buffers and vectors are lists. A function that indexes one returns an `Option`: `none`
  stands for an access outside the buffer, which is undefined behaviour in C++.
* `float` and `gr_complex` arithmetic is exact, over an ordered field `R`; the library
  functions that are not rational (`gr_expj`, `std::abs`) and the constant `M_TWOPI` are
  parameters, collected in the structure `numerics`.
* The entry points `parse` and `parse_soft` of the formatter's base class are not among the
  sources; their state machine and slicer are modelled from the specification, around the
  `header_ok` and `header_payload` of the source. Every such definition says so in its
  comment.
-/

namespace gr
namespace digital

/-! ## Bytes and memory -/

/-- Memory image of the first `n` bytes of the unsigned integer `x` on a little-endian
host: byte `k` is `x / 256 ^ k % 256`. -/
def toBytesLE : Nat → Nat → List Nat
  | 0, _ => []
  | n + 1, x => x % 256 :: toBytesLE n (x / 256)

/-- The unsigned integer whose little-endian memory image is the given byte list. -/
def ofBytesLE : List Nat → Nat
  | [] => 0
  | b :: bs => b + 256 * ofBytesLE bs

/-- VOLK kernel `volk_16u_byteswap` on one item: the two bytes of a 16-bit word are
reversed. -/
def volk_16u_byteswap (x : Nat) : Nat :=
  ofBytesLE (toBytesLE 2 x).reverse

/-- VOLK kernel `volk_64u_byteswap` on one item: the eight bytes of a 64-bit word are
reversed. -/
def volk_64u_byteswap (x : Nat) : Nat :=
  ofBytesLE (toBytesLE 8 x).reverse

/-- The call `volk_malloc(n, alignment)`: `n` bytes of indeterminate content. -/
def volk_malloc (n : Nat) : List (Option Nat) :=
  List.replicate n none

/-- The call `memcpy(&dst[offset], src, src.length)` for a destination range that lies inside
`dst`: the bytes before and after the range are kept. -/
def memcpy (dst : List (Option Nat)) (offset : Nat) (src : List Nat) : List (Option Nat) :=
  dst.take offset ++ src.map some ++ dst.drop (offset + src.length)

/-- The conversion `static_cast<uint16_t>` of a signed integer: reduction modulo `2 ^ 16`. -/
def static_cast_uint16 (v : Int) : Nat :=
  (v % 65536).toNat

/-! ## PMT dictionaries -/

/-- Modelled from the spec: the frame descriptor, a PMT dictionary (the PMT library is not
part of the sources at hand). It is a mapping from string keys to integers, kept as an
association list with the most recently added key first. -/
abbrev pmt_dict := List (String × Int)

/-- Modelled from the spec: `pmt::make_dict()`, the empty mapping. -/
def make_dict : pmt_dict := []

/-- Modelled from the spec: `pmt::dict_add(dict, key, value)`, the mapping with `key` bound to
`value` and every other key as in `dict`. -/
def dict_add (dict : pmt_dict) (key : String) (value : Int) : pmt_dict :=
  (key, value) :: dict.filter (fun kv => kv.1 != key)

/-- Modelled from the spec: `pmt::dict_ref(dict, key, PMT_NIL)`, the value bound to `key`,
if any. -/
def dict_ref (dict : pmt_dict) (key : String) : Option Int :=
  (dict.find? (fun kv => kv.1 == key)).map Prod.snd

/-- Keys bound in a dictionary. -/
def dict_keys (dict : pmt_dict) : List String :=
  dict.map Prod.fst

/-! ## The counter formatter -/

/-- State of a `packet_formatter_counter` object: the members the counter variant reads or
writes. `d_access_code` and `d_hdr_reg` are 64-bit unsigned, `d_access_code_len` is a
`size_t` of at most 64 (the base class refuses longer access codes), `d_bps` and `d_counter`
are 16-bit unsigned, `d_count` is an `int`. -/
structure packet_formatter_counter where
  d_access_code : Nat
  d_access_code_len : Nat
  d_hdr_reg : Nat
  d_count : Int
  d_info : pmt_dict
  d_bps : Nat
  d_counter : Nat
  deriving DecidableEq, Repr

namespace packet_formatter_counter

/-- Constructor `packet_formatter_counter(access_code, bps)`. The base-class constructor
(not in the sources at hand) fills in the access code, passed here as the pattern and its
length in bits, and starts with a cleared header register, bit count and descriptor; the
derived constructor stores `bps` in the 16-bit member `d_bps` and zeroes the counter. -/
def make (access_code access_code_len : Nat) (bps : Int) : packet_formatter_counter :=
  { d_access_code := access_code % 2 ^ 64
    d_access_code_len := access_code_len
    d_hdr_reg := 0
    d_count := 0
    d_info := make_dict
    d_bps := static_cast_uint16 bps
    d_counter := 0 }

/-- Method `header_nbits()`: `d_access_code_len + 8*4*sizeof(uint16_t)`. -/
def header_nbits (self : packet_formatter_counter) : Nat :=
  self.d_access_code_len + 8 * 4 * 2

/-- Method `header_nbytes()`: `d_access_code_len/8 + 4*sizeof(uint16_t)`. -/
def header_nbytes (self : packet_formatter_counter) : Nat :=
  self.d_access_code_len / 8 + 4 * 2

/-- Result of `format`: the returned boolean, the bytes of the `output` PMT vector and the
formatter after the call. The `info` argument is not touched by the counter variant. -/
structure format_result where
  ret : Bool
  output : List (Option Nat)
  self : packet_formatter_counter
  deriving DecidableEq, Repr

/-- Method `format(nbytes_in, input, output, info)`. -/
def format (self : packet_formatter_counter) (nbytes_in : Int) (_input : List Nat) :
    format_result :=
  let header_size := self.header_nbytes
  let bytes_out := volk_malloc header_size
  -- uint16_t len = static_cast<uint16_t>(nbytes_in); volk_16u_byteswap(&len, 1);
  let len := volk_16u_byteswap (static_cast_uint16 nbytes_in)
  -- uint64_t ac = d_access_code; volk_64u_byteswap(&ac, 1); ac = ac >> (64-d_access_code_len);
  let ac_bytes := self.d_access_code_len / 8
  let ac := volk_64u_byteswap self.d_access_code >>> (64 - self.d_access_code_len)
  -- uint16_t bps = d_bps; volk_16u_byteswap(&bps, 1);
  let bps := volk_16u_byteswap (self.d_bps % 65536)
  -- uint16_t counter = d_counter; volk_16u_byteswap(&counter, 1);
  let counter := volk_16u_byteswap (self.d_counter % 65536)
  let offset := 0
  let bytes_out := memcpy bytes_out 0 (toBytesLE ac_bytes ac)
  let offset := offset + ac_bytes
  let bytes_out := memcpy bytes_out offset (toBytesLE 2 len)
  let offset := offset + 2
  let bytes_out := memcpy bytes_out offset (toBytesLE 2 len)
  let offset := offset + 2
  let bytes_out := memcpy bytes_out offset (toBytesLE 2 bps)
  let offset := offset + 2
  let bytes_out := memcpy bytes_out offset (toBytesLE 2 counter)
  -- output = pmt::init_u8vector(header_size, bytes_out); d_counter++; return true;
  { ret := true
    output := bytes_out.take header_size
    self := { self with d_counter := (self.d_counter + 1) % 65536 } }

/-- Method `header_ok()`: the two copies of the length field are compared. -/
def header_ok (self : packet_formatter_counter) : Bool :=
  (((self.d_hdr_reg >>> 48) &&& 0xffff) ^^^ ((self.d_hdr_reg >>> 32) &&& 0xffff)) == 0

/-- Method `header_payload()`: returns the length field and the formatter after the call,
whose `d_info` is the new descriptor. -/
def header_payload (self : packet_formatter_counter) : Int × packet_formatter_counter :=
  let counter := (self.d_hdr_reg &&& 0xffff) % 65536
  let bps := ((self.d_hdr_reg >>> 16) &&& 0xffff) % 65536
  let len := ((self.d_hdr_reg >>> 32) &&& 0xffff) % 65536
  let d_info := make_dict
  let d_info := dict_add d_info "skip samps" self.d_count
  let d_info := dict_add d_info "payload bits" (8 * (len : Int))
  let d_info := dict_add d_info "bps" (bps : Int)
  let d_info := dict_add d_info "counter" (counter : Int)
  ((len : Int), { self with d_bps := bps, d_info := d_info })

/-- A run of `format` calls on one formatter object, each call given as its `nbytes_in` and
`input` arguments; the results are listed in call order. -/
def format_calls : packet_formatter_counter → List (Int × List Nat) → List format_result
  | _, [] => []
  | self, call :: calls =>
    (format self call.1 call.2) :: format_calls (format self call.1 call.2).self calls

/-- The 16-bit field that starts at byte `offset` of a formatted header, read the way
`qa_packet_formatters::test_counter_format` reads it:
`((h8 << 8) & 0xFF00) | (h9 & 0x00FF)`. -/
def field16_at (output : List (Option Nat)) (offset : Nat) : Option Nat := do
  let h8 ← (output[offset]?).join
  let h9 ← (output[offset + 1]?).join
  pure ((((h8 <<< 8) &&& 0xFF00) ||| (h9 &&& 0x00FF)) % 65536)

/-- Modelled from the spec: the kernel `unpack_k_bits(8)` on one byte (the blocks library is
not part of the sources at hand). Unpacking produces the bits `[b7, b6, …, b0]`. -/
def unpack_byte (byte : Nat) : List Nat :=
  (List.range 8).map (fun j => (byte >>> (7 - j)) &&& 1)

/-- Modelled from the spec: `unpack_k_bits(8)::unpack` on a byte buffer, most significant
bit of each byte first. -/
def unpack (bytes : List Nat) : List Nat :=
  bytes.flatMap unpack_byte

/-- Modelled from the spec: one step of the `HEADER` state of the parser in the base class
(not in the sources at hand): the 64-bit header register is shifted left by one
and the decided bit is ORed into bit 0. -/
def shift_in_hdr_reg (d_hdr_reg bit : Nat) : Nat :=
  ((d_hdr_reg <<< 1) ||| (bit &&& 1)) % 2 ^ 64

/-- Modelled from the spec: the header register after the given bits have been shifted in,
first bit first, starting from a zeroed register. -/
def hdr_reg_of_bits (bits : List Nat) : Nat :=
  bits.foldl shift_in_hdr_reg 0

/-! ### The parser state machine -/

/-- Modelled from the spec: the bits of the access code as they are transmitted, leftmost
(most significant of the `access_code_len` low bits) first. -/
def access_code_bits (access_code access_code_len : Nat) : List Nat :=
  (List.range access_code_len).map (fun j => (access_code >>> (access_code_len - 1 - j)) &&& 1)

/-- Modelled from the spec: the Hamming distance between the low `nbits` bits of two
registers (the correlator of the base class is not in the sources at hand). -/
def hamming_distance (nbits a b : Nat) : Nat :=
  ((List.range nbits).filter (fun i => a.testBit i != b.testBit i)).length

/-- Modelled from the spec: the states `SEARCH` and `HEADER` of the header state machine. -/
inductive parse_state where
  | SEARCH
  | HEADER
  deriving DecidableEq, Repr

/-- Modelled from the spec: the parser of the base class (`parse` is not in the sources at
hand) around the counter codec. Besides the codec state it holds the state of the state
machine, the rolling 64-bit search register, the threshold, the number of header bits
shifted in since `HEADER` was entered (the `count` that the spec zeroes on that transition)
and the descriptors emitted so far. The bit counter that the spec calls the global count
is the member `d_count` of the codec, the one `header_payload` reads. -/
structure parse_machine where
  formatter : packet_formatter_counter
  d_state : parse_state
  d_data_reg : Nat
  d_threshold : Nat
  d_hdr_count : Nat
  info : List pmt_dict
  deriving DecidableEq, Repr

/-- Modelled from the spec: a parser that has not consumed any bit: state `SEARCH`, cleared
registers and counters, no descriptor. -/
def parse_machine.start (formatter : packet_formatter_counter) (threshold : Nat) :
    parse_machine :=
  { formatter := { formatter with d_count := 0, d_hdr_reg := 0 }
    d_state := parse_state.SEARCH
    d_data_reg := 0
    d_threshold := threshold
    d_hdr_count := 0
    info := [] }

/-- Modelled from the spec: the parser consumes one hard bit. The global count advances
on every bit. In `SEARCH` the bit is shifted into the search register and, when the
Hamming distance between its low `L_ac` bits and the access code is at most the threshold,
the machine enters `HEADER` with a zeroed header register and header bit count. In
`HEADER` the bit is shifted into the header register; after `header_nbits() - L_ac` bits
`header_ok()` is invoked, on success `header_payload()` builds the descriptor, which is
emitted, and in both cases the machine returns to `SEARCH`. -/
def parse_bit (p : parse_machine) (bit : Nat) : parse_machine :=
  let f := { p.formatter with d_count := p.formatter.d_count + 1 }
  match p.d_state with
  | parse_state.SEARCH =>
    let reg := shift_in_hdr_reg p.d_data_reg bit
    if hamming_distance f.d_access_code_len reg f.d_access_code ≤ p.d_threshold then
      { p with
        formatter := { f with d_hdr_reg := 0 }
        d_state := parse_state.HEADER
        d_data_reg := reg
        d_hdr_count := 0 }
    else
      { p with formatter := f, d_data_reg := reg }
  | parse_state.HEADER =>
    let f := { f with d_hdr_reg := shift_in_hdr_reg f.d_hdr_reg bit }
    let count := p.d_hdr_count + 1
    if count = f.header_nbits - f.d_access_code_len then
      if f.header_ok then
        { p with
          formatter := f.header_payload.2
          d_state := parse_state.SEARCH
          d_hdr_count := count
          info := p.info ++ [f.header_payload.2.d_info] }
      else
        { p with formatter := f, d_state := parse_state.SEARCH, d_hdr_count := count }
    else
      { p with formatter := f, d_hdr_count := count }

/-- Modelled from the spec: `parse(nbits_in, input, info)` on a stream of hard bits; the
descriptors are in the member `info` of the result. -/
def parse (p : parse_machine) (bits : List Nat) : parse_machine :=
  bits.foldl parse_bit p

end packet_formatter_counter

end digital
end gr

/-! ## Complex samples in exact arithmetic -/

namespace gr

/-- The type `gr_complex` (`std::complex<float>`), read in exact arithmetic over an ordered
field `R` of real numbers: a pair of a real and an imaginary part. -/
structure gr_complex (R : Type) where
  re : R
  im : R
  deriving DecidableEq, Repr

namespace gr_complex

variable {R : Type} [LinearOrderedField R]

instance : Zero (gr_complex R) := ⟨⟨0, 0⟩⟩

instance : Add (gr_complex R) := ⟨fun a b => ⟨a.re + b.re, a.im + b.im⟩⟩

instance : Sub (gr_complex R) := ⟨fun a b => ⟨a.re - b.re, a.im - b.im⟩⟩

instance : Mul (gr_complex R) :=
  ⟨fun a b => ⟨a.re * b.re - a.im * b.im, a.re * b.im + a.im * b.re⟩⟩

/-- Complex division, `(a + jb)/(c + jd) = ((ac + bd) + j(bc - ad)) / (c² + d²)`. -/
instance : Div (gr_complex R) :=
  ⟨fun a b => ⟨(a.re * b.re + a.im * b.im) / (b.re * b.re + b.im * b.im),
    (a.im * b.re - a.re * b.im) / (b.re * b.re + b.im * b.im)⟩⟩

/-- The function `std::norm`: the squared magnitude. -/
def norm (z : gr_complex R) : R :=
  z.re * z.re + z.im * z.im

/-- Division of a complex number by a real one (`complex / float`, `complex /= float`). -/
def div_real (z : gr_complex R) (r : R) : gr_complex R :=
  ⟨z.re / r, z.im / r⟩

end gr_complex

/-- The library values used by the acquisition engine that are not rational functions of
their arguments: the constant `M_TWOPI`, the function `gr_expj(phase)` (`cos(phase) +
j sin(phase)`) and `std::abs` of a complex number. They are parameters of the embedding;
a theorem that relies on a property of one of them states it as a hypothesis. -/
structure numerics (R : Type) where
  M_TWOPI : R
  gr_expj : R → gr_complex R
  abs : gr_complex R → R

/-! ## Machine integers, buffers and loops -/

/-- Conversion to `unsigned int`: reduction modulo `2 ^ 32`. -/
def to_unsigned (x : Int) : Nat :=
  (x % 2 ^ 32).toNat

/-- Conversion of an `unsigned int` to `int` (two's complement). -/
def to_int (x : Nat) : Int :=
  if x % 2 ^ 32 < 2 ^ 31 then ((x % 2 ^ 32 : Nat) : Int) else ((x % 2 ^ 32 : Nat) : Int) - 2 ^ 32

/-- Read of `buf[i]` through a pointer or a vector; `none` when the index is outside the
buffer (undefined behaviour in C++). -/
def read_at {α : Type} (buf : List α) (i : Int) : Option α :=
  if 0 ≤ i then buf[i.toNat]? else none

/-- Write `buf[i] = v`; `none` when the index is outside the buffer. -/
def write_at {α : Type} (buf : List α) (i : Nat) (v : α) : Option (List α) :=
  if i < buf.length then some (buf.set i v) else none

/-- Iterations of a counting loop: `count` runs of `body`, the counter starting at `i` and
advancing by `step`; the loop stops with `none` as soon as a run of the body does. -/
def for_loop_from {σ : Type} (step : Nat) (body : Nat → σ → Option σ) :
    Nat → Nat → σ → Option σ
  | 0, _, s => some s
  | count + 1, i, s =>
    match body i s with
    | none => none
    | some s' => for_loop_from step body count (i + step) s'

/-- The loop `for (i = start; i < bound; i += step) body`, for `step > 0`: the body runs
for `i = start, start + step, ...` as long as `i < bound`, that is
`⌈(bound - start) / step⌉` times. The counter is not reduced modulo `2 ^ 32`: below a
bound of `2 ^ 32 - step` it cannot wrap. -/
def for_loop {σ : Type} (start bound step : Nat) (body : Nat → σ → Option σ) (init : σ) :
    Option σ :=
  for_loop_from step body ((bound - start + (step - 1)) / step) start init

/-- The constant `MAX_NUM_SYMBOLS`. -/
def MAX_NUM_SYMBOLS : Nat := 1000

/-! ## The acquisition engine -/

/-- State of a `gr_ofdm_mimo_frame_acquisition` block. The `unsigned int` members are
natural numbers below `2 ^ 32`; `d_coarse_freq` is an `int`; `d_hestimate` has one tap
vector per antenna. The member `d_snr_est` is allocated and never used, and is left out. -/
structure gr_ofdm_mimo_frame_acquisition (R : Type) where
  d_occupied_carriers : Nat
  d_fft_length : Nat
  d_cplen : Nat
  d_freq_shift_len : Nat
  d_known_symbol : List (gr_complex R)
  d_known_phase_diff : List R
  d_symbol_phase_diff : List R
  d_hestimate : List (List (gr_complex R))
  d_coarse_freq : Int
  d_phase_count : Nat
  d_nchannels : Nat
  d_phase_lut : List (gr_complex R)
  deriving DecidableEq, Repr

namespace gr_ofdm_mimo_frame_acquisition

variable {R : Type} [LinearOrderedField R]

/-- Constructor, first loop: `d_known_phase_diff` is zero-filled, then
`for(i = 0; i < d_known_symbol.size()-2; i+=2)
   d_known_phase_diff[i] = norm(d_known_symbol[i] - d_known_symbol[i+2]);`
The bound is a `size_t` (64 bits) and wraps when the known symbol has fewer than two
entries. -/
def known_phase_diff (known_symbol : List (gr_complex R)) (occupied_carriers : Nat) :
    Option (List R) :=
  for_loop 0 ((known_symbol.length + 2 ^ 64 - 2) % 2 ^ 64) 2
    (fun i diff => do
      let a ← known_symbol[i]?
      let b ← known_symbol[i + 2]?
      write_at diff i (gr_complex.norm (a - b)))
    (List.replicate occupied_carriers 0)

/-- Constructor, second loop: the phase look-up table,
`for(i = 0; i <= 2*d_freq_shift_len; i++) for(j = 0; j < MAX_NUM_SYMBOLS; j++)
   d_phase_lut[j + i*MAX_NUM_SYMBOLS] =
     gr_expj(-M_TWOPI*d_cplen/d_fft_length*(i-d_freq_shift_len)*j);`
where `i - d_freq_shift_len` is a difference of two `unsigned int`. -/
def phase_lut (m : numerics R) (cplen fft_length freq_shift_len : Nat) :
    Option (List (gr_complex R)) :=
  for_loop 0 (to_unsigned (2 * freq_shift_len) + 1) 1
    (fun i lut =>
      for_loop 0 MAX_NUM_SYMBOLS 1
        (fun j lut =>
          write_at lut (to_unsigned (j + i * MAX_NUM_SYMBOLS))
            (m.gr_expj (-m.M_TWOPI * (cplen : R) / (fft_length : R)
              * ((to_unsigned ((i : Int) - (freq_shift_len : Int)) : Nat) : R) * (j : R))))
        lut)
    (List.replicate (to_unsigned ((to_unsigned (2 * freq_shift_len) + 1) * MAX_NUM_SYMBOLS)) 0)

/-- Constructor `gr_ofdm_mimo_frame_acquisition(nchannels, occupied_carriers, fft_length,
cplen, known_symbol, max_fft_shift_len)`. -/
def make (m : numerics R) (nchannels occupied_carriers fft_length cplen : Nat)
    (known_symbol : List (gr_complex R)) (max_fft_shift_len : Nat) :
    Option (gr_ofdm_mimo_frame_acquisition R) := do
  let d_known_phase_diff ← known_phase_diff known_symbol occupied_carriers
  let d_phase_lut ← phase_lut m cplen fft_length max_fft_shift_len
  pure
    { d_occupied_carriers := occupied_carriers
      d_fft_length := fft_length
      d_cplen := cplen
      d_freq_shift_len := max_fft_shift_len
      d_known_symbol := known_symbol
      d_known_phase_diff := d_known_phase_diff
      d_symbol_phase_diff := List.replicate fft_length 0
      d_hestimate := List.replicate nchannels (List.replicate occupied_carriers 0)
      d_coarse_freq := 0
      d_phase_count := 0
      d_nchannels := nchannels
      d_phase_lut := d_phase_lut }

/-- Method `coarse_freq_comp(freq_delta, symbol_count)`:
`gr_expj(-M_TWOPI*freq_delta*d_cplen/d_fft_length*symbol_count)`. -/
def coarse_freq_comp (m : numerics R) (self : gr_ofdm_mimo_frame_acquisition R)
    (freq_delta symbol_count : Int) : gr_complex R :=
  m.gr_expj (-m.M_TWOPI * (freq_delta : R) * (self.d_cplen : R) / (self.d_fft_length : R)
    * (symbol_count : R))

/-- Method `correlate`, first loop: `d_symbol_phase_diff` is zero-filled, then
`for(i = 0; i < d_fft_length-2; i++)
   d_symbol_phase_diff[i] = norm(symbol[i] - symbol[i+2]);` -/
def symbol_phase_diff (self : gr_ofdm_mimo_frame_acquisition R) (symbol : List (gr_complex R)) :
    Option (List R) :=
  for_loop 0 (to_unsigned ((self.d_fft_length : Int) - 2)) 1
    (fun i diff => do
      let a ← symbol[i]?
      let b ← symbol[i + 2]?
      write_at diff i (gr_complex.norm (a - b)))
    (List.replicate self.d_symbol_phase_diff.length 0)

/-- Method `correlate`, inner loop: the score of window position `i`,
`sum = 0; for(j = 0; j < d_occupied_carriers; j++)
   sum += (d_known_phase_diff[j] * d_symbol_phase_diff[i+j]);` -/
def correlate_sum (self : gr_ofdm_mimo_frame_acquisition R) (diff : List R) (i : Nat) :
    Option R :=
  for_loop 0 self.d_occupied_carriers 1
    (fun j sum => do
      let k ← self.d_known_phase_diff[j]?
      let d ← diff[to_unsigned (i + j)]?
      pure (sum + k * d))
    0

/-- Method `correlate`, outer loop, started from `index = 0` and `max = 0`; the state is
the pair `(index, max)`:
`for(i = zeros_on_left - d_freq_shift_len; i < zeros_on_left + d_freq_shift_len; i++) {
   ...; if(sum > max) { max = sum; index = i; } }` -/
def correlate_sweep (self : gr_ofdm_mimo_frame_acquisition R) (diff : List R)
    (zeros_on_left : Int) : Option (Int × R) :=
  for_loop (to_unsigned (zeros_on_left - self.d_freq_shift_len))
    (to_unsigned (zeros_on_left + self.d_freq_shift_len)) 1
    (fun i st => do
      let sum ← correlate_sum self diff i
      pure (if sum > st.2 then (to_int i, sum) else st))
    (0, 0)

/-- Method `correlate(symbol, zeros_on_left)`. -/
def correlate (self : gr_ofdm_mimo_frame_acquisition R) (symbol : List (gr_complex R))
    (zeros_on_left : Int) : Option (gr_ofdm_mimo_frame_acquisition R) := do
  let diff ← symbol_phase_diff self symbol
  let st ← correlate_sweep self diff zeros_on_left
  -- d_coarse_freq = index - zeros_on_left;
  pure { self with d_symbol_phase_diff := diff, d_coarse_freq := st.1 - zeros_on_left }

/-- Method `calculate_equalizer`, the body of the loop over the even taps, for counter `i`:
`d_hestimate[channel][i] = d_known_symbol[i] /
   (coarse_freq_comp(d_coarse_freq,1)*(symbol[i+zeros_on_left+d_coarse_freq]));
 d_hestimate[channel][i-1] =
   (d_hestimate[channel][i] + d_hestimate[channel][i-2]) / gr_complex(2.0, 0.0);`
The index `i+zeros_on_left+d_coarse_freq` is an `unsigned int`. -/
def equalizer_step (m : numerics R) (self : gr_ofdm_mimo_frame_acquisition R)
    (symbol : List (gr_complex R)) (zeros_on_left : Int) (i : Nat)
    (h : List (gr_complex R)) : Option (List (gr_complex R)) := do
  let k ← self.d_known_symbol[i]?
  let s ← symbol[to_unsigned ((i : Int) + zeros_on_left + self.d_coarse_freq)]?
  let h ← write_at h i (k / (coarse_freq_comp m self self.d_coarse_freq 1 * s))
  let hi ← h[i]?
  let hi2 ← h[i - 2]?
  write_at h (i - 1) ((hi + hi2) / (⟨2, 0⟩ : gr_complex R))

/-- Method `calculate_equalizer`, the loop over the even taps:
`for(i = 2; i < d_occupied_carriers; i+=2) { ... }` -/
def equalizer_loop (m : numerics R) (self : gr_ofdm_mimo_frame_acquisition R)
    (symbol : List (gr_complex R)) (zeros_on_left : Int) (h : List (gr_complex R)) :
    Option (List (gr_complex R)) :=
  for_loop 2 self.d_occupied_carriers 2 (equalizer_step m self symbol zeros_on_left) h

/-- Method `calculate_equalizer(channel, symbol, zeros_on_left)`. -/
def calculate_equalizer (m : numerics R) (self : gr_ofdm_mimo_frame_acquisition R)
    (channel : Nat) (symbol : List (gr_complex R)) (zeros_on_left : Int) :
    Option (gr_ofdm_mimo_frame_acquisition R) := do
  let h ← self.d_hestimate[channel]?
  -- Set first tap of equalizer
  let k ← self.d_known_symbol[0]?
  let s ← read_at symbol (zeros_on_left + self.d_coarse_freq)
  let h ← write_at h 0 (k / (coarse_freq_comp m self self.d_coarse_freq 1 * s))
  -- set every even tap based on known symbol, interpolate the odd ones
  let h ← equalizer_loop m self symbol zeros_on_left h
  -- with even number of carriers; last equalizer tap is wrong
  let h ←
    (if self.d_occupied_carriers % 2 = 0 then
      (h[to_unsigned ((self.d_occupied_carriers : Int) - 2)]?).bind
        (fun last => write_at h (to_unsigned ((self.d_occupied_carriers : Int) - 1)) last)
    else pure h)
  pure { self with d_hestimate := self.d_hestimate.set channel h }

/-- Arguments of one `general_work` call: the flag items of input port 0, the symbol
items of the input ports `1, 2, ...` (one list per port), and the content of the output
buffer of port 0 when the call starts. -/
structure work_input (R : Type) where
  signal_in : List Int
  symbols : List (List (gr_complex R))
  out : List (gr_complex R)
  deriving DecidableEq, Repr

/-- Effects of one `general_work` call: the block after the call, the output buffers of
ports 0 and 1, the number of items consumed on each input (`consume_each`) and the
returned number of output items. -/
structure work_result (R : Type) where
  self : gr_ofdm_mimo_frame_acquisition R
  out : List (gr_complex R)
  signal_out : Int
  consumed : Int
  produced : Int
  deriving DecidableEq, Repr

/-- Method `general_work`, preamble branch (`if(signal_in[0])`): coarse frequency search
on the symbol of port 1, one equalizer per channel, then `d_phase_count = 1`. -/
def preamble (m : numerics R) (self : gr_ofdm_mimo_frame_acquisition R)
    (symbols : List (List (gr_complex R))) (zeros_on_left : Int) :
    Option (gr_ofdm_mimo_frame_acquisition R) := do
  let symbol ← symbols[0]?
  let self ← correlate self symbol zeros_on_left
  let self ← for_loop 0 self.d_nchannels 1
    (fun channel self => do
      let symbol ← symbols[channel]?
      calculate_equalizer m self channel symbol zeros_on_left)
    self
  pure { self with d_phase_count := 1 }

/-- Method `general_work`, the body of the loop over the channels for carrier `i`; the state
is the pair `(out, norm)`:
`gr_complex scale = d_hestimate[channel][i] / abs(d_hestimate[channel][i]);
 norm += 1.0 / abs(d_hestimate[channel][i]);
 out[i] += scale*coarse_freq_comp(d_coarse_freq,d_phase_count)
   *symbol[i+zeros_on_left+d_coarse_freq];` -/
def combine_channel (m : numerics R) (self : gr_ofdm_mimo_frame_acquisition R)
    (symbols : List (List (gr_complex R))) (zeros_on_left : Int) (i channel : Nat)
    (st : List (gr_complex R) × R) : Option (List (gr_complex R) × R) := do
  let symbol ← symbols[channel]?
  let taps ← self.d_hestimate[channel]?
  let h ← taps[i]?
  let scale := gr_complex.div_real h (m.abs h)
  let norm := st.2 + 1 / m.abs h
  let s ← symbol[to_unsigned ((i : Int) + zeros_on_left + self.d_coarse_freq)]?
  let o ← st.1[i]?
  let out ← write_at st.1 i
    (o + scale * coarse_freq_comp m self self.d_coarse_freq (to_int self.d_phase_count) * s)
  pure (out, norm)

/-- Method `general_work`, equalize and combine all channels:
`for(unsigned int i = 0; i < d_occupied_carriers; i++) {
   float norm = 0;
   for(int channel = 0; channel < d_nchannels; channel++) { ... }
   out[i] /= norm; }` -/
def equalize_and_combine (m : numerics R) (self : gr_ofdm_mimo_frame_acquisition R)
    (symbols : List (List (gr_complex R))) (zeros_on_left : Int)
    (out : List (gr_complex R)) : Option (List (gr_complex R)) :=
  for_loop 0 self.d_occupied_carriers 1
    (fun i out => do
      let st ← for_loop 0 self.d_nchannels 1
        (combine_channel m self symbols zeros_on_left i) (out, 0)
      let o ← st.1[i]?
      write_at st.1 i (gr_complex.div_real o st.2))
    out

/-- Method `general_work(noutput_items, ninput_items, input_items, output_items)`. -/
def general_work (m : numerics R) (self : gr_ofdm_mimo_frame_acquisition R)
    (input : work_input R) : Option (work_result R) := do
  -- int unoccupied_carriers = d_fft_length - d_occupied_carriers;
  let unoccupied_carriers :=
    to_int (to_unsigned ((self.d_fft_length : Int) - (self.d_occupied_carriers : Int)))
  -- int zeros_on_left = (int)ceil(unoccupied_carriers/2.0);
  let zeros_on_left := (unoccupied_carriers + 1) / 2
  -- Test if we hit the start of a preamble
  let flag ← input.signal_in[0]?
  let self ← (if flag ≠ 0 then preamble m self input.symbols zeros_on_left else pure self)
  let signal_out : Int := if flag ≠ 0 then 1 else 0
  -- Equalize and combine all channels
  let out ← equalize_and_combine m self input.symbols zeros_on_left input.out
  -- d_phase_count++; if(d_phase_count >= MAX_NUM_SYMBOLS) d_phase_count = 1;
  let d_phase_count := (self.d_phase_count + 1) % 2 ^ 32
  let d_phase_count := if d_phase_count ≥ MAX_NUM_SYMBOLS then 1 else d_phase_count
  pure
    { self := { self with d_phase_count := d_phase_count }
      out := out
      signal_out := signal_out
      consumed := 1
      produced := 1 }

/-- A run of `general_work` calls on one block, in call order; the result is the block
after the last call, `none` if some call does not complete. -/
def work_calls (m : numerics R) :
    gr_ofdm_mimo_frame_acquisition R → List (work_input R) →
      Option (gr_ofdm_mimo_frame_acquisition R)
  | self, [] => some self
  | self, input :: inputs =>
    match general_work m self input with
    | none => none
    | some r => work_calls m r.self inputs

/-! ### Quantities named by the specification -/

/-- The value of `zeros_on_left` that `general_work` computes from the state:
`(int)ceil(unoccupied_carriers/2.0)` with
`int unoccupied_carriers = d_fft_length - d_occupied_carriers`. -/
def work_zeros_on_left (self : gr_ofdm_mimo_frame_acquisition R) : Int :=
  (to_int (to_unsigned ((self.d_fft_length : Int) - (self.d_occupied_carriers : Int))) + 1) / 2

/-- The score of window position `i` for a preamble symbol, as `correlate` computes it
(`sum over j of d_known_phase_diff[j] * d_symbol_phase_diff[i+j]`); it is 0 when an access
is outside a buffer. -/
def window_score (self : gr_ofdm_mimo_frame_acquisition R) (symbol : List (gr_complex R))
    (i : Nat) : R :=
  ((symbol_phase_diff self symbol).bind (fun diff => correlate_sum self diff i)).getD 0

/-- The equalizer tap `H_c[i]` of channel `c`; it is 0 outside the tap vectors. -/
def tap (self : gr_ofdm_mimo_frame_acquisition R) (c i : Nat) : gr_complex R :=
  ((self.d_hestimate[c]?).bind (fun taps => taps[i]?)).getD 0

/-- The received sample `s_c[i + zeros_on_left + coarse_freq]` of channel `c` for carrier
`i`, the index being computed in `unsigned int` as the code does; it is 0 outside the
buffers. -/
def carrier_sample (self : gr_ofdm_mimo_frame_acquisition R)
    (symbols : List (List (gr_complex R))) (zeros_on_left : Int) (c i : Nat) : gr_complex R :=
  ((symbols[c]?).bind (fun symbol =>
    symbol[to_unsigned ((i : Int) + zeros_on_left + self.d_coarse_freq)]?)).getD 0

/-- The sum `f 0 + f 1 + ... + f (n - 1)`, added up from the left, starting from `init`. -/
def sum_from {α : Type} [Add α] (init : α) (n : Nat) (f : Nat → α) : α :=
  (List.range n).foldl (fun acc c => acc + f c) init

/-- The combined output of carrier `i` in the words of the specification, for symbol
index `n`: `(sum over antennas c of (H_c[i]/|H_c[i]|) * phase_comp(coarse_freq, n) *
s_c[i + zeros_on_left + coarse_freq]) / (sum over antennas c of 1/|H_c[i]|)`. -/
def combined_output (m : numerics R) (self : gr_ofdm_mimo_frame_acquisition R)
    (symbols : List (List (gr_complex R))) (zeros_on_left : Int) (n : Int) (i : Nat) :
    gr_complex R :=
  gr_complex.div_real
    (sum_from 0 self.d_nchannels (fun c =>
      gr_complex.div_real (tap self c i) (m.abs (tap self c i))
        * coarse_freq_comp m self self.d_coarse_freq n
        * carrier_sample self symbols zeros_on_left c i))
    (sum_from 0 self.d_nchannels (fun c => 1 / m.abs (tap self c i)))

/-- The differential `|k[j] - k[j+2]|²` of the known symbol in the words of the
specification; entries outside the known symbol count as 0. -/
def known_differential (known_symbol : List (gr_complex R)) (j : Nat) : R :=
  gr_complex.norm ((known_symbol[j]?).getD 0 - (known_symbol[j + 2]?).getD 0)

/-- The known symbol extended by zeros: `k[n]` for `0 <= n < occupied_carriers`, 0 for
every other integer `n`. -/
def known_at (self : gr_ofdm_mimo_frame_acquisition R) (n : Int) : gr_complex R :=
  if 0 ≤ n ∧ n < (self.d_occupied_carriers : Int) then (self.d_known_symbol[n.toNat]?).getD 0
  else 0

/-- A preamble symbol of `fft_length` bins in the words of the specification: the known
symbol placed at the bins `offset, ..., offset + occupied_carriers - 1`, each sample
multiplied by the phase `p`, zero elsewhere. -/
def shifted_known_symbol (self : gr_ofdm_mimo_frame_acquisition R) (p : gr_complex R)
    (offset : Int) : List (gr_complex R) :=
  (List.range self.d_fft_length).map (fun (n : Nat) =>
    if offset ≤ (n : Int) ∧ (n : Int) < offset + (self.d_occupied_carriers : Int)
    then p * (self.d_known_symbol[((n : Int) - offset).toNat]?).getD 0 else 0)

/-- The score of the known symbol against itself at lag `t`, for the known symbol placed at
bin `offset` of a symbol of `fft_length` bins: the sum over `j < occupied_carriers` of
`K[j] * |k[j+t] - k[j+t+2]|²`, where `K` is the table `d_known_phase_diff` (0 outside it),
`k` is the known symbol extended by zeros, and the differential counts as 0 at the last two
bins of the symbol (`offset + t + j + 2 >= fft_length`), which `correlate` leaves at 0. -/
def known_correlation (self : gr_ofdm_mimo_frame_acquisition R) (offset t : Int) : R :=
  sum_from 0 self.d_occupied_carriers (fun (j : Nat) =>
    (self.d_known_phase_diff[j]?).getD 0
      * (if offset + t + (j : Int) + 2 < (self.d_fft_length : Int)
          then gr_complex.norm (known_at self (t + (j : Int)) - known_at self (t + (j : Int) + 2))
          else 0))

/-! ### Example data -/

/-- A rational instance of the library values, used to run the engine on exact inputs:
`M_TWOPI` is `44/7`, `gr_expj` is the rational parametrisation
`t ↦ ((1 - t²) + 2jt) / (1 + t²)` of the unit circle (it has magnitude one everywhere and
value one at phase zero), and `abs` is `|re| + |im|`, the magnitude of a real or a purely
imaginary number. -/
def example_numerics : numerics ℚ :=
  { M_TWOPI := 44 / 7
    gr_expj := fun t => ⟨(1 - t * t) / (1 + t * t), 2 * t / (1 + t * t)⟩
    abs := fun z => |z.re| + |z.im| }

/-- The engine built by the constructor for one channel, 4 occupied carriers, an FFT of
length 8, a cyclic prefix of 2, the known symbol `[1, 0, -1, 0]` and a search half-width
of 1 (see `example_engine_made`). -/
def example_engine : gr_ofdm_mimo_frame_acquisition ℚ :=
  { d_occupied_carriers := 4
    d_fft_length := 8
    d_cplen := 2
    d_freq_shift_len := 1
    d_known_symbol := [⟨1, 0⟩, ⟨0, 0⟩, ⟨-1, 0⟩, ⟨0, 0⟩]
    d_known_phase_diff := [4, 0, 0, 0]
    d_symbol_phase_diff := [0, 0, 0, 0, 0, 0, 0, 0]
    d_hestimate := [[⟨0, 0⟩, ⟨0, 0⟩, ⟨0, 0⟩, ⟨0, 0⟩]]
    d_coarse_freq := 0
    d_phase_count := 0
    d_nchannels := 1
    d_phase_lut := (List.range (2 * 1 + 1)).flatMap (fun i =>
      (List.range MAX_NUM_SYMBOLS).map (fun (j : Nat) =>
        example_numerics.gr_expj (-example_numerics.M_TWOPI * ((2 : Nat) : ℚ) / ((8 : Nat) : ℚ)
          * ((to_unsigned ((i : Int) - ((1 : Nat) : Int)) : Nat) : ℚ) * (j : ℚ)))) }

/-- A second rational instance of the library values, with a `gr_expj` of period `M_TWOPI`
(`44/7`): the phase is reduced to a fraction of a turn in `[0, 1)`, the quarter of the turn
selects one of the rotations `1, j, -1, -j`, and the position `u` in `[0, 1)` inside the
quarter is mapped to `((1 - u²) + 2ju) / (1 + u²)`. It has magnitude one everywhere and
the exact values `1, j, -1, -j` at the multiples of a quarter turn. `abs` is `|re| + |im|`. -/
def periodic_numerics : numerics ℚ :=
  { M_TWOPI := 44 / 7
    gr_expj := fun t =>
      let turns := t / (44 / 7)
      let frac := turns - (Rat.floor turns : ℚ)
      let quarter := Rat.floor (4 * frac)
      let u := 4 * frac - (quarter : ℚ)
      let z : gr_complex ℚ := ⟨(1 - u * u) / (1 + u * u), 2 * u / (1 + u * u)⟩
      if quarter = 0 then z
      else if quarter = 1 then ⟨-z.im, z.re⟩
      else if quarter = 2 then ⟨-z.re, -z.im⟩
      else ⟨z.im, -z.re⟩
    abs := fun z => |z.re| + |z.im| }

/-- A received symbol of 8 bins with energy on bins 2 and 4. -/
def example_symbol : List (gr_complex ℚ) :=
  [⟨0, 0⟩, ⟨0, 0⟩, ⟨0, 2⟩, ⟨0, 0⟩, ⟨-3, 0⟩, ⟨0, 0⟩, ⟨0, 0⟩, ⟨0, 0⟩]

/-- A received symbol of 8 bins without any energy. -/
def silent_symbol : List (gr_complex ℚ) :=
  List.replicate 8 ⟨0, 0⟩

end gr_ofdm_mimo_frame_acquisition

end gr

/-! # Theorems -/

namespace gr
namespace digital

/-! ## Bytes and the counter formatter -/

theorem toBytesLE_length (n x : Nat) : (toBytesLE n x).length = n := by
  induction n generalizing x with
  | zero => rfl
  | succ n ih => simp [toBytesLE, ih]

theorem toBytesLE_lt (n x : Nat) : ∀ b ∈ toBytesLE n x, b < 256 := by
  induction n generalizing x with
  | zero => simp [toBytesLE]
  | succ n ih =>
    intro b hb
    simp only [toBytesLE, List.mem_cons] at hb
    rcases hb with rfl | hb
    · exact Nat.mod_lt _ (by decide)
    · exact ih _ b hb

theorem toBytesLE_take (m n x : Nat) (h : m ≤ n) :
    (toBytesLE n x).take m = toBytesLE m x := by
  induction m generalizing n x with
  | zero => simp [toBytesLE]
  | succ m ih =>
    obtain ⟨n, rfl⟩ : ∃ k, n = k + 1 := ⟨n - 1, by omega⟩
    simp [toBytesLE, ih n (x / 256) (by omega)]

theorem toBytesLE_getElem? (n x k : Nat) (h : k < n) :
    (toBytesLE n x)[k]? = some (x / 256 ^ k % 256) := by
  induction n generalizing x k with
  | zero => omega
  | succ n ih =>
    cases k with
    | zero => simp [toBytesLE]
    | succ k =>
      simp only [toBytesLE, List.getElem?_cons_succ]
      rw [ih (x / 256) k (by omega), Nat.div_div_eq_div_mul, pow_succ, Nat.mul_comm]

theorem toBytesLE_ofBytesLE (bs : List Nat) (hbs : ∀ b ∈ bs, b < 256) (n : Nat)
    (hn : n ≤ bs.length) : toBytesLE n (ofBytesLE bs) = bs.take n := by
  induction n generalizing bs with
  | zero => simp [toBytesLE]
  | succ n ih =>
    cases bs with
    | nil => simp at hn
    | cons b bs =>
      have hb : b < 256 := hbs b (by simp)
      have h1 : (b + 256 * ofBytesLE bs) % 256 = b := by omega
      have h2 : (b + 256 * ofBytesLE bs) / 256 = ofBytesLE bs := by omega
      simp only [toBytesLE, ofBytesLE, List.take_succ_cons, h1, h2]
      rw [ih bs (fun c hc => hbs c (by simp [hc])) (by simpa using hn)]

theorem ofBytesLE_div (bs : List Nat) (hbs : ∀ b ∈ bs, b < 256) (m : Nat) :
    ofBytesLE bs / 256 ^ m = ofBytesLE (bs.drop m) := by
  induction m generalizing bs with
  | zero => simp
  | succ m ih =>
    cases bs with
    | nil => simp [ofBytesLE]
    | cons b bs =>
      have hb : b < 256 := hbs b (by simp)
      have h2 : (b + 256 * ofBytesLE bs) / 256 = ofBytesLE bs := by omega
      rw [pow_succ, Nat.mul_comm, ← Nat.div_div_eq_div_mul]
      simp only [ofBytesLE, List.drop_succ_cons, h2]
      exact ih bs (fun c hc => hbs c (by simp [hc]))

theorem volk_16u_byteswap_bytes (x : Nat) :
    toBytesLE 2 (volk_16u_byteswap x) = [x / 256 % 256, x % 256] := by
  unfold volk_16u_byteswap
  rw [toBytesLE_ofBytesLE _ (fun b hb => toBytesLE_lt 2 x b (by simpa using hb)) 2
    (by simp [toBytesLE_length])]
  simp [toBytesLE]

theorem volk_64u_byteswap_bytes (ac n : Nat) (hn : n ≤ 8) :
    toBytesLE n (volk_64u_byteswap ac >>> (64 - 8 * n)) = (toBytesLE n ac).reverse := by
  have hlt : ∀ b ∈ (toBytesLE 8 ac).reverse, b < 256 :=
    fun b hb => toBytesLE_lt 8 ac b (by simpa using hb)
  have hsh : 64 - 8 * n = 8 * (8 - n) := by omega
  have hpow : 2 ^ (8 * (8 - n)) = 256 ^ (8 - n) := by
    rw [pow_mul]; norm_num
  unfold volk_64u_byteswap
  rw [hsh, Nat.shiftRight_eq_div_pow, hpow, ofBytesLE_div _ hlt,
    toBytesLE_ofBytesLE _ (fun b hb => hlt b (List.mem_of_mem_drop hb)) n
      (by simp [toBytesLE_length]; omega)]
  rw [List.take_of_length_le (by simp [toBytesLE_length]; omega), List.drop_reverse,
    toBytesLE_length, toBytesLE_take _ _ _ (by omega)]
  congr 2
  omega

theorem shiftLeft_or_eq (a b i : Nat) (hb : b < 2 ^ i) : (a <<< i) ||| b = a * 2 ^ i + b := by
  rw [Nat.shiftLeft_eq, Nat.mul_comm, ← Nat.mul_add_lt_is_or hb]

theorem shiftLeft_and_high_mask (a : Nat) (ha : a < 256) : (a <<< 8) &&& 0xFF00 = a <<< 8 := by
  apply Nat.eq_of_testBit_eq
  intro i
  have e1 : (0xFF00 : Nat) = (2 ^ 8 - 1) <<< 8 := by decide
  rw [Nat.testBit_and, e1, Nat.testBit_shiftLeft, Nat.testBit_shiftLeft,
    Nat.testBit_two_pow_sub_one]
  by_cases h : i ≥ 8
  · by_cases h2 : i - 8 < 8
    · simp [h, h2]
    · have hz : a.testBit (i - 8) = false :=
        Nat.testBit_lt_two_pow (lt_of_lt_of_le ha (by
          calc 256 = 2 ^ 8 := by norm_num
            _ ≤ 2 ^ (i - 8) := Nat.pow_le_pow_right (by decide) (by omega)))
      simp [hz]
  · simp [h]

theorem two_bytes_be (h8 h9 : Nat) (a : h8 < 256) (b : h9 < 256) :
    ((h8 <<< 8) &&& 0xFF00) ||| (h9 &&& 0x00FF) = h8 * 256 + h9 := by
  have e2 : (0x00FF : Nat) = 2 ^ 8 - 1 := by decide
  rw [shiftLeft_and_high_mask _ a, e2, Nat.and_pow_two_sub_one_eq_mod,
    shiftLeft_or_eq _ _ _ (Nat.mod_lt _ (by decide))]
  omega

theorem shiftRight_and_mask16 (r s : Nat) : (r >>> s) &&& 0xffff = r / 2 ^ s % 65536 := by
  have e : (0xffff : Nat) = 2 ^ 16 - 1 := by decide
  rw [e, Nat.and_pow_two_sub_one_eq_mod, Nat.shiftRight_eq_div_pow]

theorem and_mask16 (r : Nat) : r &&& 0xffff = r % 65536 := by
  have e : (0xffff : Nat) = 2 ^ 16 - 1 := by decide
  rw [e, Nat.and_pow_two_sub_one_eq_mod]

theorem memcpy_fresh (pre : List (Option Nat)) (src : List Nat) (k off : Nat)
    (hoff : off = pre.length) :
    memcpy (pre ++ List.replicate (src.length + k) none) off src
      = (pre ++ src.map some) ++ List.replicate k none := by
  subst hoff
  simp [memcpy, List.take_append_of_le_length, List.drop_append_eq_append_drop]

theorem memcpy_length (dst : List (Option Nat)) (offset : Nat) (src : List Nat) :
    (memcpy dst offset src).length
      = min offset dst.length + src.length + (dst.length - (offset + src.length)) := by
  simp [memcpy, Nat.add_assoc]

theorem memcpy_fresh_two (pre : List (Option Nat)) (a b k off : Nat)
    (hoff : off = pre.length) :
    memcpy (pre ++ List.replicate (k + 2) none) off [a, b]
      = (pre ++ [some a, some b]) ++ List.replicate k none := by
  have h := memcpy_fresh pre [a, b] k off hoff
  have e : [a, b].length + k = k + 2 := by simp [Nat.add_comm]
  rw [e] at h
  simpa using h

namespace packet_formatter_counter

theorem shift_in_hdr_reg_eq (r bit : Nat) :
    shift_in_hdr_reg r bit = (2 * r + bit % 2) % 2 ^ 64 := by
  unfold shift_in_hdr_reg
  have e : (1 : Nat) = 2 ^ 1 - 1 := by decide
  have hb : bit % 2 ^ 1 < 2 ^ 1 := Nat.mod_lt _ (by decide)
  rw [show bit &&& 1 = bit % 2 ^ 1 from by
    conv_lhs => rw [e]
    exact Nat.and_pow_two_sub_one_eq_mod bit 1]
  rw [shiftLeft_or_eq _ _ _ hb]
  norm_num
  congr 1
  omega

theorem unpack_byte_eq (b : Nat) :
    unpack_byte b = [b / 128 % 2, b / 64 % 2, b / 32 % 2, b / 16 % 2, b / 8 % 2, b / 4 % 2,
      b / 2 % 2, b % 2] := by
  have e : (1 : Nat) = 2 ^ 1 - 1 := by decide
  have hr : List.range 8 = [0, 1, 2, 3, 4, 5, 6, 7] := by decide
  have h : ∀ s, (b >>> s) &&& 1 = b / 2 ^ s % 2 := by
    intro s
    conv_lhs => rw [e]
    rw [Nat.and_pow_two_sub_one_eq_mod, Nat.shiftRight_eq_div_pow]
  simp only [unpack_byte, hr, List.map_cons, List.map_nil, h]
  norm_num

theorem foldl_unpack_byte (r b : Nat) (hb : b < 256) :
    (unpack_byte b).foldl shift_in_hdr_reg r = (256 * r + b) % 2 ^ 64 := by
  simp only [unpack_byte_eq, List.foldl_cons, List.foldl_nil, shift_in_hdr_reg_eq]
  norm_num
  omega

theorem hdr_reg_of_eight_bytes (b0 b1 b2 b3 b4 b5 b6 b7 : Nat) (h0 : b0 < 256)
    (h1 : b1 < 256) (h2 : b2 < 256) (h3 : b3 < 256) (h4 : b4 < 256) (h5 : b5 < 256)
    (h6 : b6 < 256) (h7 : b7 < 256) :
    hdr_reg_of_bits (unpack [b0, b1, b2, b3, b4, b5, b6, b7])
      = (((b0 * 256 + b1) * 65536 + (b2 * 256 + b3)) * 65536 + (b4 * 256 + b5)) * 65536
          + (b6 * 256 + b7) := by
  simp only [hdr_reg_of_bits, unpack, List.flatMap_cons, List.flatMap_nil, List.append_nil,
    List.foldl_append, foldl_unpack_byte _ _ h0, foldl_unpack_byte _ _ h1,
    foldl_unpack_byte _ _ h2, foldl_unpack_byte _ _ h3, foldl_unpack_byte _ _ h4,
    foldl_unpack_byte _ _ h5, foldl_unpack_byte _ _ h6, foldl_unpack_byte _ _ h7]
  norm_num
  omega

/-- Closed form of the bytes written by `format`: the access code in big-endian order,
then the four 16-bit fields in big-endian order. -/
theorem format_output_eq (self : packet_formatter_counter) (nbytes_in : Int)
    (input : List Nat) (h8 : self.d_access_code_len % 8 = 0)
    (h64 : self.d_access_code_len ≤ 64) :
    (format self nbytes_in input).output
      = ((toBytesLE (self.d_access_code_len / 8) self.d_access_code).reverse
          ++ [static_cast_uint16 nbytes_in / 256 % 256, static_cast_uint16 nbytes_in % 256,
              static_cast_uint16 nbytes_in / 256 % 256, static_cast_uint16 nbytes_in % 256,
              self.d_bps % 65536 / 256 % 256, self.d_bps % 65536 % 256,
              self.d_counter % 65536 / 256 % 256, self.d_counter % 65536 % 256]).map some := by
  obtain ⟨n, hn⟩ : ∃ n, self.d_access_code_len = 8 * n := ⟨self.d_access_code_len / 8, by omega⟩
  have hn8 : n ≤ 8 := by omega
  have hdiv : self.d_access_code_len / 8 = n := by omega
  simp only [format, header_nbytes, volk_malloc, hdiv, volk_16u_byteswap_bytes]
  rw [hn, volk_64u_byteswap_bytes _ _ hn8]
  have e1 := memcpy_fresh [] (toBytesLE n self.d_access_code).reverse 8 0 rfl
  simp only [List.length_reverse, toBytesLE_length, List.nil_append] at e1
  rw [e1, List.map_append]
  have hlen : (List.map some (toBytesLE n self.d_access_code).reverse).length = n := by
    simp [toBytesLE_length]
  generalize List.map some (toBytesLE n self.d_access_code).reverse = A at hlen ⊢
  rw [show List.replicate 8 (none : Option Nat) = List.replicate (6 + 2) none from rfl,
    memcpy_fresh_two A _ _ 6 _ (by simp [hlen]),
    show List.replicate 6 (none : Option Nat) = List.replicate (4 + 2) none from rfl,
    memcpy_fresh_two _ _ _ 4 _ (by simp [hlen]),
    show List.replicate 4 (none : Option Nat) = List.replicate (2 + 2) none from rfl,
    memcpy_fresh_two _ _ _ 2 _ (by simp [hlen]),
    show List.replicate 2 (none : Option Nat) = List.replicate (0 + 2) none from rfl,
    memcpy_fresh_two _ _ _ 0 _ (by simp [hlen])]
  simp only [List.append_assoc, List.cons_append, List.nil_append, List.replicate_zero,
    List.append_nil, List.map_cons, List.map_nil]
  exact List.take_of_length_le (by simp [hlen])

theorem format_output_length (self : packet_formatter_counter) (nbytes_in : Int)
    (input : List Nat) (h8 : self.d_access_code_len % 8 = 0)
    (h64 : self.d_access_code_len ≤ 64) :
    (format self nbytes_in input).output.length = self.d_access_code_len / 8 + 8 := by
  rw [format_output_eq self nbytes_in input h8 h64]
  simp [toBytesLE_length]

theorem format_output_drop (self : packet_formatter_counter) (nbytes_in : Int)
    (input : List Nat) (h8 : self.d_access_code_len % 8 = 0)
    (h64 : self.d_access_code_len ≤ 64) :
    (format self nbytes_in input).output.drop (self.d_access_code_len / 8)
      = [static_cast_uint16 nbytes_in / 256 % 256, static_cast_uint16 nbytes_in % 256,
          static_cast_uint16 nbytes_in / 256 % 256, static_cast_uint16 nbytes_in % 256,
          self.d_bps % 65536 / 256 % 256, self.d_bps % 65536 % 256,
          self.d_counter % 65536 / 256 % 256, self.d_counter % 65536 % 256].map some := by
  rw [format_output_eq self nbytes_in input h8 h64, List.map_append]
  exact List.drop_left' (by simp [toBytesLE_length])

/-- C1: for an access code of 8, 16, ..., 64 bits, `format` returns true and produces
`header_nbytes() = L_ac/8 + 8` bytes; the 8 bytes after the access code are the length
modulo `2^16` (high byte first), the same length again, the bps modulo `2^16` and the
counter modulo `2^16`, each high byte first; the payload bytes have no influence. -/
theorem format_wire_layout (self : packet_formatter_counter) (nbytes_in : Int)
    (input : List Nat) (h8 : self.d_access_code_len % 8 = 0)
    (_h1 : 8 ≤ self.d_access_code_len) (h64 : self.d_access_code_len ≤ 64) :
    (format self nbytes_in input).ret = true
    ∧ (format self nbytes_in input).output.length = self.header_nbytes
    ∧ self.header_nbytes = self.d_access_code_len / 8 + 8
    ∧ (format self nbytes_in input).output.drop (self.d_access_code_len / 8)
        = [(nbytes_in % 2 ^ 16).toNat / 256, (nbytes_in % 2 ^ 16).toNat % 256,
           (nbytes_in % 2 ^ 16).toNat / 256, (nbytes_in % 2 ^ 16).toNat % 256,
           self.d_bps % 2 ^ 16 / 256, self.d_bps % 2 ^ 16 % 256,
           self.d_counter % 2 ^ 16 / 256, self.d_counter % 2 ^ 16 % 256].map some
    ∧ ∀ input' : List Nat,
        (format self nbytes_in input').output = (format self nbytes_in input).output := by
  have hlen : (nbytes_in % 2 ^ 16).toNat < 65536 := by
    have := Int.emod_lt_of_pos nbytes_in (by norm_num : (0 : Int) < 2 ^ 16)
    have := Int.emod_nonneg nbytes_in (by norm_num : (2 : Int) ^ 16 ≠ 0)
    omega
  refine ⟨rfl, ?_, rfl, ?_, ?_⟩
  · rw [format_output_length self nbytes_in input h8 h64]; rfl
  · rw [format_output_drop self nbytes_in input h8 h64]
    have e : static_cast_uint16 nbytes_in = (nbytes_in % 2 ^ 16).toNat := rfl
    rw [e]
    have a1 : (nbytes_in % 2 ^ 16).toNat / 256 % 256 = (nbytes_in % 2 ^ 16).toNat / 256 := by
      omega
    have a2 : self.d_bps % 65536 / 256 % 256 = self.d_bps % 2 ^ 16 / 256 := by omega
    have a3 : self.d_counter % 65536 / 256 % 256 = self.d_counter % 2 ^ 16 / 256 := by omega
    have a4 : self.d_bps % 65536 % 256 = self.d_bps % 2 ^ 16 % 256 := by omega
    have a5 : self.d_counter % 65536 % 256 = self.d_counter % 2 ^ 16 % 256 := by omega
    rw [a1, a2, a3, a4, a5]
  · intro input'
    rw [format_output_eq self nbytes_in input' h8 h64, format_output_eq self nbytes_in input h8 h64]

/-- Witness of C1: the formatter of the unit test (access code `0xAAAA` of 16 bits, bps 2,
4800 payload bytes). -/
theorem format_wire_layout_witness :
    (make 0xAAAA 16 2).d_access_code_len % 8 = 0
    ∧ (format (make 0xAAAA 16 2) 4800 [1, 2, 3]).output.drop 2
        = [0x12, 0xC0, 0x12, 0xC0, 0x00, 0x02, 0x00, 0x00].map some :=
  ⟨by decide,
    (format_wire_layout (make 0xAAAA 16 2) 4800 [1, 2, 3] (by decide) (by decide)
      (by decide)).2.2.2.1⟩

/-- C2: the first `L_ac/8` bytes written by `format` are the low `L_ac` bits of the access
code in big-endian order: byte `k` is `(ac >> (L_ac - 8*(k+1))) & 0xFF`. -/
theorem format_access_code_bytes (self : packet_formatter_counter) (nbytes_in : Int)
    (input : List Nat) (h8 : self.d_access_code_len % 8 = 0)
    (_h1 : 8 ≤ self.d_access_code_len) (h64 : self.d_access_code_len ≤ 64)
    (k : Nat) (hk : k < self.d_access_code_len / 8) :
    (format self nbytes_in input).output[k]?
      = some (some ((self.d_access_code >>> (self.d_access_code_len - 8 * (k + 1))) &&& 0xFF)) := by
  rw [format_output_eq self nbytes_in input h8 h64, List.map_append,
    List.getElem?_append_left (by simp [toBytesLE_length, hk]), List.getElem?_map,
    List.getElem?_reverse (by simp [toBytesLE_length, hk]), toBytesLE_length,
    toBytesLE_getElem? _ _ _ (by omega)]
  have e : self.d_access_code_len - 8 * (k + 1) = 8 * (self.d_access_code_len / 8 - 1 - k) := by
    omega
  have e2 : (0xFF : Nat) = 2 ^ 8 - 1 := by decide
  rw [e, e2, Nat.and_pow_two_sub_one_eq_mod, Nat.shiftRight_eq_div_pow, pow_mul]
  norm_num

/-- Witness of C2: second access-code byte of the unit-test formatter. -/
theorem format_access_code_bytes_witness :
    (format (make 0xAAAA 16 2) 4800 []).output[1]?
      = some (some ((0xAAAA >>> (16 - 8 * (1 + 1))) &&& 0xFF)) :=
  format_access_code_bytes (make 0xAAAA 16 2) 4800 [] (by decide) (by decide) (by decide) 1
    (by decide)

/-- The vector returned by `format` has `header_nbytes()` entries, whatever the state. -/
theorem format_output_length_eq (self : packet_formatter_counter) (nbytes_in : Int)
    (input : List Nat) :
    (format self nbytes_in input).output.length = self.header_nbytes := by
  simp only [format, header_nbytes, volk_malloc, List.length_take, memcpy_length,
    toBytesLE_length, List.length_replicate]
  omega

/-- The scenario of `qa_packet_formatters::test_counter_format`: access code `0xAAAA`,
bps 2 and 4800 payload bytes give the header `AA AA 12 C0 12 C0 00 02 00 00`, and a second
call gives the same header with counter 1. -/
theorem qa_test_counter_format :
    (format_calls (make 0xAAAA 16 2) [(4800, []), (4800, [])]).map (fun r => (r.ret, r.output))
      = [(true, [0xAA, 0xAA, 0x12, 0xC0, 0x12, 0xC0, 0x00, 0x02, 0x00, 0x00].map some),
         (true, [0xAA, 0xAA, 0x12, 0xC0, 0x12, 0xC0, 0x00, 0x02, 0x00, 0x01].map some)] := by
  decide

/-- C7: for an access-code length that is a multiple of 8, `header_nbits() = L_ac + 16*4`,
`header_nbytes() = L_ac/8 + 2*4`, `header_nbytes() * 8 = header_nbits()`, and the byte vector
returned by `format` has `header_nbytes()` entries. -/
theorem header_sizes (self : packet_formatter_counter) (nbytes_in : Int) (input : List Nat)
    (h8 : self.d_access_code_len % 8 = 0) :
    self.header_nbits = self.d_access_code_len + 16 * 4
    ∧ self.header_nbytes = self.d_access_code_len / 8 + 2 * 4
    ∧ self.header_nbytes * 8 = self.header_nbits
    ∧ (format self nbytes_in input).output.length = self.header_nbytes := by
  refine ⟨rfl, rfl, ?_, format_output_length_eq self nbytes_in input⟩
  simp only [header_nbytes, header_nbits]
  omega

/-- Witness of C7: the unit-test formatter has a 10-byte, 80-bit header. -/
theorem header_sizes_witness :
    (make 0xAAAA 16 2).header_nbits = 80
    ∧ (format (make 0xAAAA 16 2) 4800 []).output.length = 10 :=
  ⟨(header_sizes (make 0xAAAA 16 2) 4800 [] (by decide)).1,
    (header_sizes (make 0xAAAA 16 2) 4800 [] (by decide)).2.2.2⟩

theorem format_counter_field (self : packet_formatter_counter) (nbytes_in : Int)
    (input : List Nat) (h8 : self.d_access_code_len % 8 = 0)
    (h64 : self.d_access_code_len ≤ 64) :
    field16_at (format self nbytes_in input).output (self.d_access_code_len / 8 + 6)
      = some (self.d_counter % 65536) := by
  have hd := format_output_drop self nbytes_in input h8 h64
  have g6 : (format self nbytes_in input).output[self.d_access_code_len / 8 + 6]?
      = some (some (self.d_counter % 65536 / 256 % 256)) := by
    rw [← List.getElem?_drop, hd]; rfl
  have g7 : (format self nbytes_in input).output[self.d_access_code_len / 8 + 6 + 1]?
      = some (some (self.d_counter % 65536 % 256)) := by
    rw [Nat.add_assoc, ← List.getElem?_drop, hd]; rfl
  simp only [field16_at, g6, g7, Option.join, Option.bind_eq_bind, Option.some_bind, id,
    Option.pure_def]
  rw [two_bytes_be _ _ (Nat.mod_lt _ (by decide)) (Nat.mod_lt _ (by decide))]
  exact congrArg some (by omega)

theorem format_calls_counter (calls : List (Int × List Nat)) :
    ∀ (self : packet_formatter_counter), self.d_access_code_len % 8 = 0 →
      self.d_access_code_len ≤ 64 → ∀ j, j < calls.length →
      ∃ r, (format_calls self calls)[j]? = some r
        ∧ field16_at r.output (self.d_access_code_len / 8 + 6)
            = some ((self.d_counter + j) % 65536) := by
  induction calls with
  | nil => intro self _ _ j hj; simp at hj
  | cons call calls ih =>
    intro self h8 h64 j hj
    cases j with
    | zero =>
      exact ⟨format self call.1 call.2, by simp [format_calls],
        by simpa using format_counter_field self call.1 call.2 h8 h64⟩
    | succ j =>
      obtain ⟨r, hr, hf⟩ := ih (format self call.1 call.2).self h8 h64 j
        (by simpa using hj)
      refine ⟨r, by simpa [format_calls] using hr, ?_⟩
      have hc : (format self call.1 call.2).self.d_counter = (self.d_counter + 1) % 65536 := rfl
      have hl : (format self call.1 call.2).self.d_access_code_len = self.d_access_code_len :=
        rfl
      rw [hl, hc] at hf
      rw [hf]
      exact congrArg some (by omega)

/-- C3: the counter field emitted by the `k`-th call of `format` on a freshly constructed
formatter is `(k-1) mod 2^16`, whatever the arguments of the calls are. -/
theorem format_counter_kth_call (access_code access_code_len : Nat) (bps : Int)
    (calls : List (Int × List Nat)) (h8 : access_code_len % 8 = 0)
    (_h1 : 8 ≤ access_code_len) (h64 : access_code_len ≤ 64)
    (k : Nat) (hk1 : 1 ≤ k) (hk : k ≤ calls.length) :
    ∃ r, (format_calls (make access_code access_code_len bps) calls)[k - 1]? = some r
      ∧ field16_at r.output (access_code_len / 8 + 6) = some ((k - 1) % 2 ^ 16) := by
  obtain ⟨r, hr, hf⟩ := format_calls_counter calls (make access_code access_code_len bps)
    h8 h64 (k - 1) (by omega)
  refine ⟨r, hr, ?_⟩
  have hc : (make access_code access_code_len bps).d_counter = 0 := rfl
  have hl : (make access_code access_code_len bps).d_access_code_len = access_code_len := rfl
  rw [hl, hc] at hf
  rw [hf]
  norm_num

/-- Witness of C3: the second call of the unit test emits counter 1. -/
theorem format_counter_kth_call_witness :
    ∃ r, (format_calls (make 0xAAAA 16 2) [(4800, [7]), (4800, [7])])[2 - 1]? = some r
      ∧ field16_at r.output (16 / 8 + 6) = some ((2 - 1) % 2 ^ 16) :=
  format_counter_kth_call 0xAAAA 16 2 [(4800, [7]), (4800, [7])] (by decide) (by decide)
    (by decide) 2 (by decide) (by decide)

/-- C5: `header_ok` returns true if and only if bits 63..48 of the header register equal
bits 47..32; the low 32 bits (bps and counter) never influence the result. -/
theorem header_ok_iff (self : packet_formatter_counter) :
    (header_ok self = true
      ↔ ∀ i, i < 16 → self.d_hdr_reg.testBit (48 + i) = self.d_hdr_reg.testBit (32 + i))
    ∧ ∀ other : packet_formatter_counter,
        other.d_hdr_reg / 2 ^ 32 = self.d_hdr_reg / 2 ^ 32 →
        header_ok other = header_ok self := by
  have e : (0xffff : Nat) = 2 ^ 16 - 1 := by decide
  constructor
  · unfold header_ok
    rw [beq_iff_eq, Nat.xor_eq_zero]
    constructor
    · intro h i hi
      have := congrArg (fun x => x.testBit i) h
      simp only [e, Nat.testBit_and, Nat.testBit_shiftRight, Nat.testBit_two_pow_sub_one, hi,
        decide_True, Bool.and_true] at this
      exact this
    · intro h
      apply Nat.eq_of_testBit_eq
      intro i
      simp only [e, Nat.testBit_and, Nat.testBit_shiftRight, Nat.testBit_two_pow_sub_one]
      by_cases hi : i < 16
      · simp [hi, h i hi]
      · simp [hi]
  · intro other h
    unfold header_ok
    have a : ∀ r : Nat, r >>> 48 = r / 2 ^ 32 / 2 ^ 16 := by
      intro r; rw [Nat.shiftRight_eq_div_pow, Nat.div_div_eq_div_mul, ← pow_add]
    have b : ∀ r : Nat, r >>> 32 = r / 2 ^ 32 := fun r => Nat.shiftRight_eq_div_pow r 32
    rw [a, a, b, b, h]

/-- The value returned by `header_payload` and the descriptor it builds. -/
theorem header_payload_fields (self : packet_formatter_counter) :
    (header_payload self).1 = (((self.d_hdr_reg >>> 32) &&& 0xffff : Nat) : Int)
    ∧ (dict_keys (header_payload self).2.d_info).Perm
        ["skip samps", "payload bits", "bps", "counter"]
    ∧ dict_ref (header_payload self).2.d_info "skip samps" = some self.d_count
    ∧ dict_ref (header_payload self).2.d_info "payload bits"
        = some ((8 : Int) * (((self.d_hdr_reg >>> 32) &&& 0xffff : Nat) : Int))
    ∧ dict_ref (header_payload self).2.d_info "bps"
        = some (((self.d_hdr_reg >>> 16) &&& 0xffff : Nat) : Int)
    ∧ dict_ref (header_payload self).2.d_info "counter"
        = some ((self.d_hdr_reg &&& 0xffff : Nat) : Int) := by
  have m : ∀ x : Nat, (x &&& 0xffff) % 65536 = x &&& 0xffff := by
    intro x
    rw [and_mask16]
    omega
  have hinfo : (header_payload self).2.d_info
      = [("counter", ((self.d_hdr_reg &&& 0xffff : Nat) : Int)),
         ("bps", (((self.d_hdr_reg >>> 16) &&& 0xffff : Nat) : Int)),
         ("payload bits", (8 : Int) * (((self.d_hdr_reg >>> 32) &&& 0xffff : Nat) : Int)),
         ("skip samps", self.d_count)] := by
    simp only [header_payload, m, dict_add, make_dict]
    rfl
  refine ⟨?_, ?_, ?_, ?_, ?_, ?_⟩
  · simp only [header_payload, m]
  · rw [hinfo]
    exact List.reverse_perm ["skip samps", "payload bits", "bps", "counter"]
  · rw [hinfo]; rfl
  · rw [hinfo]; rfl
  · rw [hinfo]; rfl
  · rw [hinfo]; rfl

/-- C6: `header_payload` returns `len = (r >> 32) & 0xffff` and sets the descriptor to
exactly the four keys "skip samps" = `d_count`, "payload bits" = `8*len`,
"bps" = `(r >> 16) & 0xffff` and "counter" = `r & 0xffff`. -/
theorem header_payload_descriptor (self : packet_formatter_counter) :
    (header_payload self).1 = (((self.d_hdr_reg >>> 32) &&& 0xffff : Nat) : Int)
    ∧ (dict_keys (header_payload self).2.d_info).Perm
        ["skip samps", "payload bits", "bps", "counter"]
    ∧ dict_ref (header_payload self).2.d_info "skip samps" = some self.d_count
    ∧ dict_ref (header_payload self).2.d_info "payload bits"
        = some ((8 : Int) * (((self.d_hdr_reg >>> 32) &&& 0xffff : Nat) : Int))
    ∧ dict_ref (header_payload self).2.d_info "bps"
        = some (((self.d_hdr_reg >>> 16) &&& 0xffff : Nat) : Int)
    ∧ dict_ref (header_payload self).2.d_info "counter"
        = some ((self.d_hdr_reg &&& 0xffff : Nat) : Int) :=
  header_payload_fields self

/-- C4: round trip of the counter header. For a length and a bps below `2^16`, the 8 header
bytes emitted by `format` after the access code, shifted most significant bit first into
a zeroed header register, pass `header_ok`; `header_payload` returns the length, and the
descriptor has "payload bits" = `8*nbytes_in`, "bps" = bps and "counter" = `c mod 2^16`. -/
theorem format_parse_round_trip (self parser : packet_formatter_counter) (nbytes_in : Int)
    (input : List Nat) (h8 : self.d_access_code_len % 8 = 0)
    (_h1 : 8 ≤ self.d_access_code_len) (h64 : self.d_access_code_len ≤ 64)
    (hn0 : 0 ≤ nbytes_in) (hn : nbytes_in < 2 ^ 16) (hbps : self.d_bps < 2 ^ 16)
    (hdr : List Nat)
    (hhdr : (format self nbytes_in input).output.drop (self.d_access_code_len / 8)
      = hdr.map some)
    (hreg : parser.d_hdr_reg = hdr_reg_of_bits (unpack hdr)) :
    header_ok parser = true
    ∧ (header_payload parser).1 = nbytes_in
    ∧ dict_ref (header_payload parser).2.d_info "payload bits" = some (8 * nbytes_in)
    ∧ dict_ref (header_payload parser).2.d_info "bps" = some (self.d_bps : Int)
    ∧ dict_ref (header_payload parser).2.d_info "counter"
        = some ((self.d_counter % 2 ^ 16 : Nat) : Int) := by
  obtain ⟨l, hl⟩ : ∃ l : Nat, nbytes_in = (l : Int) := ⟨nbytes_in.toNat, by omega⟩
  have hl16 : l < 65536 := by omega
  have hcast : static_cast_uint16 nbytes_in = l := by
    unfold static_cast_uint16
    omega
  rw [format_output_drop self nbytes_in input h8 h64, hcast] at hhdr
  have hh := List.map_injective_iff.mpr (Option.some_injective Nat) hhdr
  have hR : parser.d_hdr_reg
      = ((l * 65536 + l) * 65536 + self.d_bps) * 65536 + self.d_counter % 65536 := by
    rw [hreg, ← hh, hdr_reg_of_eight_bytes _ _ _ _ _ _ _ _ (Nat.mod_lt _ (by decide))
      (Nat.mod_lt _ (by decide)) (Nat.mod_lt _ (by decide)) (Nat.mod_lt _ (by decide))
      (Nat.mod_lt _ (by decide)) (Nat.mod_lt _ (by decide)) (Nat.mod_lt _ (by decide))
      (Nat.mod_lt _ (by decide))]
    have e1 : l / 256 % 256 * 256 + l % 256 = l := by omega
    have e2 : self.d_bps % 65536 / 256 % 256 * 256 + self.d_bps % 65536 % 256 = self.d_bps := by
      norm_num at hbps
      omega
    have e3 : self.d_counter % 65536 / 256 % 256 * 256 + self.d_counter % 65536 % 256
        = self.d_counter % 65536 := by omega
    rw [e1, e2, e3]
  have hbps16 : self.d_bps < 65536 := by norm_num at hbps; exact hbps
  have hc16 : self.d_counter % 65536 < 65536 := Nat.mod_lt _ (by decide)
  have d16 : parser.d_hdr_reg / 2 ^ 16 = (l * 65536 + l) * 65536 + self.d_bps := by
    rw [hR]; norm_num; omega
  have d32 : parser.d_hdr_reg / 2 ^ 32 = l * 65536 + l := by
    rw [show 32 = 16 + 16 from rfl, pow_add, ← Nat.div_div_eq_div_mul, d16]; norm_num; omega
  have d48 : parser.d_hdr_reg / 2 ^ 48 = l := by
    rw [show 48 = 32 + 16 from rfl, pow_add, ← Nat.div_div_eq_div_mul, d32]; norm_num; omega
  have f48 : (parser.d_hdr_reg >>> 48) &&& 0xffff = l := by
    rw [shiftRight_and_mask16, d48]; omega
  have f32 : (parser.d_hdr_reg >>> 32) &&& 0xffff = l := by
    rw [shiftRight_and_mask16, d32]; omega
  have f16 : (parser.d_hdr_reg >>> 16) &&& 0xffff = self.d_bps := by
    rw [shiftRight_and_mask16, d16]; omega
  have f0 : parser.d_hdr_reg &&& 0xffff = self.d_counter % 2 ^ 16 := by
    rw [and_mask16, hR]; norm_num; omega
  obtain ⟨p1, _, _, p4, p5, p6⟩ := header_payload_fields parser
  refine ⟨?_, ?_, ?_, ?_, ?_⟩
  · unfold header_ok
    rw [f48, f32]
    simp
  · rw [p1, f32, hl]
  · rw [p4, f32, hl]
  · rw [p5, f16]
  · rw [p6, f0]

set_option maxRecDepth 4096 in
/-- Witness of C4: the header emitted by the unit-test formatter parses back to a payload
of 4800 bytes. -/
theorem format_parse_round_trip_witness :
    header_ok { make 0xAAAA 16 2 with d_hdr_reg := 0x12C012C000020000 } = true
    ∧ (header_payload { make 0xAAAA 16 2 with d_hdr_reg := 0x12C012C000020000 }).1 = 4800 :=
  have h := format_parse_round_trip (make 0xAAAA 16 2)
    { make 0xAAAA 16 2 with d_hdr_reg := 0x12C012C000020000 } 4800 [] (by decide) (by decide)
    (by decide) (by decide) (by decide) (by decide) [0x12, 0xC0, 0x12, 0xC0, 0, 2, 0, 0]
    (by decide) (by rfl)
  ⟨h.1, h.2.1⟩

/-! ### The parser state machine -/

theorem access_code_bits_succ (ac L : Nat) :
    access_code_bits ac (L + 1) = access_code_bits (ac / 2) L ++ [ac % 2] := by
  unfold access_code_bits
  rw [List.range_succ, List.map_append, List.map_singleton]
  congr 1
  · apply List.map_congr_left
    intro j hj
    have hj' := List.mem_range.mp hj
    have e : L + 1 - 1 - j = (L - 1 - j) + 1 := by omega
    simp only [Nat.and_one_is_mod, Nat.shiftRight_eq_div_pow]
    rw [e, pow_succ, Nat.mul_comm, ← Nat.div_div_eq_div_mul]
  · simp [Nat.and_one_is_mod]

theorem foldl_access_code_bits (L : Nat) : ∀ (ac r : Nat), L ≤ 64 →
    ((access_code_bits ac L).foldl shift_in_hdr_reg r) % 2 ^ L = ac % 2 ^ L := by
  induction L with
  | zero => intro ac r _; simp [Nat.mod_one]
  | succ L ih =>
    intro ac r hL
    rw [access_code_bits_succ, List.foldl_append, List.foldl_cons, List.foldl_nil,
      shift_in_hdr_reg_eq]
    have h := ih (ac / 2) r (by omega)
    rw [Nat.mod_mod_of_dvd _ (pow_dvd_pow 2 hL)]
    generalize (List.foldl shift_in_hdr_reg r (access_code_bits (ac / 2) L)) = X at h ⊢
    rw [pow_succ', Nat.mod_mul, Nat.mod_mul]
    have h1 : (2 * X + ac % 2 % 2) % 2 = ac % 2 := by omega
    have h2 : (2 * X + ac % 2 % 2) / 2 = X := by omega
    rw [h1, h2, h]

theorem hamming_distance_eq_zero (L a b : Nat) (h : a % 2 ^ L = b % 2 ^ L) :
    hamming_distance L a b = 0 := by
  unfold hamming_distance
  rw [List.length_eq_zero, List.filter_eq_nil_iff]
  intro i hi
  have hi' := List.mem_range.mp hi
  have := congrArg (fun x => x.testBit i) h
  simp only [Nat.testBit_mod_two_pow, hi', decide_True, Bool.true_and] at this
  simp [this]

/-- While no prefix of the stream brings the search register within the threshold of the
access code, the parser stays in `SEARCH`, counting and shifting. -/
theorem parse_search : ∀ (bits : List Nat) (p : parse_machine),
    p.d_state = parse_state.SEARCH →
    (∀ t, 0 < t → t ≤ bits.length →
      p.d_threshold < hamming_distance p.formatter.d_access_code_len
        ((bits.take t).foldl shift_in_hdr_reg p.d_data_reg) p.formatter.d_access_code) →
    parse p bits =
      { p with
        formatter := { p.formatter with d_count := p.formatter.d_count + bits.length }
        d_data_reg := bits.foldl shift_in_hdr_reg p.d_data_reg } := by
  intro bits
  induction bits with
  | nil =>
    intro p _ _
    simp [parse]
  | cons b bs ih =>
    intro p hstate hfar
    have h1 := hfar 1 (by omega) (by simp)
    simp only [List.take_succ_cons, List.take_zero, List.foldl_cons, List.foldl_nil] at h1
    have hstep : parse_bit p b =
        { p with
          formatter := { p.formatter with d_count := p.formatter.d_count + 1 }
          d_data_reg := shift_in_hdr_reg p.d_data_reg b } := by
      simp only [parse_bit, hstate, if_neg (not_le.mpr h1)]
    have hparse : parse p (b :: bs) = parse (parse_bit p b) bs := rfl
    rw [hparse, ih (parse_bit p b) (by rw [hstep]; exact hstate) (by
      intro t ht0 ht
      have := hfar (t + 1) (by omega) (by simp; omega)
      rw [hstep]
      simpa using this), hstep]
    simp only [List.length_cons, List.foldl_cons, Nat.cast_add, Nat.cast_one, add_assoc,
      add_comm (1 : Int)]

/-- In `HEADER`, before the last header bit, the parser counts and shifts into the header
register. -/
theorem parse_header : ∀ (bits : List Nat) (p : parse_machine),
    p.d_state = parse_state.HEADER →
    p.d_hdr_count + bits.length < p.formatter.header_nbits - p.formatter.d_access_code_len →
    parse p bits =
      { p with
        formatter := { p.formatter with
          d_count := p.formatter.d_count + bits.length
          d_hdr_reg := bits.foldl shift_in_hdr_reg p.formatter.d_hdr_reg }
        d_hdr_count := p.d_hdr_count + bits.length } := by
  intro bits
  induction bits with
  | nil =>
    intro p _ _
    simp [parse]
  | cons b bs ih =>
    intro p hstate hcount
    simp only [List.length_cons] at hcount
    have hstep : parse_bit p b =
        { p with
          formatter := { p.formatter with
            d_count := p.formatter.d_count + 1
            d_hdr_reg := shift_in_hdr_reg p.formatter.d_hdr_reg b }
          d_hdr_count := p.d_hdr_count + 1 } := by
      have hne : ¬ (p.d_hdr_count + 1
          = p.formatter.header_nbits - p.formatter.d_access_code_len) := by omega
      simp only [parse_bit, hstate, header_nbits] at hne ⊢
      rw [if_neg hne]
    have hparse : parse p (b :: bs) = parse (parse_bit p b) bs := rfl
    rw [hparse, ih (parse_bit p b) (by rw [hstep]; exact hstate) (by
      rw [hstep]
      simp only [header_nbits] at hcount ⊢
      omega), hstep]
    simp only [List.length_cons, List.foldl_cons, Nat.cast_add, Nat.cast_one, add_assoc,
      add_comm (1 : Int), add_comm 1 bs.length]

theorem parse_bit_info (p : parse_machine) (b : Nat) :
    ∃ extra, (parse_bit p b).info = p.info ++ extra := by
  unfold parse_bit
  cases p.d_state
  · simp only []
    split
    · exact ⟨[], by simp⟩
    · exact ⟨[], by simp⟩
  · simp only []
    split
    · split
      · exact ⟨_, rfl⟩
      · exact ⟨[], by simp⟩
    · exact ⟨[], by simp⟩

/-- The parser only appends descriptors. -/
theorem parse_info : ∀ (bits : List Nat) (p : parse_machine),
    ∃ extra, (parse p bits).info = p.info ++ extra := by
  intro bits
  induction bits with
  | nil => intro p; exact ⟨[], by simp [parse]⟩
  | cons b bs ih =>
    intro p
    obtain ⟨e1, h1⟩ := parse_bit_info p b
    obtain ⟨e2, h2⟩ := ih (parse_bit p b)
    refine ⟨e1 ++ e2, ?_⟩
    simp only [parse, List.foldl_cons] at h2 ⊢
    rw [h2, h1, List.append_assoc]

theorem parse_append (p : parse_machine) (a b : List Nat) :
    parse p (a ++ b) = parse (parse p a) b := by
  simp only [parse, List.foldl_append]

/-- The last bit of the access code, consumed in `SEARCH` with a matching register: the
parser enters `HEADER` with a cleared header register and header bit count. -/
theorem parse_bit_sync (p : parse_machine) (b : Nat)
    (hstate : p.d_state = parse_state.SEARCH)
    (hmatch : hamming_distance p.formatter.d_access_code_len
      (shift_in_hdr_reg p.d_data_reg b) p.formatter.d_access_code ≤ p.d_threshold) :
    parse_bit p b =
      { p with
        formatter := { p.formatter with d_count := p.formatter.d_count + 1, d_hdr_reg := 0 }
        d_state := parse_state.HEADER
        d_data_reg := shift_in_hdr_reg p.d_data_reg b
        d_hdr_count := 0 } := by
  simp only [parse_bit, hstate, if_pos hmatch]

/-- The last header bit, consumed in `HEADER` with a header that passes `header_ok`: the
descriptor built by `header_payload` is emitted. -/
theorem parse_bit_emit (p : parse_machine) (b : Nat)
    (hstate : p.d_state = parse_state.HEADER)
    (hcount : p.d_hdr_count + 1 = p.formatter.header_nbits - p.formatter.d_access_code_len)
    (hok : header_ok { p.formatter with
      d_count := p.formatter.d_count + 1
      d_hdr_reg := shift_in_hdr_reg p.formatter.d_hdr_reg b } = true) :
    ∃ f : packet_formatter_counter,
      f.d_hdr_reg = shift_in_hdr_reg p.formatter.d_hdr_reg b
      ∧ f.d_count = p.formatter.d_count + 1
      ∧ (parse_bit p b).info = p.info ++ [(header_payload f).2.d_info] := by
  refine ⟨{ p.formatter with
    d_count := p.formatter.d_count + 1
    d_hdr_reg := shift_in_hdr_reg p.formatter.d_hdr_reg b }, rfl, rfl, ?_⟩
  simp only [parse_bit, hstate, header_nbits] at hcount ⊢
  rw [if_pos hcount, if_pos hok]

/-- C20, amended: for every bit stream (hard bits, threshold 0, a parser that has not
consumed any bit) in which the access code of `0 < L_ac <= 64` bits starts at bit offset
`8*index`, the search register does not match the access code before the last bit of that
access code, and the access code is followed by a 64-bit counter header whose two length
copies both equal `len`, the first descriptor that `parse` emits has
"payload bits" = `8*len` and "skip samps" = `8*index + header_nbits()`. -/
theorem parse_first_descriptor (formatter : packet_formatter_counter) (index len : Nat)
    (pre header rest : List Nat)
    (hL0 : 0 < formatter.d_access_code_len) (hL : formatter.d_access_code_len ≤ 64)
    (hpre : pre.length = 8 * index) (hhdr : header.length = 64)
    (hlen1 : (hdr_reg_of_bits header >>> 48) &&& 0xffff = len)
    (hlen2 : (hdr_reg_of_bits header >>> 32) &&& 0xffff = len)
    (hfirst : ∀ t, 0 < t → t < 8 * index + formatter.d_access_code_len →
      hamming_distance formatter.d_access_code_len
        (hdr_reg_of_bits ((pre ++ access_code_bits formatter.d_access_code
          formatter.d_access_code_len).take t)) formatter.d_access_code ≠ 0) :
    ∃ d, (parse (parse_machine.start formatter 0)
        (pre ++ access_code_bits formatter.d_access_code formatter.d_access_code_len
          ++ header ++ rest)).info[0]? = some d
      ∧ dict_ref d "payload bits" = some (8 * (len : Int))
      ∧ dict_ref d "skip samps" = some ((8 * index + formatter.header_nbits : Nat) : Int) := by
  obtain ⟨L', hL'⟩ : ∃ L', formatter.d_access_code_len = L' + 1 :=
    ⟨formatter.d_access_code_len - 1, by omega⟩
  have hac : access_code_bits formatter.d_access_code formatter.d_access_code_len
      = access_code_bits (formatter.d_access_code / 2) L' ++ [formatter.d_access_code % 2] := by
    rw [hL', access_code_bits_succ]
  have hacl : (access_code_bits (formatter.d_access_code / 2) L').length = L' := by
    simp [access_code_bits]
  obtain ⟨hb, hhb⟩ : ∃ hb, header.drop 63 = [hb] :=
    List.length_eq_one.mp (by rw [List.length_drop, hhdr])
  have hheader : header = header.take 63 ++ [hb] := by
    rw [← hhb, List.take_append_drop]
  have h63 : (header.take 63).length = 63 := by
    rw [List.length_take, hhdr]
    rfl
  -- the search phase
  have hp1 := parse_search (pre ++ access_code_bits (formatter.d_access_code / 2) L')
    (parse_machine.start formatter 0) rfl (by
      intro t ht0 ht
      rw [List.length_append, hacl, hpre] at ht
      have h := hfirst t ht0 (by omega)
      rw [hac, ← List.append_assoc, List.take_append_of_le_length
        (by rw [List.length_append, hacl, hpre]; exact ht)] at h
      exact Nat.pos_of_ne_zero h)
  -- the last bit of the access code
  have hreg : hamming_distance formatter.d_access_code_len
      (shift_in_hdr_reg
        ((pre ++ access_code_bits (formatter.d_access_code / 2) L').foldl shift_in_hdr_reg 0)
        (formatter.d_access_code % 2)) formatter.d_access_code = 0 := by
    apply hamming_distance_eq_zero
    have h := foldl_access_code_bits formatter.d_access_code_len formatter.d_access_code
      (pre.foldl shift_in_hdr_reg 0) hL
    rw [hac, List.foldl_append, List.foldl_cons, List.foldl_nil] at h
    rw [List.foldl_append]
    exact h
  have hp2 := parse_bit_sync
    (parse (parse_machine.start formatter 0)
      (pre ++ access_code_bits (formatter.d_access_code / 2) L'))
    (formatter.d_access_code % 2) (by rw [hp1]; rfl) (by
      rw [hp1]
      exact Nat.le_of_eq hreg)
  -- the first 63 header bits
  have hp3 := parse_header (header.take 63)
    (parse_bit (parse (parse_machine.start formatter 0)
      (pre ++ access_code_bits (formatter.d_access_code / 2) L'))
      (formatter.d_access_code % 2))
    (by rw [hp2]) (by
      rw [hp2, hp1, h63]
      show 0 + 63 < formatter.d_access_code_len + 8 * 4 * 2 - formatter.d_access_code_len
      omega)
  -- the last header bit
  have hregh : shift_in_hdr_reg ((header.take 63).foldl shift_in_hdr_reg 0) hb
      = hdr_reg_of_bits header := by
    conv_rhs => rw [hheader]
    rw [hdr_reg_of_bits, List.foldl_append]
    rfl
  obtain ⟨f, hfreg, hfcount, hp4⟩ := parse_bit_emit
    (parse (parse_bit (parse (parse_machine.start formatter 0)
      (pre ++ access_code_bits (formatter.d_access_code / 2) L'))
      (formatter.d_access_code % 2)) (header.take 63)) hb
    (by rw [hp3, hp2])
    (by
      rw [hp3, hp2, hp1, h63]
      show 0 + 63 + 1 = formatter.d_access_code_len + 8 * 4 * 2 - formatter.d_access_code_len
      omega)
    (by
      rw [hp3, hp2, hp1]
      show header_ok { formatter with
        d_count := _
        d_hdr_reg := shift_in_hdr_reg ((header.take 63).foldl shift_in_hdr_reg 0) hb } = true
      rw [hregh]
      unfold header_ok
      simp only [hlen1, hlen2, Nat.xor_self, beq_self_eq_true])
  -- the rest of the stream only appends descriptors
  have hsplit : pre ++ access_code_bits formatter.d_access_code formatter.d_access_code_len
      ++ header ++ rest
      = (pre ++ access_code_bits (formatter.d_access_code / 2) L')
        ++ ([formatter.d_access_code % 2] ++ (header.take 63 ++ ([hb] ++ rest))) := by
    rw [hac]
    conv_lhs => rw [hheader]
    simp only [List.append_assoc]
  have hparse : parse (parse_machine.start formatter 0)
      (pre ++ access_code_bits formatter.d_access_code formatter.d_access_code_len
        ++ header ++ rest)
      = parse (parse_bit (parse (parse_bit (parse (parse_machine.start formatter 0)
          (pre ++ access_code_bits (formatter.d_access_code / 2) L'))
          (formatter.d_access_code % 2)) (header.take 63)) hb) rest := by
    rw [hsplit, parse_append, parse_append, parse_append]
    rfl
  obtain ⟨extra, hextra⟩ := parse_info rest
    (parse_bit (parse (parse_bit (parse (parse_machine.start formatter 0)
      (pre ++ access_code_bits (formatter.d_access_code / 2) L'))
      (formatter.d_access_code % 2)) (header.take 63)) hb)
  have hinfo3 : (parse (parse_bit (parse (parse_machine.start formatter 0)
      (pre ++ access_code_bits (formatter.d_access_code / 2) L'))
      (formatter.d_access_code % 2)) (header.take 63)).info = [] := by
    rw [hp3, hp2, hp1]
    rfl
  rw [hp4, hinfo3] at hextra
  have key : ∀ f : packet_formatter_counter, f.d_hdr_reg = hdr_reg_of_bits header →
      f.d_count = ((8 * index + formatter.header_nbits : Nat) : Int) →
      dict_ref (header_payload f).2.d_info "payload bits" = some (8 * (len : Int))
      ∧ dict_ref (header_payload f).2.d_info "skip samps"
          = some ((8 * index + formatter.header_nbits : Nat) : Int) := by
    intro f hr hc
    obtain ⟨_, _, pskip, pbits, _, _⟩ := header_payload_fields f
    rw [pskip, pbits, hr, hlen2, hc]
    exact ⟨rfl, rfl⟩
  refine ⟨(header_payload f).2.d_info, by rw [hparse, hextra]; simp, key f ?_ ?_⟩
  · rw [hfreg, hp3, hp2, hp1]
    exact hregh
  · rw [hfcount, hp3, hp2, hp1]
    show (0 : Int) + ((pre ++ access_code_bits (formatter.d_access_code / 2) L').length : Nat)
      + 1 + ((header.take 63).length : Nat) + 1 = _
    rw [List.length_append, hacl, hpre, h63]
    simp only [header_nbits]
    push_cast
    omega

/-- Witness of C20: the stream of the unit test `test_counter_parse` without its random
tail, moved to byte offset 1 behind the byte `0x00`: access code `0xAAAA`, length 100,
2 bits per symbol, counter 0. -/
theorem parse_first_descriptor_witness :
    ∃ d, (parse (parse_machine.start (make 0xAAAA 16 2) 0)
        (unpack [0x00] ++ access_code_bits (make 0xAAAA 16 2).d_access_code
          (make 0xAAAA 16 2).d_access_code_len
          ++ unpack [0x00, 0x64, 0x00, 0x64, 0x00, 0x02, 0x00, 0x00] ++ [])).info[0]? = some d
      ∧ dict_ref d "payload bits" = some (8 * ((100 : Nat) : Int))
      ∧ dict_ref d "skip samps" = some ((8 * 1 + (make 0xAAAA 16 2).header_nbits : Nat) : Int) :=
  parse_first_descriptor (make 0xAAAA 16 2) 1 100 (unpack [0x00])
    (unpack [0x00, 0x64, 0x00, 0x64, 0x00, 0x02, 0x00, 0x00]) [] (by decide) (by decide)
    (by decide) (by decide!) (by decide!) (by decide!)
    (fun t h0 h1 =>
      (by decide! : ∀ t, t < 8 * 1 + (make 0xAAAA 16 2).d_access_code_len → 0 < t →
        hamming_distance (make 0xAAAA 16 2).d_access_code_len
          (hdr_reg_of_bits ((unpack [0x00] ++ access_code_bits (make 0xAAAA 16 2).d_access_code
            (make 0xAAAA 16 2).d_access_code_len).take t))
          (make 0xAAAA 16 2).d_access_code ≠ 0) t h1 h0)

/-- C20 counterexample: the access code `0xAAAA` starts at bit offset 8 behind the byte
`0xAA` and is followed by the header of length 1 (both copies), 1 bit per symbol and
counter 0. The search register matches after 16 bits, 8 bits before the end of the access
code, the 64 bits taken as the header fail `header_ok`, and `parse` emits no descriptor. -/
theorem parse_early_sync :
    (make 0xAAAA 16 1).d_access_code_len = 16
    ∧ access_code_bits (make 0xAAAA 16 1).d_access_code 16 = unpack [0xAA, 0xAA]
    ∧ (hdr_reg_of_bits (unpack [0, 1, 0, 1, 0, 1, 0, 0]) >>> 48) &&& 0xffff = 1
    ∧ (hdr_reg_of_bits (unpack [0, 1, 0, 1, 0, 1, 0, 0]) >>> 32) &&& 0xffff = 1
    ∧ (parse (parse_machine.start (make 0xAAAA 16 1) 0)
        (unpack [0xAA] ++ access_code_bits (make 0xAAAA 16 1).d_access_code 16
          ++ unpack [0, 1, 0, 1, 0, 1, 0, 0] ++ [])).info = [] := by
  decide!

/-! ### The bps state and the soft-input entry point -/

theorem format_bps_field (self : packet_formatter_counter) (nbytes_in : Int)
    (input : List Nat) (h8 : self.d_access_code_len % 8 = 0)
    (h64 : self.d_access_code_len ≤ 64) :
    field16_at (format self nbytes_in input).output (self.d_access_code_len / 8 + 4)
      = some (self.d_bps % 65536) := by
  have hd := format_output_drop self nbytes_in input h8 h64
  have g4 : (format self nbytes_in input).output[self.d_access_code_len / 8 + 4]?
      = some (some (self.d_bps % 65536 / 256 % 256)) := by
    rw [← List.getElem?_drop, hd]; rfl
  have g5 : (format self nbytes_in input).output[self.d_access_code_len / 8 + 4 + 1]?
      = some (some (self.d_bps % 65536 % 256)) := by
    rw [Nat.add_assoc, ← List.getElem?_drop, hd]; rfl
  simp only [field16_at, g4, g5, Option.join, Option.bind_eq_bind, Option.some_bind, id,
    Option.pure_def]
  rw [two_bytes_be _ _ (Nat.mod_lt _ (by decide)) (Nat.mod_lt _ (by decide))]
  exact congrArg some (by omega)

/-- C26: `header_payload` sets `d_bps` to the bps field `(r >> 16) & 0xffff` of the header
register `r` and leaves the header register, the bit count and the format counter as they
were; a `format` call made after it (access code of 8, 16, ..., 64 bits) emits
`(r >> 16) & 0xffff` as its bps field, whatever bps the formatter had before. -/
theorem header_payload_then_format (self : packet_formatter_counter) (nbytes_in : Int)
    (input : List Nat) (h8 : self.d_access_code_len % 8 = 0)
    (h64 : self.d_access_code_len ≤ 64) :
    (header_payload self).2.d_bps = (self.d_hdr_reg >>> 16) &&& 0xffff
    ∧ (header_payload self).2.d_hdr_reg = self.d_hdr_reg
    ∧ (header_payload self).2.d_count = self.d_count
    ∧ (header_payload self).2.d_counter = self.d_counter
    ∧ field16_at (format (header_payload self).2 nbytes_in input).output
        (self.d_access_code_len / 8 + 4) = some ((self.d_hdr_reg >>> 16) &&& 0xffff) := by
  have hm : ((self.d_hdr_reg >>> 16) &&& 0xffff) % 65536 = (self.d_hdr_reg >>> 16) &&& 0xffff := by
    rw [and_mask16]
    omega
  have hbps : (header_payload self).2.d_bps = (self.d_hdr_reg >>> 16) &&& 0xffff := by
    simp only [header_payload, hm]
  refine ⟨hbps, rfl, rfl, rfl, ?_⟩
  have h := format_bps_field (header_payload self).2 nbytes_in input h8 h64
  rw [hbps, hm] at h
  exact h

/-- Witness of C26: the unit-test formatter (constructed with bps 2) after `header_payload`
on a register whose bps field is 7. -/
theorem header_payload_then_format_witness :
    (header_payload { make 0xAAAA 16 2 with d_hdr_reg := 0x0064006400070000 }).2.d_bps = 7
    ∧ field16_at (format (header_payload
          { make 0xAAAA 16 2 with d_hdr_reg := 0x0064006400070000 }).2 100 []).output (16 / 8 + 4)
        = some 7 :=
  have h := header_payload_then_format { make 0xAAAA 16 2 with d_hdr_reg := 0x0064006400070000 }
    100 [] (by decide) (by decide)
  ⟨h.1, h.2.2.2.2⟩

end packet_formatter_counter

end digital

/-! ## The acquisition engine -/

namespace gr_complex

theorem ext_iff' {R : Type} (a b : gr_complex R) : a = b ↔ a.re = b.re ∧ a.im = b.im := by
  cases a; cases b; simp

variable {R : Type} [LinearOrderedField R]

@[simp] theorem zero_re : (0 : gr_complex R).re = 0 := rfl

@[simp] theorem zero_im : (0 : gr_complex R).im = 0 := rfl

@[simp] theorem mul_re (a b : gr_complex R) : (a * b).re = a.re * b.re - a.im * b.im := rfl

@[simp] theorem mul_im (a b : gr_complex R) : (a * b).im = a.re * b.im + a.im * b.re := rfl

@[simp] theorem div_re (a b : gr_complex R) :
    (a / b).re = (a.re * b.re + a.im * b.im) / (b.re * b.re + b.im * b.im) := rfl

@[simp] theorem div_im (a b : gr_complex R) :
    (a / b).im = (a.im * b.re - a.re * b.im) / (b.re * b.re + b.im * b.im) := rfl

theorem norm_eq_zero_iff (z : gr_complex R) : norm z = 0 ↔ z = 0 := by
  rw [ext_iff', norm, mul_self_add_mul_self_eq_zero]
  rfl

theorem norm_mul (a b : gr_complex R) : norm (a * b) = norm a * norm b := by
  simp only [norm, mul_re, mul_im]
  ring

theorem mul_ne_zero' (a b : gr_complex R) (ha : a ≠ 0) (hb : b ≠ 0) : a * b ≠ 0 := by
  intro h
  have hn := norm_mul a b
  rw [h, (norm_eq_zero_iff 0).mpr rfl] at hn
  rcases mul_eq_zero.mp hn.symm with h1 | h1
  · exact ha ((norm_eq_zero_iff a).mp h1)
  · exact hb ((norm_eq_zero_iff b).mp h1)

theorem mul_assoc' (a b c : gr_complex R) : a * b * c = a * (b * c) := by
  rw [ext_iff']
  simp only [mul_re, mul_im]
  constructor <;> ring

theorem div_mul_cancel' (k z : gr_complex R) (hz : z ≠ 0) : k / z * z = k := by
  have hn : z.re * z.re + z.im * z.im ≠ 0 := fun h => hz ((norm_eq_zero_iff z).mp h)
  rw [ext_iff']
  simp only [mul_re, mul_im, div_re, div_im]
  constructor
  · field_simp
    ring
  · field_simp
    ring

theorem div_real_mul (h p : gr_complex R) (a : R) :
    div_real h a * p = div_real (h * p) a := by
  rw [ext_iff']
  simp only [div_real, mul_re, mul_im]
  constructor <;> ring

theorem zero_mul' (z : gr_complex R) : (0 : gr_complex R) * z = 0 := by
  rw [ext_iff']
  simp only [mul_re, mul_im, zero_re, zero_im]
  constructor <;> ring

theorem add_comm' (a b : gr_complex R) : a + b = b + a := by
  rw [ext_iff']
  exact ⟨add_comm _ _, add_comm _ _⟩

theorem div_two (z : gr_complex R) : z / (⟨2, 0⟩ : gr_complex R) = div_real z 2 := by
  rw [ext_iff']
  simp only [div_re, div_im, div_real]
  constructor
  · field_simp
    ring
  · field_simp
    ring

end gr_complex

theorem write_at_eq_some {α : Type} (buf buf' : List α) (i : Nat) (v : α)
    (h : write_at buf i v = some buf') : i < buf.length ∧ buf' = buf.set i v := by
  unfold write_at at h
  split at h
  · exact ⟨by assumption, by simpa using h.symm⟩
  · exact absurd h (by simp)

theorem to_unsigned_of_lt (n : Nat) (h : n < 2 ^ 32) : to_unsigned (n : Int) = n := by
  unfold to_unsigned
  have : ((n : Int) % 2 ^ 32) = (n : Int) := Int.emod_eq_of_lt (by omega) (by exact_mod_cast h)
  rw [this]
  simp

theorem for_loop_from_fill {α : Type} (val : Nat → α) (idx : Nat → Nat) (base : Nat) :
    ∀ (count j0 : Nat) (pre rest : List α), pre.length = base + j0 → count ≤ rest.length →
      (∀ j, j0 ≤ j → j < j0 + count → idx j = base + j) →
      for_loop_from 1 (fun j l => write_at l (idx j) (val j)) count j0 (pre ++ rest)
        = some (pre ++ (List.range' j0 count).map val ++ rest.drop count) := by
  intro count
  induction count with
  | zero => intro j0 pre rest _ _ _; simp [for_loop_from]
  | succ count ih =>
    intro j0 pre rest hpre hrest hidx
    cases rest with
    | nil => simp at hrest
    | cons r rest =>
      have hw : write_at (pre ++ r :: rest) (idx j0) (val j0)
          = some ((pre ++ [val j0]) ++ rest) := by
        rw [hidx j0 (Nat.le_refl _) (by omega), ← hpre]
        simp [write_at]
      simp only [for_loop_from, hw]
      rw [ih (j0 + 1) (pre ++ [val j0]) rest (by simp [hpre]; omega)
        (by simpa using hrest) (fun j h1 h2 => hidx j (by omega) (by omega))]
      simp [List.range'_succ]

theorem getElem?_flatMap_rows {α : Type} (f : Nat → Nat → α) (N : Nat) :
    ∀ (rows start k n : Nat), k < rows → n < N →
      ((List.range' start rows).flatMap (fun i => (List.range N).map (f i)))[n + k * N]?
        = some (f (start + k) n) := by
  intro rows
  induction rows with
  | zero => intro _ k _ hk _; omega
  | succ rows ih =>
    intro start k n hk hn
    rw [List.range'_succ, List.flatMap_cons]
    cases k with
    | zero =>
      rw [Nat.zero_mul, List.getElem?_append_left (by simp [hn]), List.getElem?_map]
      simp [List.getElem?_range hn]
    | succ k =>
      rw [List.getElem?_append_right (by simp [Nat.succ_mul]; omega)]
      have e : n + (k + 1) * N - ((List.range N).map (f start)).length = n + k * N := by
        simp [Nat.succ_mul]; omega
      rw [e, ih (start + 1) k n (by omega) hn]
      congr 2
      omega

theorem list_set_same {α : Type} (l : List α) (i : Nat) (o : α) (h : l[i]? = some o) :
    l.set i o = l := by
  apply List.ext_getElem?
  intro j
  rw [List.getElem?_set]
  by_cases hij : i = j
  · subst hij
    obtain ⟨hlt, _⟩ := List.getElem?_eq_some.mp h
    rw [if_pos rfl, if_pos hlt, h]
  · rw [if_neg hij]

theorem to_int_lt (x : Nat) : to_int x < 2 ^ 31 := by
  unfold to_int
  split <;> omega

theorem to_int_to_unsigned (x : Int) (h0 : 0 ≤ x) (h1 : x < 2 ^ 31) :
    to_int (to_unsigned x) = x := by
  unfold to_int to_unsigned
  split <;> omega

theorem to_unsigned_nonneg (x : Int) (h0 : 0 ≤ x) (h1 : x < 2 ^ 32) :
    ((to_unsigned x : Nat) : Int) = x := by
  unfold to_unsigned
  omega

/-- The last assignment of `calculate_equalizer` touches tap `occupied_carriers - 1` only,
and only for an even number of carriers, where it copies tap `occupied_carriers - 2`. -/
theorem equalizer_last_tap {α : Type} (occupied_carriers : Nat) (hocc : occupied_carriers < 2 ^ 32)
    (h2 h3 : List α)
    (hfinal : (if occupied_carriers % 2 = 0 then
        (h2[to_unsigned ((occupied_carriers : Int) - 2)]?).bind
          (fun last => write_at h2 (to_unsigned ((occupied_carriers : Int) - 1)) last)
      else some h2) = some h3) (h1 : 1 ≤ occupied_carriers) :
    (∀ j, j + 1 < occupied_carriers → h3[j]? = h2[j]?)
    ∧ (occupied_carriers % 2 = 1 → h3 = h2)
    ∧ (occupied_carriers % 2 = 0 →
        h3[occupied_carriers - 1]? = h2[occupied_carriers - 2]?
        ∧ ∃ last, h2[occupied_carriers - 2]? = some last) := by
  by_cases hpar : occupied_carriers % 2 = 0
  · rw [if_pos hpar] at hfinal
    obtain ⟨last, hlast, hw⟩ := Option.bind_eq_some.mp hfinal
    obtain ⟨hlt, rfl⟩ := write_at_eq_some _ _ _ _ hw
    have e1 : to_unsigned ((occupied_carriers : Int) - 1) = occupied_carriers - 1 := by
      unfold to_unsigned
      omega
    have e2 : to_unsigned ((occupied_carriers : Int) - 2) = occupied_carriers - 2 := by
      unfold to_unsigned
      omega
    rw [e1] at hlt ⊢
    rw [e2] at hlast
    refine ⟨fun j hj => List.getElem?_set_ne (by omega), fun h => absurd h (by omega),
      fun _ => ⟨?_, last, hlast⟩⟩
    rw [List.getElem?_set_self hlt, hlast]
  · rw [if_neg hpar] at hfinal
    have e : h3 = h2 := (Option.some.inj hfinal).symm
    subst e
    exact ⟨fun _ _ => rfl, fun _ => rfl, fun h => absurd h hpar⟩

namespace gr_ofdm_mimo_frame_acquisition

variable {R : Type} [LinearOrderedField R]

theorem phase_lut_rows (m : numerics R) (cplen fft_length freq_shift_len N : Nat) :
    ∀ (count i0 : Nat) (pre : List (gr_complex R)), pre.length = i0 * N →
      (i0 + count) * N < 2 ^ 32 →
      for_loop_from 1
        (fun i lut =>
          for_loop 0 N 1
            (fun j lut =>
              write_at lut (to_unsigned (j + i * N))
                (m.gr_expj (-m.M_TWOPI * (cplen : R) / (fft_length : R)
                  * ((to_unsigned ((i : Int) - (freq_shift_len : Int)) : Nat) : R) * (j : R))))
            lut)
        count i0 (pre ++ List.replicate (count * N) 0)
      = some (pre ++ (List.range' i0 count).flatMap (fun i =>
          (List.range N).map (fun (j : Nat) =>
            m.gr_expj (-m.M_TWOPI * (cplen : R) / (fft_length : R)
              * ((to_unsigned ((i : Int) - (freq_shift_len : Int)) : Nat) : R) * (j : R))))) := by
  intro count
  induction count with
  | zero => intro i0 pre _ _; simp [for_loop_from]
  | succ count ih =>
    intro i0 pre hpre hsz
    have hcount : (N - 0 + (1 - 1)) / 1 = N := by simp
    have hle : i0 * N + N ≤ (i0 + (count + 1)) * N := by
      rw [Nat.add_mul, Nat.add_mul, Nat.one_mul]; omega
    have hinner := for_loop_from_fill
      (fun (j : Nat) => m.gr_expj (-m.M_TWOPI * (cplen : R) / (fft_length : R)
        * ((to_unsigned ((i0 : Int) - (freq_shift_len : Int)) : Nat) : R) * (j : R)))
      (fun (j : Nat) => to_unsigned ((j : Int) + (i0 : Int) * (N : Int))) (i0 * N)
      N 0 pre (List.replicate ((count + 1) * N) 0)
      (by simpa using hpre)
      (by rw [List.length_replicate, Nat.add_mul, Nat.one_mul]; omega)
      (by
        intro j _ hj
        have e : ((j : Int) + (i0 : Int) * (N : Int)) = ((i0 * N + j : Nat) : Int) := by
          push_cast; ring
        show to_unsigned ((j : Int) + (i0 : Int) * (N : Int)) = i0 * N + j
        rw [e, to_unsigned_of_lt]
        omega)
    have hdrop : List.drop N (List.replicate ((count + 1) * N) (0 : gr_complex R))
        = List.replicate (count * N) 0 := by
      rw [List.drop_replicate]
      congr 1
      rw [Nat.add_mul, Nat.one_mul]; omega
    have hin : for_loop 0 N 1
        (fun j lut =>
          write_at lut (to_unsigned (j + i0 * N))
            (m.gr_expj (-m.M_TWOPI * (cplen : R) / (fft_length : R)
              * ((to_unsigned ((i0 : Int) - (freq_shift_len : Int)) : Nat) : R) * (j : R))))
        (pre ++ List.replicate ((count + 1) * N) 0)
        = some ((pre ++ (List.range N).map (fun (j : Nat) =>
            m.gr_expj (-m.M_TWOPI * (cplen : R) / (fft_length : R)
              * ((to_unsigned ((i0 : Int) - (freq_shift_len : Int)) : Nat) : R) * (j : R))))
            ++ List.replicate (count * N) 0) := by
      rw [for_loop, hcount, List.range_eq_range', ← hdrop]
      exact hinner
    simp only [for_loop_from, hin]
    rw [ih (i0 + 1) _ (by rw [List.length_append, List.length_map, List.length_range, hpre,
        Nat.add_mul, Nat.one_mul])
      (by rw [Nat.add_assoc i0 1 count, Nat.add_comm 1 count]; exact hsz)]
    rw [List.range'_succ, List.flatMap_cons, List.append_assoc]

/-- Closed form of the phase look-up table when its size fits an `unsigned int`: row `i`
holds the `MAX_NUM_SYMBOLS` values computed for frequency hypothesis `i`. -/
theorem phase_lut_eq (m : numerics R) (cplen fft_length freq_shift_len : Nat)
    (hsz : (2 * freq_shift_len + 1) * MAX_NUM_SYMBOLS < 2 ^ 32) :
    phase_lut m cplen fft_length freq_shift_len
      = some ((List.range (2 * freq_shift_len + 1)).flatMap (fun i =>
          (List.range MAX_NUM_SYMBOLS).map (fun (j : Nat) =>
            m.gr_expj (-m.M_TWOPI * (cplen : R) / (fft_length : R)
              * ((to_unsigned ((i : Int) - (freq_shift_len : Int)) : Nat) : R) * (j : R))))) := by
  have hpos : 0 < MAX_NUM_SYMBOLS := by decide
  have h2 : to_unsigned (2 * (freq_shift_len : Int)) = 2 * freq_shift_len := by
    have e : (2 * (freq_shift_len : Int)) = ((2 * freq_shift_len : Nat) : Int) := by push_cast; ring
    rw [e, to_unsigned_of_lt]
    calc 2 * freq_shift_len < (2 * freq_shift_len + 1) * 1 := by omega
      _ ≤ (2 * freq_shift_len + 1) * MAX_NUM_SYMBOLS := Nat.mul_le_mul_left _ hpos
      _ < 2 ^ 32 := hsz
  have hsize : to_unsigned ((((2 * freq_shift_len : Nat) : Int) + 1) * (MAX_NUM_SYMBOLS : Int))
      = (2 * freq_shift_len + 1) * MAX_NUM_SYMBOLS := by
    have e : ((((2 * freq_shift_len : Nat) : Int) + 1) * (MAX_NUM_SYMBOLS : Int))
        = (((2 * freq_shift_len + 1) * MAX_NUM_SYMBOLS : Nat) : Int) := by push_cast; ring
    rw [e, to_unsigned_of_lt _ hsz]
  have hrows := phase_lut_rows m cplen fft_length freq_shift_len MAX_NUM_SYMBOLS
    (2 * freq_shift_len + 1) 0 [] (by simp) (by rw [Nat.zero_add]; exact hsz)
  simp only [List.nil_append] at hrows
  rw [← List.range_eq_range'] at hrows
  have hc : (2 * freq_shift_len + 1 - 0 + (1 - 1)) / 1 = 2 * freq_shift_len + 1 := by simp
  rw [phase_lut, for_loop, h2, hsize, hc, hrows]

theorem example_engine_made :
    make example_numerics 1 4 8 2 [⟨1, 0⟩, ⟨0, 0⟩, ⟨-1, 0⟩, ⟨0, 0⟩] 1 = some example_engine := by
  have hk : known_phase_diff ([⟨1, 0⟩, ⟨0, 0⟩, ⟨-1, 0⟩, ⟨0, 0⟩] : List (gr_complex ℚ)) 4
      = some [4, 0, 0, 0] := by decide!
  rw [make, hk, phase_lut_eq example_numerics 2 8 1 (by decide)]
  rfl

theorem preamble_phase_count (m : numerics R) (self s : gr_ofdm_mimo_frame_acquisition R)
    (symbols : List (List (gr_complex R))) (zeros_on_left : Int)
    (h : preamble m self symbols zeros_on_left = some s) : s.d_phase_count = 1 := by
  simp only [preamble, Option.bind_eq_bind, Option.bind_eq_some, Option.pure_def,
    Option.some.injEq] at h
  obtain ⟨_, _, _, _, _, _, rfl⟩ := h
  rfl

theorem general_work_phase_count (m : numerics R) (self : gr_ofdm_mimo_frame_acquisition R)
    (input : work_input R) (r : work_result R) (h : general_work m self input = some r)
    (hpc : self.d_phase_count < MAX_NUM_SYMBOLS) :
    1 ≤ r.self.d_phase_count ∧ r.self.d_phase_count < MAX_NUM_SYMBOLS := by
  simp only [general_work, Option.bind_eq_bind, Option.bind_eq_some, Option.pure_def,
    Option.some.injEq] at h
  obtain ⟨flag, _, self1, hself1, out, _, rfl⟩ := h
  have h1 : self1.d_phase_count < MAX_NUM_SYMBOLS := by
    by_cases hf : flag ≠ 0
    · rw [if_pos hf] at hself1
      rw [preamble_phase_count m self self1 _ _ hself1]
      decide
    · rw [if_neg hf] at hself1
      simp only [Option.some.injEq] at hself1
      rw [← hself1]
      exact hpc
  simp only [MAX_NUM_SYMBOLS] at h1 ⊢
  have hmod : (self1.d_phase_count + 1) % 2 ^ 32 = self1.d_phase_count + 1 :=
    Nat.mod_eq_of_lt (by omega)
  rw [hmod]
  split <;> omega

theorem work_calls_phase_count (m : numerics R) (inputs : List (work_input R)) :
    ∀ self self' : gr_ofdm_mimo_frame_acquisition R,
      self.d_phase_count < MAX_NUM_SYMBOLS → inputs ≠ [] →
      work_calls m self inputs = some self' →
      1 ≤ self'.d_phase_count ∧ self'.d_phase_count < MAX_NUM_SYMBOLS := by
  induction inputs with
  | nil => intro _ _ _ hne; exact absurd rfl hne
  | cons input inputs ih =>
    intro self self' hpc _ hrun
    simp only [work_calls] at hrun
    cases hw : general_work m self input with
    | none => rw [hw] at hrun; exact absurd hrun (by simp)
    | some r =>
      rw [hw] at hrun
      have hr := general_work_phase_count m self input r hw hpc
      cases inputs with
      | nil =>
        simp only [work_calls, Option.some.injEq] at hrun
        rw [← hrun]
        exact hr
      | cons input2 rest => exact ih r.self self' hr.2 (by simp) hrun

theorem make_phase_count (m : numerics R) (nchannels occupied_carriers fft_length cplen : Nat)
    (known_symbol : List (gr_complex R)) (max_fft_shift_len : Nat)
    (self : gr_ofdm_mimo_frame_acquisition R)
    (h : make m nchannels occupied_carriers fft_length cplen known_symbol max_fft_shift_len
      = some self) : self.d_phase_count = 0 := by
  simp only [make, Option.bind_eq_bind, Option.bind_eq_some, Option.pure_def,
    Option.some.injEq] at h
  obtain ⟨_, _, _, _, rfl⟩ := h
  rfl

/-- C8: after every call of a run of `general_work` calls on a constructed engine, with any
flags and any symbols, `1 ≤ d_phase_count < MAX_NUM_SYMBOLS` (= 1000). -/
theorem phase_count_in_range (m : numerics R)
    (nchannels occupied_carriers fft_length cplen : Nat) (known_symbol : List (gr_complex R))
    (max_fft_shift_len : Nat) (self0 self' : gr_ofdm_mimo_frame_acquisition R)
    (inputs : List (work_input R))
    (hmake : make m nchannels occupied_carriers fft_length cplen known_symbol max_fft_shift_len
      = some self0)
    (hcalls : inputs ≠ [])
    (hrun : work_calls m self0 inputs = some self') :
    1 ≤ self'.d_phase_count ∧ self'.d_phase_count < 1000 := by
  have h0 : self0.d_phase_count < MAX_NUM_SYMBOLS := by
    rw [make_phase_count m _ _ _ _ _ _ self0 hmake]
    decide
  exact work_calls_phase_count m inputs self0 self' h0 hcalls hrun

/-- Witness of C8: a preamble call followed by a data call on the example engine. -/
theorem phase_count_in_range_witness :
    ∃ self', work_calls example_numerics example_engine
        [⟨[1], [example_symbol], [0, 0, 0, 0]⟩, ⟨[0], [example_symbol], [0, 0, 0, 0]⟩]
          = some self'
      ∧ 1 ≤ self'.d_phase_count ∧ self'.d_phase_count < 1000 :=
  match hrun : work_calls example_numerics example_engine
      [⟨[1], [example_symbol], [0, 0, 0, 0]⟩, ⟨[0], [example_symbol], [0, 0, 0, 0]⟩] with
  | some self' =>
    ⟨self', rfl, phase_count_in_range example_numerics 1 4 8 2 [⟨1, 0⟩, ⟨0, 0⟩, ⟨-1, 0⟩, ⟨0, 0⟩] 1
      example_engine self' _ example_engine_made (by decide) hrun⟩
  | none => absurd hrun (by decide!)

/-- One run of the body of the equalizer loop: tap `i` is set from the known symbol and the
received sample, tap `i - 1` is rewritten, and no other tap changes. -/
theorem equalizer_step_spec (m : numerics R) (self : gr_ofdm_mimo_frame_acquisition R)
    (symbol : List (gr_complex R)) (zeros_on_left : Int) (i : Nat) (hi : 1 ≤ i)
    (h h' : List (gr_complex R))
    (hstep : equalizer_step m self symbol zeros_on_left i h = some h') :
    (∃ k s, self.d_known_symbol[i]? = some k
        ∧ symbol[to_unsigned ((i : Int) + zeros_on_left + self.d_coarse_freq)]? = some s
        ∧ h'[i]? = some (k / (coarse_freq_comp m self self.d_coarse_freq 1 * s)))
    ∧ ∀ j, j ≠ i → j ≠ i - 1 → h'[j]? = h[j]? := by
  simp only [equalizer_step, Option.bind_eq_bind, Option.bind_eq_some] at hstep
  obtain ⟨k, hk, s, hs, h1, hw1, hi1, _, hi2, _, hw2⟩ := hstep
  obtain ⟨hlt1, rfl⟩ := write_at_eq_some _ _ _ _ hw1
  obtain ⟨_, rfl⟩ := write_at_eq_some _ _ _ _ hw2
  refine ⟨⟨k, s, hk, hs, ?_⟩, ?_⟩
  · rw [List.getElem?_set_ne (by omega), List.getElem?_set_self hlt1]
  · intro j hj1 hj2
    rw [List.getElem?_set_ne (Ne.symm hj2), List.getElem?_set_ne (Ne.symm hj1)]

/-- The equalizer loop, run `count` times from counter `start`: the taps below `start - 1`
are kept and each tap `start + 2 t`, `t < count`, is set from the known symbol and the
received sample. -/
theorem equalizer_loop_spec (m : numerics R) (self : gr_ofdm_mimo_frame_acquisition R)
    (symbol : List (gr_complex R)) (zeros_on_left : Int) :
    ∀ (count start : Nat) (h h' : List (gr_complex R)), 1 ≤ start →
      for_loop_from 2 (equalizer_step m self symbol zeros_on_left) count start h = some h' →
      (∀ j, j + 1 < start → h'[j]? = h[j]?)
      ∧ ∀ t, t < count → ∃ k s, self.d_known_symbol[start + 2 * t]? = some k
          ∧ symbol[to_unsigned (((start + 2 * t : Nat) : Int) + zeros_on_left
              + self.d_coarse_freq)]? = some s
          ∧ h'[start + 2 * t]?
              = some (k / (coarse_freq_comp m self self.d_coarse_freq 1 * s)) := by
  intro count
  induction count with
  | zero =>
    intro start h h' _ hrun
    simp only [for_loop_from, Option.some.injEq] at hrun
    subst hrun
    exact ⟨fun _ _ => rfl, fun t ht => absurd ht (Nat.not_lt_zero t)⟩
  | succ count ih =>
    intro start h h' hstart hrun
    simp only [for_loop_from] at hrun
    cases hstep : equalizer_step m self symbol zeros_on_left start h with
    | none => rw [hstep] at hrun; exact absurd hrun (by simp)
    | some hmid =>
      rw [hstep] at hrun
      obtain ⟨⟨k, s, hk, hs, htap⟩, hkeep⟩ :=
        equalizer_step_spec m self symbol zeros_on_left start hstart h hmid hstep
      obtain ⟨hlow, htaps⟩ := ih (start + 2) hmid h' (by omega) hrun
      refine ⟨?_, ?_⟩
      · intro j hj
        rw [hlow j (by omega), hkeep j (by omega) (by omega)]
      · intro t ht
        cases t with
        | zero =>
          refine ⟨k, s, hk, hs, ?_⟩
          rw [Nat.mul_zero, Nat.add_zero, hlow start (by omega), htap]
        | succ t =>
          obtain ⟨k', s', hk', hs', htap'⟩ := htaps t (by omega)
          have e : start + 2 * (t + 1) = start + 2 + 2 * t := by omega
          rw [e]
          exact ⟨k', s', hk', hs', htap'⟩

theorem read_at_eq_some {α : Type} (buf : List α) (i : Int) (v : α)
    (h : read_at buf i = some v) : 0 ≤ i ∧ buf[i.toNat]? = some v := by
  unfold read_at at h
  split at h
  · exact ⟨by assumption, h⟩
  · exact absurd h (by simp)

theorem to_unsigned_of_read_at {α : Type} (buf : List α) (i : Int) (v : α)
    (hlen : buf.length ≤ 2 ^ 32) (h : read_at buf i = some v) :
    buf[to_unsigned i]? = some v := by
  obtain ⟨h0, hv⟩ := read_at_eq_some buf i v h
  obtain ⟨hlt, _⟩ := List.getElem?_eq_some.mp hv
  have e : to_unsigned i = i.toNat := by
    unfold to_unsigned
    have : i % 2 ^ 32 = i := Int.emod_eq_of_lt h0 (by omega)
    rw [this]
  rw [e]
  exact hv

/-- C9: after `calculate_equalizer` has run for a channel, every even carrier
`i < occupied_carriers` whose received sample `s[i + zeros_on_left + coarse_freq]` is
nonzero has a tap `H[i]` with `H[i] * phase_comp(coarse_freq, 1) * s[...] = k[i]`, in exact
arithmetic with a unit-magnitude `gr_expj`. -/
theorem calculate_equalizer_inverts_even_taps (m : numerics R)
    (self self' : gr_ofdm_mimo_frame_acquisition R) (channel : Nat)
    (symbol : List (gr_complex R)) (zeros_on_left : Int)
    (hexpj : ∀ phase, gr_complex.norm (m.gr_expj phase) = 1)
    (hlen : symbol.length ≤ 2 ^ 32)
    (hrun : calculate_equalizer m self channel symbol zeros_on_left = some self')
    (i : Nat) (hi : i < self.d_occupied_carriers) (heven : i % 2 = 0)
    (s : gr_complex R)
    (hs : read_at symbol ((i : Int) + zeros_on_left + self'.d_coarse_freq) = some s)
    (hs0 : s ≠ 0) :
    ∃ taps H k, self'.d_hestimate[channel]? = some taps ∧ taps[i]? = some H
      ∧ self'.d_known_symbol[i]? = some k
      ∧ H * coarse_freq_comp m self' self'.d_coarse_freq 1 * s = k := by
  simp only [calculate_equalizer, Option.bind_eq_bind, Option.bind_eq_some, Option.pure_def,
    Option.some.injEq] at hrun
  obtain ⟨h0, hh0, k0, hk0, s0, hs0', h1, hw1, h2, hloop, h3, hfinal, rfl⟩ := hrun
  obtain ⟨hch, _⟩ := List.getElem?_eq_some.mp hh0
  have hpc : coarse_freq_comp m self self.d_coarse_freq 1 ≠ 0 := by
    intro hz
    have h1' := hexpj (-m.M_TWOPI * ((self.d_coarse_freq : Int) : R) * (self.d_cplen : R)
      / (self.d_fft_length : R) * ((1 : Int) : R))
    unfold coarse_freq_comp at hz
    rw [hz, (gr_complex.norm_eq_zero_iff 0).mpr rfl] at h1'
    exact zero_ne_one h1'
  have halg : ∀ k : gr_complex R,
      k / (coarse_freq_comp m self self.d_coarse_freq 1 * s)
        * coarse_freq_comp m self self.d_coarse_freq 1 * s = k := by
    intro k
    rw [gr_complex.mul_assoc', gr_complex.div_mul_cancel' _ _
      (gr_complex.mul_ne_zero' _ _ hpc hs0)]
  -- the last assignment only touches an odd tap
  have h3i : h3[i]? = h2[i]? := by
    by_cases hodd : self.d_occupied_carriers % 2 = 0
    · rw [if_pos hodd] at hfinal
      obtain ⟨last, _, hw3⟩ := Option.bind_eq_some.mp hfinal
      obtain ⟨_, rfl⟩ := write_at_eq_some _ _ _ _ hw3
      have hne : to_unsigned ((self.d_occupied_carriers : Int) - 1) ≠ i := by
        unfold to_unsigned
        omega
      rw [List.getElem?_set_ne hne]
    · rw [if_neg hodd] at hfinal
      simp only [Option.pure_def, Option.some.injEq] at hfinal
      rw [hfinal]
  obtain ⟨hlow, htaps⟩ := equalizer_loop_spec m self symbol zeros_on_left
    ((self.d_occupied_carriers - 2 + (2 - 1)) / 2) 2 h1 h2 (by omega) hloop
  have hH : ∃ H k, h2[i]? = some H ∧ self.d_known_symbol[i]? = some k
      ∧ H * coarse_freq_comp m self self.d_coarse_freq 1 * s = k := by
    rcases Nat.eq_zero_or_pos i with hi0 | hipos
    · -- the first tap is set before the loop
      subst hi0
      obtain ⟨hlt0, rfl⟩ := write_at_eq_some _ _ _ _ hw1
      have es : s0 = s := by
        have hs' : read_at symbol (zeros_on_left + self.d_coarse_freq) = some s := by
          simpa using hs
        rw [hs0'] at hs'
        exact Option.some.inj hs'
      refine ⟨k0 / (coarse_freq_comp m self self.d_coarse_freq 1 * s0), k0, ?_, hk0, ?_⟩
      · rw [hlow 0 (by omega), List.getElem?_set_self hlt0]
      · rw [es]
        exact halg k0
    · obtain ⟨k, s', hk, hs', htap⟩ := htaps ((i - 2) / 2) (by omega)
      have ei : 2 + 2 * ((i - 2) / 2) = i := by omega
      rw [ei] at hk hs' htap
      have es : s' = s := by
        have := to_unsigned_of_read_at symbol _ s hlen hs
        rw [hs'] at this
        exact Option.some.inj this
      refine ⟨k / (coarse_freq_comp m self self.d_coarse_freq 1 * s'), k, htap, hk, ?_⟩
      rw [es]
      exact halg k
  obtain ⟨H, k, hH2, hk, hmul⟩ := hH
  exact ⟨h3, H, k, List.getElem?_set_self hch, by rw [h3i, hH2], hk, hmul⟩

theorem example_numerics_unit (phase : ℚ) :
    gr_complex.norm (example_numerics.gr_expj phase) = 1 := by
  have h : (1 : ℚ) + phase * phase ≠ 0 := ne_of_gt (by nlinarith [mul_self_nonneg phase])
  simp only [example_numerics, gr_complex.norm]
  field_simp
  ring

/-- Witness of C9: the equalizer of the example engine for the example symbol, tap 2. -/
theorem calculate_equalizer_inverts_even_taps_witness :
    ∃ taps H k,
      ({ example_engine with
          d_hestimate := [[⟨0, -1 / 2⟩, ⟨1 / 6, -1 / 4⟩, ⟨1 / 3, 0⟩, ⟨1 / 3, 0⟩]] }
        : gr_ofdm_mimo_frame_acquisition ℚ).d_hestimate[0]? = some taps
      ∧ taps[2]? = some H
      ∧ example_engine.d_known_symbol[2]? = some k
      ∧ H * coarse_freq_comp example_numerics example_engine 0 1 * ⟨-3, 0⟩ = k :=
  calculate_equalizer_inverts_even_taps example_numerics example_engine
    { example_engine with
      d_hestimate := [[⟨0, -1 / 2⟩, ⟨1 / 6, -1 / 4⟩, ⟨1 / 3, 0⟩, ⟨1 / 3, 0⟩]] }
    0 example_symbol 2 example_numerics_unit (by decide) (by with_unfolding_all rfl) 2 (by decide) (by decide)
    ⟨-3, 0⟩ (by decide!) (by decide!)

/-- C10, evaluated on a symbol without energy: the example engine (search window
`{1, 2}`, `zeros_on_left = 2`) scores 0 at both window positions, and `correlate` leaves
`index = 0`, so that `d_coarse_freq + zeros_on_left = 0`, which is not the first window
position with the maximal score (position 1) and not a window position at all. -/
theorem correlate_silent_symbol :
    make example_numerics 1 4 8 2 [⟨1, 0⟩, ⟨0, 0⟩, ⟨-1, 0⟩, ⟨0, 0⟩] 1 = some example_engine
    ∧ symbol_phase_diff example_engine silent_symbol = some [0, 0, 0, 0, 0, 0, 0, 0]
    ∧ correlate_sum example_engine [0, 0, 0, 0, 0, 0, 0, 0] 1 = some 0
    ∧ correlate_sum example_engine [0, 0, 0, 0, 0, 0, 0, 0] 2 = some 0
    ∧ (correlate example_engine silent_symbol 2).map (fun self => self.d_coarse_freq + 2)
        = some 0 :=
  ⟨example_engine_made, by with_unfolding_all rfl, by with_unfolding_all rfl,
    by with_unfolding_all rfl, by with_unfolding_all rfl⟩

/-! ### The constructor and `general_work` -/

/-- The engine built by the constructor when the phase look-up table fits an
`unsigned int` number of entries; it exists exactly when the loop over the known symbol
stays inside its vectors. -/
theorem make_eq (m : numerics R) (nchannels occupied_carriers fft_length cplen : Nat)
    (known_symbol : List (gr_complex R)) (max_fft_shift_len : Nat)
    (hsz : (2 * max_fft_shift_len + 1) * MAX_NUM_SYMBOLS < 2 ^ 32) :
    make m nchannels occupied_carriers fft_length cplen known_symbol max_fft_shift_len
      = (known_phase_diff known_symbol occupied_carriers).map (fun diff =>
          { d_occupied_carriers := occupied_carriers
            d_fft_length := fft_length
            d_cplen := cplen
            d_freq_shift_len := max_fft_shift_len
            d_known_symbol := known_symbol
            d_known_phase_diff := diff
            d_symbol_phase_diff := List.replicate fft_length 0
            d_hestimate := List.replicate nchannels (List.replicate occupied_carriers 0)
            d_coarse_freq := 0
            d_phase_count := 0
            d_nchannels := nchannels
            d_phase_lut := (List.range (2 * max_fft_shift_len + 1)).flatMap (fun i =>
              (List.range MAX_NUM_SYMBOLS).map (fun (j : Nat) =>
                m.gr_expj (-m.M_TWOPI * (cplen : R) / (fft_length : R)
                  * ((to_unsigned ((i : Int) - (max_fft_shift_len : Int)) : Nat) : R)
                  * (j : R)))) }) := by
  rw [make, phase_lut_eq m cplen fft_length max_fft_shift_len hsz]
  cases known_phase_diff known_symbol occupied_carriers <;> rfl

/-- Entry `n + h * MAX_NUM_SYMBOLS` of the phase look-up table of a constructed engine: the
frequency hypothesis enters as the `unsigned int` difference `h - max_fft_shift_len`. -/
theorem make_phase_lut_entry (m : numerics R)
    (nchannels occupied_carriers fft_length cplen : Nat)
    (known_symbol : List (gr_complex R)) (max_fft_shift_len : Nat)
    (self : gr_ofdm_mimo_frame_acquisition R)
    (hsz : (2 * max_fft_shift_len + 1) * MAX_NUM_SYMBOLS < 2 ^ 32)
    (hmake : make m nchannels occupied_carriers fft_length cplen known_symbol
      max_fft_shift_len = some self)
    (h n : Nat) (hh : h ≤ 2 * max_fft_shift_len) (hn : n < MAX_NUM_SYMBOLS) :
    self.d_phase_lut[n + h * MAX_NUM_SYMBOLS]?
      = some (m.gr_expj (-m.M_TWOPI * (cplen : R) / (fft_length : R)
          * ((to_unsigned ((h : Int) - (max_fft_shift_len : Int)) : Nat) : R) * (n : R))) := by
  rw [make_eq m _ _ _ _ _ _ hsz] at hmake
  obtain ⟨diff, _, rfl⟩ := Option.map_eq_some'.mp hmake
  have := getElem?_flatMap_rows
    (fun (i j : Nat) => m.gr_expj (-m.M_TWOPI * (cplen : R) / (fft_length : R)
      * ((to_unsigned ((i : Int) - (max_fft_shift_len : Int)) : Nat) : R) * (j : R)))
    MAX_NUM_SYMBOLS (2 * max_fft_shift_len + 1) 0 h n (by omega) hn
  rw [← List.range_eq_range', Nat.zero_add] at this
  exact this

/-- C11, evaluated on a preamble call with a symbol without energy: the example engine is
the one the constructor builds, it meets the constructor preconditions
(`2 * max_fft_shift_len <= zeros_on_left`, here `2 <= 2`), and after `general_work` with a
nonzero flag and the silent symbol the stored offset is `d_coarse_freq = -2`, outside
`[-1, 1]`. The cause is the one of C10: with all scores 0 the index keeps its initial
value 0. -/
theorem general_work_silent_symbol :
    make example_numerics 1 4 8 2 [⟨1, 0⟩, ⟨0, 0⟩, ⟨-1, 0⟩, ⟨0, 0⟩] 1 = some example_engine
    ∧ 2 * (example_engine.d_freq_shift_len : Int) ≤ work_zeros_on_left example_engine
    ∧ (general_work example_numerics example_engine
          ⟨[1], [silent_symbol], [⟨0, 0⟩, ⟨0, 0⟩, ⟨0, 0⟩, ⟨0, 0⟩]⟩).map
        (fun r => r.self.d_coarse_freq) = some (-2) :=
  ⟨example_engine_made, by decide, by with_unfolding_all rfl⟩

/-- C17, evaluated on two preamble calls on the example engine that differ only in the
prior contents of the output buffer: with `out = [0, 0, 0, 0]` the call leaves
`[1, 0, -1, 0]`, with `out = [1, 0, 0, 0]` it leaves `[3/2, 0, -1, 0]`. -/
theorem general_work_prior_output :
    (general_work example_numerics example_engine
        ⟨[1], [example_symbol], [⟨0, 0⟩, ⟨0, 0⟩, ⟨0, 0⟩, ⟨0, 0⟩]⟩).map (fun r => r.out)
      = some [⟨1, 0⟩, ⟨0, 0⟩, ⟨-1, 0⟩, ⟨0, 0⟩]
    ∧ (general_work example_numerics example_engine
        ⟨[1], [example_symbol], [⟨1, 0⟩, ⟨0, 0⟩, ⟨0, 0⟩, ⟨0, 0⟩]⟩).map (fun r => r.out)
      = some [⟨3 / 2, 0⟩, ⟨0, 0⟩, ⟨-1, 0⟩, ⟨0, 0⟩] :=
  ⟨by with_unfolding_all rfl, by with_unfolding_all rfl⟩

/-- C19 counterexample: for the known symbol `[0, 1, 0, 5]` with 4 occupied carriers the
constructor leaves `K[1] = 0`, while `|k[1] - k[3]|² = 16`. -/
theorem known_phase_diff_odd_entry :
    (make example_numerics 1 4 8 2 [⟨0, 0⟩, ⟨1, 0⟩, ⟨0, 0⟩, ⟨5, 0⟩] 1).map
        (fun self => self.d_known_phase_diff[1]?) = some (some 0)
    ∧ known_differential [(⟨0, 0⟩ : gr_complex ℚ), ⟨1, 0⟩, ⟨0, 0⟩, ⟨5, 0⟩] 1 = 16 := by
  rw [make_eq example_numerics 1 4 8 2 _ 1 (by decide)]
  exact ⟨by with_unfolding_all rfl, by with_unfolding_all rfl⟩

/-- C12 counterexample: an engine with 4 occupied carriers, an FFT of length 12
(`zeros_on_left = 4`), half-width 2 and the known symbol `[2, 0, 3, 0]`; the preamble
symbol is the known symbol at bins 4 to 7 (shift `D = 0`, phase 1). The scores of the
window positions 2, 3, 4, 5 are 4, 0, 1, 0, and after `general_work` with a nonzero flag
`d_coarse_freq = -2`, not 0. -/
theorem general_work_shifted_known_symbol :
    ((make example_numerics 1 4 12 2 [⟨2, 0⟩, ⟨0, 0⟩, ⟨3, 0⟩, ⟨0, 0⟩] 2).bind (fun self =>
        general_work example_numerics self
          ⟨[1], [[⟨0, 0⟩, ⟨0, 0⟩, ⟨0, 0⟩, ⟨0, 0⟩, ⟨2, 0⟩, ⟨0, 0⟩, ⟨3, 0⟩, ⟨0, 0⟩, ⟨0, 0⟩, ⟨0, 0⟩,
            ⟨0, 0⟩, ⟨0, 0⟩]], [⟨0, 0⟩, ⟨0, 0⟩, ⟨0, 0⟩, ⟨0, 0⟩]⟩)).map
      (fun r => r.self.d_coarse_freq) = some (-2) := by
  rw [make_eq example_numerics 1 4 12 2 _ 2 (by decide)]
  with_unfolding_all rfl

/-- C16 counterexample: (1) a `general_work` call without a preamble on the engine as
constructed divides by `|H_0[0]| = 0`; (2) for the known symbol `[1, 0, 2, 0]`, whose even
taps are nonzero, a preamble call on the symbol with the samples 1 and -2 at bins 2 and 4
leaves the even taps `H_0[0] = 1` and `H_0[2] = -1`, and the interpolated odd tap has
`|H_0[1]| = 0`. -/
theorem general_work_zero_taps :
    (general_work example_numerics example_engine
        ⟨[0], [example_symbol], [⟨0, 0⟩, ⟨0, 0⟩, ⟨0, 0⟩, ⟨0, 0⟩]⟩).map
      (fun r => example_numerics.abs (tap r.self 0 0)) = some 0
    ∧ ((make example_numerics 1 4 8 2 [⟨1, 0⟩, ⟨0, 0⟩, ⟨2, 0⟩, ⟨0, 0⟩] 1).bind (fun self =>
        general_work example_numerics self
          ⟨[1], [[⟨0, 0⟩, ⟨0, 0⟩, ⟨1, 0⟩, ⟨0, 0⟩, ⟨-2, 0⟩, ⟨0, 0⟩, ⟨0, 0⟩, ⟨0, 0⟩]],
            [⟨0, 0⟩, ⟨0, 0⟩, ⟨0, 0⟩, ⟨0, 0⟩]⟩)).map
      (fun r => (r.self.d_coarse_freq, tap r.self 0 0, tap r.self 0 2,
        example_numerics.abs (tap r.self 0 1)))
      = some (0, ⟨1, 0⟩, ⟨-1, 0⟩, 0) := by
  rw [make_eq example_numerics 1 4 8 2 _ 1 (by decide)]
  exact ⟨by with_unfolding_all rfl, by with_unfolding_all rfl⟩

/-- The steps of a completed `general_work` call. -/
theorem general_work_some (m : numerics R) (self : gr_ofdm_mimo_frame_acquisition R)
    (input : work_input R) (r : work_result R) (h : general_work m self input = some r) :
    ∃ (flag : Int) (self1 : gr_ofdm_mimo_frame_acquisition R) (out : List (gr_complex R)),
      input.signal_in[0]? = some flag
      ∧ (if flag ≠ 0 then preamble m self input.symbols (work_zeros_on_left self)
          else some self) = some self1
      ∧ equalize_and_combine m self1 input.symbols (work_zeros_on_left self) input.out
          = some out
      ∧ r = { self := { self1 with d_phase_count :=
                if (self1.d_phase_count + 1) % 2 ^ 32 ≥ MAX_NUM_SYMBOLS then 1
                else (self1.d_phase_count + 1) % 2 ^ 32 }
              out := out
              signal_out := if flag ≠ 0 then 1 else 0
              consumed := 1
              produced := 1 } := by
  simp only [general_work, Option.bind_eq_bind, Option.bind_eq_some, Option.pure_def,
    Option.some.injEq] at h
  obtain ⟨flag, hflag, self1, hself1, out, hout, rfl⟩ := h
  exact ⟨flag, self1, out, hflag, hself1, hout, rfl⟩

/-- C15: a `general_work` call returns 1, consumes one item on each input
(`consume_each(1)`), and writes the output flag 1 if the first byte of the input flag item
is nonzero and 0 otherwise. -/
theorem general_work_one_tuple (m : numerics R) (self : gr_ofdm_mimo_frame_acquisition R)
    (input : work_input R) (r : work_result R)
    (hrun : general_work m self input = some r) :
    r.produced = 1 ∧ r.consumed = 1
    ∧ ∃ flag : Int, input.signal_in[0]? = some flag
        ∧ r.signal_out = if flag ≠ 0 then 1 else 0 := by
  obtain ⟨flag, self1, out, hflag, _, _, rfl⟩ := general_work_some m self input r hrun
  exact ⟨rfl, rfl, flag, hflag, rfl⟩

/-- Witness of C15: a preamble call on the example engine. -/
theorem general_work_one_tuple_witness :
    ∃ r, general_work example_numerics example_engine ⟨[1], [example_symbol], [0, 0, 0, 0]⟩
        = some r
      ∧ r.produced = 1 ∧ r.consumed = 1 ∧ r.signal_out = 1 :=
  match hrun : general_work example_numerics example_engine
      ⟨[1], [example_symbol], [0, 0, 0, 0]⟩ with
  | some r =>
    have h := general_work_one_tuple example_numerics example_engine
      ⟨[1], [example_symbol], [0, 0, 0, 0]⟩ r hrun
    ⟨r, rfl, h.1, h.2.1, by
      obtain ⟨flag, hflag, hs⟩ := h.2.2
      have hf : flag = 1 := by
        have : (some (1 : Int)) = some flag := hflag
        exact (Option.some.inj this).symm
      rw [hs, hf]
      rfl⟩
  | none => absurd hrun (by decide!)

/-- One run of the body of the channel loop of the data path: the term of channel `c` is
added to `out[i]` and its weight to `norm`. -/
theorem combine_channel_spec (m : numerics R) (self : gr_ofdm_mimo_frame_acquisition R)
    (symbols : List (List (gr_complex R))) (zeros_on_left : Int) (i c : Nat)
    (out out' : List (gr_complex R)) (nrm nrm' : R) (o : gr_complex R)
    (ho : out[i]? = some o)
    (h : combine_channel m self symbols zeros_on_left i c (out, nrm) = some (out', nrm')) :
    out' = out.set i (o + gr_complex.div_real (tap self c i) (m.abs (tap self c i))
        * coarse_freq_comp m self self.d_coarse_freq (to_int self.d_phase_count)
        * carrier_sample self symbols zeros_on_left c i)
    ∧ nrm' = nrm + 1 / m.abs (tap self c i) := by
  simp only [combine_channel, Option.bind_eq_bind, Option.bind_eq_some, Option.pure_def,
    Option.some.injEq, Prod.mk.injEq] at h
  obtain ⟨symbol, hsym, taps, htaps, hh, hhh, s, hs, o', ho', out1, hw, rfl, rfl⟩ := h
  obtain ⟨_, rfl⟩ := write_at_eq_some _ _ _ _ hw
  have e1 : tap self c i = hh := by simp [tap, htaps, hhh]
  have e2 : carrier_sample self symbols zeros_on_left c i = s := by
    simp [carrier_sample, hsym, hs]
  have e3 : o' = o := by
    rw [ho] at ho'
    exact (Option.some.inj ho').symm
  rw [e1, e2, e3]
  exact ⟨rfl, rfl⟩

/-- The channel loop of the data path for carrier `i`, run for the channels
`c0, ..., c0 + count - 1`. -/
theorem combine_loop_spec (m : numerics R) (self : gr_ofdm_mimo_frame_acquisition R)
    (symbols : List (List (gr_complex R))) (zeros_on_left : Int) (i : Nat) :
    ∀ (count c0 : Nat) (out out' : List (gr_complex R)) (nrm nrm' : R) (o : gr_complex R),
      out[i]? = some o →
      for_loop_from 1 (combine_channel m self symbols zeros_on_left i) count c0 (out, nrm)
        = some (out', nrm') →
      out' = out.set i ((List.range' c0 count).foldl (fun acc c =>
          acc + gr_complex.div_real (tap self c i) (m.abs (tap self c i))
            * coarse_freq_comp m self self.d_coarse_freq (to_int self.d_phase_count)
            * carrier_sample self symbols zeros_on_left c i) o)
      ∧ nrm' = (List.range' c0 count).foldl (fun acc c => acc + 1 / m.abs (tap self c i)) nrm := by
  intro count
  induction count with
  | zero =>
    intro c0 out out' nrm nrm' o ho h
    simp only [for_loop_from, Option.some.injEq, Prod.mk.injEq] at h
    obtain ⟨rfl, rfl⟩ := h
    refine ⟨?_, rfl⟩
    simp only [List.range'_zero, List.foldl_nil]
    exact (list_set_same _ _ _ ho).symm
  | succ count ih =>
    intro c0 out out' nrm nrm' o ho h
    simp only [for_loop_from] at h
    cases hstep : combine_channel m self symbols zeros_on_left i c0 (out, nrm) with
    | none => rw [hstep] at h; exact absurd h (by simp)
    | some st =>
      obtain ⟨out1, nrm1⟩ := st
      rw [hstep] at h
      obtain ⟨e1, e2⟩ := combine_channel_spec m self symbols zeros_on_left i c0 out out1 nrm
        nrm1 o ho hstep
      obtain ⟨hlt, _⟩ := List.getElem?_eq_some.mp ho
      have ho1 : out1[i]? = some (o + gr_complex.div_real (tap self c0 i) (m.abs (tap self c0 i))
          * coarse_freq_comp m self self.d_coarse_freq (to_int self.d_phase_count)
          * carrier_sample self symbols zeros_on_left c0 i) := by
        rw [e1, List.getElem?_set_self hlt]
      obtain ⟨e3, e4⟩ := ih (c0 + 1) out1 out' nrm1 nrm' _ ho1 h
      refine ⟨?_, ?_⟩
      · rw [e3, e1, List.set_set, List.range'_succ, List.foldl_cons]
      · rw [e4, e2, List.range'_succ, List.foldl_cons]

theorem combine_loop_length (m : numerics R) (self : gr_ofdm_mimo_frame_acquisition R)
    (symbols : List (List (gr_complex R))) (zeros_on_left : Int) (i : Nat) :
    ∀ (count c0 : Nat) (out out' : List (gr_complex R)) (nrm nrm' : R),
      for_loop_from 1 (combine_channel m self symbols zeros_on_left i) count c0 (out, nrm)
        = some (out', nrm') → out'.length = out.length := by
  intro count
  induction count with
  | zero =>
    intro c0 out out' nrm nrm' h
    simp only [for_loop_from, Option.some.injEq, Prod.mk.injEq] at h
    rw [h.1]
  | succ count ih =>
    intro c0 out out' nrm nrm' h
    simp only [for_loop_from] at h
    split at h
    · exact absurd h (by simp)
    · rename_i st hstep
      obtain ⟨out1, nrm1⟩ := st
      rw [ih (c0 + 1) out1 out' nrm1 nrm' h]
      simp only [combine_channel, Option.bind_eq_bind, Option.bind_eq_some, Option.pure_def,
        Option.some.injEq, Prod.mk.injEq] at hstep
      obtain ⟨_, _, _, _, _, _, _, _, _, _, out2, hw, rfl, _⟩ := hstep
      obtain ⟨_, rfl⟩ := write_at_eq_some _ _ _ _ hw
      exact List.length_set _ _ _

/-- One run of the body of the carrier loop of the data path: `out[i]` becomes the sum of
its previous value and the terms of all channels, divided by the sum of the weights. -/
theorem equalize_carrier_spec (m : numerics R) (self : gr_ofdm_mimo_frame_acquisition R)
    (symbols : List (List (gr_complex R))) (zeros_on_left : Int) (i : Nat)
    (out out' : List (gr_complex R))
    (h : ((for_loop 0 self.d_nchannels 1 (combine_channel m self symbols zeros_on_left i)
        (out, 0)).bind (fun st => (st.1[i]?).bind (fun o =>
          write_at st.1 i (gr_complex.div_real o st.2)))) = some out') :
    ∃ o, out[i]? = some o
      ∧ out' = out.set i (gr_complex.div_real
          (sum_from o self.d_nchannels (fun c =>
            gr_complex.div_real (tap self c i) (m.abs (tap self c i))
              * coarse_freq_comp m self self.d_coarse_freq (to_int self.d_phase_count)
              * carrier_sample self symbols zeros_on_left c i))
          (sum_from 0 self.d_nchannels (fun c => 1 / m.abs (tap self c i)))) := by
  obtain ⟨⟨out1, nrm1⟩, hloop, hrest⟩ := Option.bind_eq_some.mp h
  obtain ⟨o1, ho1, hw⟩ := Option.bind_eq_some.mp hrest
  obtain ⟨hlt1, rfl⟩ := write_at_eq_some _ _ _ _ hw
  have hc : (self.d_nchannels - 0 + (1 - 1)) / 1 = self.d_nchannels := by simp
  rw [for_loop, hc] at hloop
  have hlen : out1.length = out.length :=
    combine_loop_length m self symbols zeros_on_left i _ _ _ _ _ _ hloop
  have hlt : i < out.length := hlen ▸ hlt1
  obtain ⟨e1, e2⟩ := combine_loop_spec m self symbols zeros_on_left i _ _ out out1 0 nrm1
    out[i] (List.getElem?_eq_getElem hlt) hloop
  refine ⟨out[i], List.getElem?_eq_getElem hlt, ?_⟩
  simp only at ho1 ⊢
  rw [e1, List.getElem?_set_self hlt] at ho1
  rw [← Option.some.inj ho1, e1, e2, List.set_set, ← List.range_eq_range']
  rfl

/-- The carrier loop of the data path, run for the carriers `i0, ..., i0 + count - 1`:
the other entries of `out` are kept, and each of these becomes the combination of its
previous value with the terms of all channels. -/
theorem equalize_loop_spec (m : numerics R) (self : gr_ofdm_mimo_frame_acquisition R)
    (symbols : List (List (gr_complex R))) (zeros_on_left : Int) :
    ∀ (count i0 : Nat) (out out' : List (gr_complex R)),
      for_loop_from 1
        (fun i out =>
          (for_loop 0 self.d_nchannels 1 (combine_channel m self symbols zeros_on_left i)
            (out, 0)).bind (fun st => (st.1[i]?).bind (fun o =>
              write_at st.1 i (gr_complex.div_real o st.2))))
        count i0 out = some out' →
      (∀ j, j < i0 ∨ i0 + count ≤ j → out'[j]? = out[j]?)
      ∧ ∀ i, i0 ≤ i → i < i0 + count → ∃ o, out[i]? = some o
          ∧ out'[i]? = some (gr_complex.div_real
              (sum_from o self.d_nchannels (fun c =>
                gr_complex.div_real (tap self c i) (m.abs (tap self c i))
                  * coarse_freq_comp m self self.d_coarse_freq (to_int self.d_phase_count)
                  * carrier_sample self symbols zeros_on_left c i))
              (sum_from 0 self.d_nchannels (fun c => 1 / m.abs (tap self c i)))) := by
  intro count
  induction count with
  | zero =>
    intro i0 out out' h
    simp only [for_loop_from, Option.some.injEq] at h
    subst h
    exact ⟨fun _ _ => rfl, fun i h1 h2 => absurd h2 (by omega)⟩
  | succ count ih =>
    intro i0 out out' h
    simp only [for_loop_from] at h
    split at h
    · exact absurd h (by simp)
    · rename_i out1 hstep
      obtain ⟨o, ho, rfl⟩ := equalize_carrier_spec m self symbols zeros_on_left i0 out out1 hstep
      obtain ⟨hkeep, hnew⟩ := ih (i0 + 1) _ out' h
      obtain ⟨hlt, _⟩ := List.getElem?_eq_some.mp ho
      refine ⟨?_, ?_⟩
      · intro j hj
        rw [hkeep j (by omega), List.getElem?_set_ne (by omega)]
      · intro i h1 h2
        rcases Nat.eq_or_lt_of_le h1 with rfl | hgt
        · refine ⟨o, ho, ?_⟩
          rw [hkeep i0 (by omega), List.getElem?_set_self hlt]
        · obtain ⟨o', ho', hout'⟩ := hnew i (by omega) (by omega)
          rw [List.getElem?_set_ne (by omega)] at ho'
          exact ⟨o', ho', hout'⟩

/-- The data path: every carrier `i < occupied_carriers` of the output is the combination
of the previous content of `out[i]` with the terms of all channels. -/
theorem equalize_and_combine_spec (m : numerics R) (self : gr_ofdm_mimo_frame_acquisition R)
    (symbols : List (List (gr_complex R))) (zeros_on_left : Int)
    (out out' : List (gr_complex R))
    (h : equalize_and_combine m self symbols zeros_on_left out = some out')
    (i : Nat) (hi : i < self.d_occupied_carriers) :
    ∃ o, out[i]? = some o
      ∧ out'[i]? = some (gr_complex.div_real
          (sum_from o self.d_nchannels (fun c =>
            gr_complex.div_real (tap self c i) (m.abs (tap self c i))
              * coarse_freq_comp m self self.d_coarse_freq (to_int self.d_phase_count)
              * carrier_sample self symbols zeros_on_left c i))
          (sum_from 0 self.d_nchannels (fun c => 1 / m.abs (tap self c i)))) := by
  have hc : (self.d_occupied_carriers - 0 + (1 - 1)) / 1 = self.d_occupied_carriers := by simp
  rw [equalize_and_combine, for_loop, hc] at h
  exact (equalize_loop_spec m self symbols zeros_on_left _ 0 out out' h).2 i (Nat.zero_le _)
    (by omega)

/-- The symbol index used by the data path of a `general_work` call: 1 after a preamble,
the stored count otherwise. -/
theorem general_work_symbol_index (m : numerics R) (self self1 : gr_ofdm_mimo_frame_acquisition R)
    (symbols : List (List (gr_complex R))) (zeros_on_left : Int) (flag : Int)
    (h : (if flag ≠ 0 then preamble m self symbols zeros_on_left else some self) = some self1) :
    to_int self1.d_phase_count = if flag ≠ 0 then 1 else to_int self.d_phase_count := by
  by_cases hf : flag ≠ 0
  · rw [if_pos hf] at h
    rw [if_pos hf, preamble_phase_count m self self1 _ _ h]
    decide
  · rw [if_neg hf] at h
    rw [if_neg hf, ← Option.some.inj h]

/-- A `calculate_equalizer` call only replaces the tap vector of its channel. -/
theorem calculate_equalizer_frame (m : numerics R)
    (self self' : gr_ofdm_mimo_frame_acquisition R) (channel : Nat)
    (symbol : List (gr_complex R)) (zeros_on_left : Int)
    (hrun : calculate_equalizer m self channel symbol zeros_on_left = some self') :
    ∃ taps, self' = { self with d_hestimate := self.d_hestimate.set channel taps }
      ∧ channel < self.d_hestimate.length := by
  simp only [calculate_equalizer, Option.bind_eq_bind, Option.bind_eq_some, Option.pure_def,
    Option.some.injEq] at hrun
  obtain ⟨h0, hh0, _, _, _, _, _, _, _, _, h3, _, rfl⟩ := hrun
  obtain ⟨hch, _⟩ := List.getElem?_eq_some.mp hh0
  exact ⟨h3, rfl, hch⟩

/-- The even taps written by `calculate_equalizer`: tap `i` is
`k[i] / (phase_comp(coarse_freq, 1) * s[i + zeros_on_left + coarse_freq])`. -/
theorem calculate_equalizer_even_tap (m : numerics R)
    (self self' : gr_ofdm_mimo_frame_acquisition R) (channel : Nat)
    (symbol : List (gr_complex R)) (zeros_on_left : Int)
    (hlen : symbol.length ≤ 2 ^ 32)
    (hrun : calculate_equalizer m self channel symbol zeros_on_left = some self')
    (i : Nat) (hi : i < self.d_occupied_carriers) (heven : i % 2 = 0) :
    ∃ k s, self.d_known_symbol[i]? = some k
      ∧ symbol[to_unsigned ((i : Int) + zeros_on_left + self.d_coarse_freq)]? = some s
      ∧ tap self' channel i = k / (coarse_freq_comp m self self.d_coarse_freq 1 * s) := by
  simp only [calculate_equalizer, Option.bind_eq_bind, Option.bind_eq_some, Option.pure_def,
    Option.some.injEq] at hrun
  obtain ⟨h0, hh0, k0, hk0, s0, hs0', h1, hw1, h2, hloop, h3, hfinal, rfl⟩ := hrun
  obtain ⟨hch, _⟩ := List.getElem?_eq_some.mp hh0
  have h3i : h3[i]? = h2[i]? := by
    by_cases hodd : self.d_occupied_carriers % 2 = 0
    · rw [if_pos hodd] at hfinal
      obtain ⟨last, _, hw3⟩ := Option.bind_eq_some.mp hfinal
      obtain ⟨_, rfl⟩ := write_at_eq_some _ _ _ _ hw3
      have hne : to_unsigned ((self.d_occupied_carriers : Int) - 1) ≠ i := by
        unfold to_unsigned
        omega
      rw [List.getElem?_set_ne hne]
    · rw [if_neg hodd] at hfinal
      simp only [Option.pure_def, Option.some.injEq] at hfinal
      rw [hfinal]
  obtain ⟨hlow, htaps⟩ := equalizer_loop_spec m self symbol zeros_on_left
    ((self.d_occupied_carriers - 2 + (2 - 1)) / 2) 2 h1 h2 (by omega) hloop
  have htap : ∀ H, h2[i]? = some H →
      tap { self with d_hestimate := self.d_hestimate.set channel h3 } channel i = H := by
    intro H hH
    simp only [tap, List.getElem?_set_self hch, Option.some_bind, h3i, hH, Option.getD_some]
  rcases Nat.eq_zero_or_pos i with hi0 | hipos
  · subst hi0
    obtain ⟨hlt0, rfl⟩ := write_at_eq_some _ _ _ _ hw1
    refine ⟨k0, s0, hk0, ?_, htap _ ?_⟩
    · have := to_unsigned_of_read_at symbol _ s0 hlen hs0'
      simpa using this
    · rw [hlow 0 (by omega), List.getElem?_set_self hlt0]
  · obtain ⟨k, s', hk, hs', htap'⟩ := htaps ((i - 2) / 2) (by omega)
    have ei : 2 + 2 * ((i - 2) / 2) = i := by omega
    rw [ei] at hk hs' htap'
    exact ⟨k, s', hk, hs', htap _ htap'⟩

/-- The loop of `general_work` over the channels, run for the channels
`c0, ..., c0 + count - 1`: only tap vectors change, those of the other channels are kept,
and every even tap of these channels is
`k[i] / (phase_comp(coarse_freq, 1) * s_c[i + zeros_on_left + coarse_freq])`. -/
theorem equalizer_channels_spec (m : numerics R) (symbols : List (List (gr_complex R)))
    (zeros_on_left : Int) (hlen : ∀ symbol ∈ symbols, symbol.length ≤ 2 ^ 32) :
    ∀ (count c0 : Nat) (e e' : gr_ofdm_mimo_frame_acquisition R),
      for_loop_from 1
        (fun channel self => (symbols[channel]?).bind (fun symbol =>
          calculate_equalizer m self channel symbol zeros_on_left))
        count c0 e = some e' →
      e' = { e with d_hestimate := e'.d_hestimate }
      ∧ (∀ c, c < c0 ∨ c0 + count ≤ c → e'.d_hestimate[c]? = e.d_hestimate[c]?)
      ∧ ∀ c, c0 ≤ c → c < c0 + count → ∀ i, i < e.d_occupied_carriers → i % 2 = 0 →
          ∃ k symbol s, e.d_known_symbol[i]? = some k ∧ symbols[c]? = some symbol
            ∧ symbol[to_unsigned ((i : Int) + zeros_on_left + e.d_coarse_freq)]? = some s
            ∧ tap e' c i = k / (coarse_freq_comp m e e.d_coarse_freq 1 * s) := by
  intro count
  induction count with
  | zero =>
    intro c0 e e' h
    simp only [for_loop_from, Option.some.injEq] at h
    subst h
    exact ⟨rfl, fun _ _ => rfl, fun c h1 h2 => absurd h2 (by omega)⟩
  | succ count ih =>
    intro c0 e e' h
    simp only [for_loop_from] at h
    split at h
    · exact absurd h (by simp)
    · rename_i e1 hstep
      obtain ⟨symbol, hsym, hcalc⟩ := Option.bind_eq_some.mp hstep
      obtain ⟨taps, he1, hch⟩ := calculate_equalizer_frame m e e1 c0 symbol zeros_on_left hcalc
      obtain ⟨hcfg, hkeep, hnew⟩ := ih (c0 + 1) e1 e' h
      refine ⟨?_, ?_, ?_⟩
      · rw [hcfg, he1]
      · intro c hc
        rw [hkeep c (by omega), he1]
        exact List.getElem?_set_ne (by omega)
      · intro c h1 h2 i hi heven
        rcases Nat.eq_or_lt_of_le h1 with rfl | hgt
        · obtain ⟨k, s, hk, hs, htap⟩ := calculate_equalizer_even_tap m e e1 c0 symbol
            zeros_on_left (hlen symbol (List.getElem?_mem hsym)) hcalc i hi heven
          refine ⟨k, symbol, s, hk, hsym, hs, ?_⟩
          rw [← htap]
          simp only [tap, hkeep c0 (by omega)]
        · have hi1 : i < e1.d_occupied_carriers := by rw [he1]; exact hi
          obtain ⟨k, symbol', s, hk, hsym', hs, htap⟩ := hnew c (by omega) (by omega) i hi1 heven
          rw [he1] at hk hs htap
          exact ⟨k, symbol', s, hk, hsym', hs, htap⟩

/-- After `correlate` only the symbol differential and the coarse frequency offset have
changed. -/
theorem correlate_frame (self e : gr_ofdm_mimo_frame_acquisition R)
    (symbol : List (gr_complex R)) (zeros_on_left : Int)
    (h : correlate self symbol zeros_on_left = some e) :
    ∃ diff st, symbol_phase_diff self symbol = some diff
      ∧ correlate_sweep self diff zeros_on_left = some st
      ∧ e = { self with d_symbol_phase_diff := diff, d_coarse_freq := st.1 - zeros_on_left } := by
  simp only [correlate, Option.bind_eq_bind, Option.bind_eq_some, Option.pure_def,
    Option.some.injEq] at h
  obtain ⟨diff, hdiff, st, hst, rfl⟩ := h
  exact ⟨diff, st, hdiff, hst, rfl⟩

/-- The preamble branch of `general_work`: `correlate` on the symbol of port 1, then the
loop over the channels, then `d_phase_count = 1`. -/
theorem preamble_some (m : numerics R) (self self1 : gr_ofdm_mimo_frame_acquisition R)
    (symbols : List (List (gr_complex R))) (zeros_on_left : Int)
    (h : preamble m self symbols zeros_on_left = some self1) :
    ∃ symbol e e', symbols[0]? = some symbol
      ∧ correlate self symbol zeros_on_left = some e
      ∧ for_loop_from 1
          (fun channel self => (symbols[channel]?).bind (fun symbol =>
            calculate_equalizer m self channel symbol zeros_on_left))
          e.d_nchannels 0 e = some e'
      ∧ self1 = { e' with d_phase_count := 1 } := by
  simp only [preamble, Option.bind_eq_bind, Option.bind_eq_some, Option.pure_def,
    Option.some.injEq] at h
  obtain ⟨symbol, hsym, e, he, e', hloop, rfl⟩ := h
  have hc : (e.d_nchannels - 0 + (1 - 1)) / 1 = e.d_nchannels := by simp
  rw [for_loop, hc] at hloop
  exact ⟨symbol, e, e', hsym, he, hloop, rfl⟩

theorem sum_from_succ {α : Type} [Add α] (init : α) (n : Nat) (f : Nat → α) :
    sum_from init (n + 1) f = sum_from init n f + f n := by
  simp only [sum_from, List.range_succ, List.foldl_append, List.foldl_cons, List.foldl_nil]

theorem sum_from_congr {α : Type} [Add α] (init : α) (n : Nat) (f g : Nat → α)
    (h : ∀ c, c < n → f c = g c) : sum_from init n f = sum_from init n g := by
  induction n with
  | zero => rfl
  | succ n ih =>
    rw [sum_from_succ, sum_from_succ, ih (fun c hc => h c (by omega)), h n (by omega)]

theorem sum_from_pos (n : Nat) (hn : 1 ≤ n) (f : Nat → R) (h : ∀ c, c < n → 0 < f c) :
    0 < sum_from 0 n f := by
  have hnonneg : ∀ k, k ≤ n → 0 ≤ sum_from 0 k f := by
    intro k
    induction k with
    | zero => intro _; exact le_refl _
    | succ k ih =>
      intro hk
      rw [sum_from_succ]
      exact add_nonneg (ih (by omega)) (le_of_lt (h k (by omega)))
  obtain ⟨k, rfl⟩ : ∃ k, n = k + 1 := ⟨n - 1, by omega⟩
  rw [sum_from_succ]
  exact add_pos_of_nonneg_of_pos (hnonneg k (by omega)) (h k (by omega))

/-- Maximal-ratio combining of one value: the sum of `k / a_c` over the antennas, divided
by the sum of `1 / a_c`, is `k`. -/
theorem combine_known (k : gr_complex R) (n : Nat) (hn : 1 ≤ n) (a : Nat → R)
    (ha : ∀ c, c < n → 0 < a c) :
    gr_complex.div_real (sum_from 0 n (fun c => gr_complex.div_real k (a c)))
      (sum_from 0 n (fun c => 1 / a c)) = k := by
  have hsum : ∀ j, sum_from 0 j (fun c => gr_complex.div_real k (a c))
      = ⟨k.re * sum_from 0 j (fun c => 1 / a c), k.im * sum_from 0 j (fun c => 1 / a c)⟩ := by
    intro j
    induction j with
    | zero =>
      show (0 : gr_complex R) = ⟨k.re * 0, k.im * 0⟩
      rw [mul_zero, mul_zero]
      rfl
    | succ j ih =>
      rw [sum_from_succ, sum_from_succ, ih, gr_complex.ext_iff']
      show k.re * _ + k.re / a j = _ ∧ k.im * _ + k.im / a j = _
      constructor <;> ring
  have hpos : 0 < sum_from 0 n (fun c => 1 / a c) :=
    sum_from_pos n hn _ (fun c hc => one_div_pos.mpr (ha c hc))
  rw [hsum, gr_complex.ext_iff']
  simp only [gr_complex.div_real]
  exact ⟨mul_div_cancel_right₀ _ (ne_of_gt hpos), mul_div_cancel_right₀ _ (ne_of_gt hpos)⟩

theorem coarse_freq_comp_ne_zero (m : numerics R)
    (hexpj : ∀ phase, gr_complex.norm (m.gr_expj phase) = 1)
    (self : gr_ofdm_mimo_frame_acquisition R) (freq_delta symbol_count : Int) :
    coarse_freq_comp m self freq_delta symbol_count ≠ 0 := by
  intro hz
  have h1 := hexpj (-m.M_TWOPI * (freq_delta : R) * (self.d_cplen : R)
    / (self.d_fft_length : R) * (symbol_count : R))
  unfold coarse_freq_comp at hz
  rw [hz, (gr_complex.norm_eq_zero_iff 0).mpr rfl] at h1
  exact zero_ne_one h1

/-- The state of the engine when the data path of a preamble call starts: the fields set
at construction are those of the block before the call, and every even tap of every channel
is `k[i] / (phase_comp(coarse_freq, 1) * s_c[i + zeros_on_left + coarse_freq])`. -/
theorem preamble_spec (m : numerics R) (self self1 : gr_ofdm_mimo_frame_acquisition R)
    (symbols : List (List (gr_complex R))) (zeros_on_left : Int)
    (hlen : ∀ symbol ∈ symbols, symbol.length ≤ 2 ^ 32)
    (h : preamble m self symbols zeros_on_left = some self1) :
    self1.d_nchannels = self.d_nchannels
    ∧ self1.d_occupied_carriers = self.d_occupied_carriers
    ∧ self1.d_known_symbol = self.d_known_symbol
    ∧ self1.d_phase_count = 1
    ∧ ∀ c, c < self.d_nchannels → ∀ i, i < self.d_occupied_carriers → i % 2 = 0 →
        ∃ k symbol s, self.d_known_symbol[i]? = some k ∧ symbols[c]? = some symbol
          ∧ symbol[to_unsigned ((i : Int) + zeros_on_left + self1.d_coarse_freq)]? = some s
          ∧ tap self1 c i = k / (coarse_freq_comp m self1 self1.d_coarse_freq 1 * s) := by
  obtain ⟨symbol, e, e', hsym, hcorr, hloop, rfl⟩ := preamble_some m self self1 symbols
    zeros_on_left h
  obtain ⟨diff, st, _, _, he⟩ := correlate_frame self e symbol zeros_on_left hcorr
  obtain ⟨hcfg, _, htaps⟩ := equalizer_channels_spec m symbols zeros_on_left hlen
    e.d_nchannels 0 e e' hloop
  have hN : e.d_nchannels = self.d_nchannels := by rw [he]
  have hocc : e.d_occupied_carriers = self.d_occupied_carriers := by rw [he]
  have hknown : e.d_known_symbol = self.d_known_symbol := by rw [he]
  refine ⟨?_, ?_, ?_, rfl, ?_⟩
  · show e'.d_nchannels = _
    rw [hcfg]
    exact hN
  · show e'.d_occupied_carriers = _
    rw [hcfg]
    exact hocc
  · show e'.d_known_symbol = _
    rw [hcfg]
    exact hknown
  · intro c hc i hi heven
    obtain ⟨k, symbol', s, hk, hsym', hs, htap⟩ := htaps c (Nat.zero_le _)
      (by rw [Nat.zero_add, hN]; exact hc) i (by rw [hocc]; exact hi) heven
    have hcf : e'.d_coarse_freq = e.d_coarse_freq := by rw [hcfg]
    have hpc : coarse_freq_comp m e' e'.d_coarse_freq 1 = coarse_freq_comp m e e.d_coarse_freq 1 := by
      rw [hcfg]
      rfl
    refine ⟨k, symbol', s, by rw [← hknown]; exact hk, hsym', ?_, ?_⟩
    · show symbol'[to_unsigned ((i : Int) + zeros_on_left + e'.d_coarse_freq)]? = some s
      rw [hcf]
      exact hs
    · show tap e' c i = k / (coarse_freq_comp m e' e'.d_coarse_freq 1 * s)
      rw [hpc]
      exact htap

/-- After the preamble processing, an even tap times the phase compensation and the
received sample it was computed from is the known tap, when that sample is nonzero. -/
theorem preamble_even_tap_mul (m : numerics R) (self self1 : gr_ofdm_mimo_frame_acquisition R)
    (symbols : List (List (gr_complex R))) (zeros_on_left : Int)
    (hexpj : ∀ phase, gr_complex.norm (m.gr_expj phase) = 1)
    (hlen : ∀ symbol ∈ symbols, symbol.length ≤ 2 ^ 32)
    (h : preamble m self symbols zeros_on_left = some self1)
    (c : Nat) (hc : c < self.d_nchannels)
    (i : Nat) (hi : i < self.d_occupied_carriers) (heven : i % 2 = 0)
    (k : gr_complex R) (hk : self.d_known_symbol[i]? = some k)
    (hs : carrier_sample self1 symbols zeros_on_left c i ≠ 0) :
    tap self1 c i * (coarse_freq_comp m self1 self1.d_coarse_freq 1
      * carrier_sample self1 symbols zeros_on_left c i) = k := by
  obtain ⟨_, _, _, _, htaps⟩ := preamble_spec m self self1 symbols zeros_on_left hlen h
  obtain ⟨k', symbol, s, hk', hsym, hsample, htap⟩ := htaps c hc i hi heven
  have hkk : k' = k := Option.some.inj (hk'.symm.trans hk)
  subst hkk
  have hcs : carrier_sample self1 symbols zeros_on_left c i = s := by
    simp only [carrier_sample, hsym, Option.some_bind, hsample, Option.getD_some]
  rw [hcs] at hs ⊢
  rw [htap]
  exact gr_complex.div_mul_cancel' _ _ (gr_complex.mul_ne_zero' _ _
    (coarse_freq_comp_ne_zero m hexpj self1 self1.d_coarse_freq 1) hs)

/-- After the preamble processing, an even tap computed from a nonzero known tap and a
nonzero received sample is nonzero. -/
theorem preamble_even_tap_ne_zero (m : numerics R)
    (self self1 : gr_ofdm_mimo_frame_acquisition R)
    (symbols : List (List (gr_complex R))) (zeros_on_left : Int)
    (hexpj : ∀ phase, gr_complex.norm (m.gr_expj phase) = 1)
    (hlen : ∀ symbol ∈ symbols, symbol.length ≤ 2 ^ 32)
    (h : preamble m self symbols zeros_on_left = some self1)
    (c : Nat) (hc : c < self.d_nchannels)
    (i : Nat) (hi : i < self.d_occupied_carriers) (heven : i % 2 = 0)
    (k : gr_complex R) (hk : self.d_known_symbol[i]? = some k) (hk0 : k ≠ 0)
    (hs : carrier_sample self1 symbols zeros_on_left c i ≠ 0) :
    tap self1 c i ≠ 0 := by
  intro hz
  have hmul := preamble_even_tap_mul m self self1 symbols zeros_on_left hexpj hlen h c hc i hi
    heven k hk hs
  rw [hz, gr_complex.zero_mul'] at hmul
  exact hk0 hmul.symm

/-- C13: in a `general_work` call with a nonzero flag and a zero-filled output buffer, for
every number of antennas `N >= 1` and every even carrier `i` at which the known tap `k[i]`
and all received samples `s_c[i + zeros_on_left + coarse_freq]` are nonzero, the combined
output is the known symbol, `out[i] = k[i]`, whatever the samples (the channel gains) are;
in exact arithmetic, with a unit-magnitude `gr_expj`, an `abs` that is positive on nonzero
numbers and input symbols of at most `2^32` samples. -/
theorem general_work_preamble_output (m : numerics R)
    (self : gr_ofdm_mimo_frame_acquisition R) (input : work_input R) (r : work_result R)
    (hexpj : ∀ phase, gr_complex.norm (m.gr_expj phase) = 1)
    (habs : ∀ z : gr_complex R, z ≠ 0 → 0 < m.abs z)
    (hlen : ∀ symbol ∈ input.symbols, symbol.length ≤ 2 ^ 32)
    (hrun : general_work m self input = some r)
    (flag : Int) (hflag : input.signal_in[0]? = some flag) (hnz : flag ≠ 0)
    (hzero : ∀ o ∈ input.out, o = 0)
    (hN : 1 ≤ self.d_nchannels)
    (i : Nat) (hi : i < self.d_occupied_carriers) (heven : i % 2 = 0)
    (k : gr_complex R) (hk : self.d_known_symbol[i]? = some k) (hk0 : k ≠ 0)
    (hs : ∀ c, c < self.d_nchannels →
      carrier_sample r.self input.symbols (work_zeros_on_left self) c i ≠ 0) :
    r.out[i]? = some k := by
  obtain ⟨flag', self1, out, hflag', hself1, hout, rfl⟩ := general_work_some m self input r hrun
  have hf : flag' = flag := Option.some.inj (hflag'.symm.trans hflag)
  subst hf
  rw [if_pos hnz] at hself1
  obtain ⟨hch, hocc, _, hpc1, _⟩ := preamble_spec m self self1 input.symbols
    (work_zeros_on_left self) hlen hself1
  obtain ⟨o, ho, hres⟩ := equalize_and_combine_spec m self1 input.symbols
    (work_zeros_on_left self) input.out out hout i (by rw [hocc]; exact hi)
  have ho0 : o = 0 := hzero o (List.getElem?_mem ho)
  show out[i]? = some k
  rw [hres, ho0, hch, hpc1]
  have hterm : ∀ c, c < self.d_nchannels →
      gr_complex.div_real (tap self1 c i) (m.abs (tap self1 c i))
          * coarse_freq_comp m self1 self1.d_coarse_freq (to_int 1)
          * carrier_sample self1 input.symbols (work_zeros_on_left self) c i
        = gr_complex.div_real k (m.abs (tap self1 c i))
      ∧ 0 < m.abs (tap self1 c i) := by
    intro c hc
    have hmul := preamble_even_tap_mul m self self1 input.symbols (work_zeros_on_left self)
      hexpj hlen hself1 c hc i hi heven k hk (hs c hc)
    have htap0 := preamble_even_tap_ne_zero m self self1 input.symbols
      (work_zeros_on_left self) hexpj hlen hself1 c hc i hi heven k hk hk0 (hs c hc)
    refine ⟨?_, habs _ htap0⟩
    have h1 : to_int 1 = 1 := by decide
    rw [gr_complex.mul_assoc', gr_complex.div_real_mul, h1, hmul]
  rw [sum_from_congr 0 self.d_nchannels _ _ (fun c hc => (hterm c hc).1)]
  rw [combine_known k self.d_nchannels hN _ (fun c hc => (hterm c hc).2)]

/-- The sweep of `correlate` keeps its state when no score is above the running maximum. -/
theorem correlate_sweep_keep (self : gr_ofdm_mimo_frame_acquisition R) (diff : List R) :
    ∀ (count a : Nat) (st st' : Int × R),
      for_loop_from 1
        (fun i st => (correlate_sum self diff i).bind (fun sum =>
          some (if sum > st.2 then (to_int i, sum) else st)))
        count a st = some st' →
      (∀ i, a ≤ i → i < a + count → (correlate_sum self diff i).getD 0 ≤ st.2) →
      st' = st := by
  intro count
  induction count with
  | zero =>
    intro a st st' h _
    simp only [for_loop_from, Option.some.injEq] at h
    exact h.symm
  | succ count ih =>
    intro a st st' h hle
    simp only [for_loop_from] at h
    split at h
    · exact absurd h (by simp)
    · rename_i st1 hstep
      obtain ⟨sum, hsum, hst1⟩ := Option.bind_eq_some.mp hstep
      have h1 := hle a (le_refl _) (by omega)
      rw [hsum, Option.getD_some] at h1
      rw [if_neg (not_lt.mpr h1)] at hst1
      have hst1' : st1 = st := (Option.some.inj hst1).symm
      rw [hst1'] at h
      exact ih (a + 1) st st' h (fun i hi1 hi2 => hle i (by omega) (by omega))

/-- The sweep of `correlate` ends at the first window position with the maximal score,
when that score is above the starting maximum. -/
theorem correlate_sweep_first_max (self : gr_ofdm_mimo_frame_acquisition R) (diff : List R)
    (p : Nat) :
    ∀ (count a : Nat) (st st' : Int × R),
      for_loop_from 1
        (fun i st => (correlate_sum self diff i).bind (fun sum =>
          some (if sum > st.2 then (to_int i, sum) else st)))
        count a st = some st' →
      a ≤ p → p < a + count →
      st.2 < (correlate_sum self diff p).getD 0 →
      (∀ i, a ≤ i → i < p →
        (correlate_sum self diff i).getD 0 < (correlate_sum self diff p).getD 0) →
      (∀ i, p < i → i < a + count →
        (correlate_sum self diff i).getD 0 ≤ (correlate_sum self diff p).getD 0) →
      st'.1 = to_int p := by
  intro count
  induction count with
  | zero =>
    intro a st st' _ h1 h2
    exact absurd h2 (by omega)
  | succ count ih =>
    intro a st st' h hap hpc hst hbefore hafter
    simp only [for_loop_from] at h
    split at h
    · exact absurd h (by simp)
    · rename_i st1 hstep
      obtain ⟨sum, hsum, hst1⟩ := Option.bind_eq_some.mp hstep
      have hst1' := (Option.some.inj hst1).symm
      rcases Nat.eq_or_lt_of_le hap with rfl | hlt
      · rw [hsum, Option.getD_some] at hst
        rw [if_pos hst] at hst1'
        have hkeep := correlate_sweep_keep self diff count (a + 1) st1 st' h (by
          intro i hi1 hi2
          have := hafter i (by omega) (by omega)
          rw [hsum, Option.getD_some] at this
          rw [hst1']
          exact this)
        rw [hkeep, hst1']
      · refine ih (a + 1) st1 st' h (by omega) (by omega) ?_
          (fun i hi1 hi2 => hbefore i (by omega) hi2)
          (fun i hi1 hi2 => hafter i hi1 (by omega))
        have hsa := hbefore a (le_refl _) hlt
        rw [hsum, Option.getD_some] at hsa
        rw [hst1']
        split
        · exact hsa
        · exact hst

/-- The loop of `general_work` over the channels only replaces tap vectors. -/
theorem equalizer_channels_frame (m : numerics R) (symbols : List (List (gr_complex R)))
    (zeros_on_left : Int) :
    ∀ (count c0 : Nat) (e e' : gr_ofdm_mimo_frame_acquisition R),
      for_loop_from 1
        (fun channel self => (symbols[channel]?).bind (fun symbol =>
          calculate_equalizer m self channel symbol zeros_on_left))
        count c0 e = some e' →
      e' = { e with d_hestimate := e'.d_hestimate } := by
  intro count
  induction count with
  | zero =>
    intro c0 e e' h
    simp only [for_loop_from, Option.some.injEq] at h
    subst h
    rfl
  | succ count ih =>
    intro c0 e e' h
    simp only [for_loop_from] at h
    split at h
    · exact absurd h (by simp)
    · rename_i e1 hstep
      obtain ⟨symbol, hsym, hcalc⟩ := Option.bind_eq_some.mp hstep
      obtain ⟨taps, he1, _⟩ := calculate_equalizer_frame m e e1 c0 symbol zeros_on_left hcalc
      rw [ih (c0 + 1) e1 e' h, he1]

/-- The offset stored by a preamble call is `D` when the score of window position
`zeros_on_left + D` for the preamble symbol of antenna 1 is positive, greater than the score
of every earlier window position and not less than the score of every later one (with the
search window starting at a non-negative bin, `max_fft_shift_len <= zeros_on_left`). -/
theorem general_work_coarse_freq_first_max (m : numerics R)
    (self : gr_ofdm_mimo_frame_acquisition R) (input : work_input R) (r : work_result R)
    (hrun : general_work m self input = some r)
    (flag : Int) (hflag : input.signal_in[0]? = some flag) (hnz : flag ≠ 0)
    (symbol : List (gr_complex R)) (hsym : input.symbols[0]? = some symbol)
    (hwin : (self.d_freq_shift_len : Int) ≤ work_zeros_on_left self)
    (D : Int) (hD1 : -(self.d_freq_shift_len : Int) + 1 ≤ D)
    (hD2 : D ≤ (self.d_freq_shift_len : Int) - 1)
    (hpos : 0 < window_score self symbol (to_unsigned (work_zeros_on_left self + D)))
    (hbefore : ∀ D' : Int, -(self.d_freq_shift_len : Int) ≤ D' → D' < D →
      window_score self symbol (to_unsigned (work_zeros_on_left self + D'))
        < window_score self symbol (to_unsigned (work_zeros_on_left self + D)))
    (hafter : ∀ D' : Int, D < D' → D' < (self.d_freq_shift_len : Int) →
      window_score self symbol (to_unsigned (work_zeros_on_left self + D'))
        ≤ window_score self symbol (to_unsigned (work_zeros_on_left self + D))) :
    r.self.d_coarse_freq = D := by
  obtain ⟨flag', self1, out, hflag', hself1, hout, rfl⟩ := general_work_some m self input r hrun
  have hf : flag' = flag := Option.some.inj (hflag'.symm.trans hflag)
  subst hf
  rw [if_pos hnz] at hself1
  obtain ⟨symbol', e, e', hsym', hcorr, hloop, rfl⟩ := preamble_some m self self1 input.symbols
    (work_zeros_on_left self) hself1
  have hs : symbol' = symbol := Option.some.inj (hsym'.symm.trans hsym)
  subst hs
  obtain ⟨diff, st, hdiff, hsweep, he⟩ := correlate_frame self e symbol'
    (work_zeros_on_left self) hcorr
  have hcfg := equalizer_channels_frame m input.symbols (work_zeros_on_left self)
    e.d_nchannels 0 e e' hloop
  have hcf : e'.d_coarse_freq = st.1 - work_zeros_on_left self := by
    rw [hcfg, he]
  show e'.d_coarse_freq = D
  rw [hcf]
  have hz31 : work_zeros_on_left self ≤ 2 ^ 30 := by
    have := to_int_lt (to_unsigned ((self.d_fft_length : Int) - (self.d_occupied_carriers : Int)))
    unfold work_zeros_on_left
    omega
  have hscore : ∀ i, window_score self symbol' i = (correlate_sum self diff i).getD 0 := by
    intro i
    simp only [window_score, hdiff, Option.some_bind]
  simp only [hscore] at hpos hbefore hafter
  have hc : (to_unsigned (work_zeros_on_left self + (self.d_freq_shift_len : Int))
      - to_unsigned (work_zeros_on_left self - (self.d_freq_shift_len : Int)) + (1 - 1)) / 1
      = to_unsigned (work_zeros_on_left self + (self.d_freq_shift_len : Int))
        - to_unsigned (work_zeros_on_left self - (self.d_freq_shift_len : Int)) := by simp
  rw [correlate_sweep, for_loop, hc] at hsweep
  have ha := to_unsigned_nonneg (work_zeros_on_left self - (self.d_freq_shift_len : Int))
    (by omega) (by omega)
  have hb := to_unsigned_nonneg (work_zeros_on_left self + (self.d_freq_shift_len : Int))
    (by omega) (by omega)
  have hp := to_unsigned_nonneg (work_zeros_on_left self + D) (by omega) (by omega)
  have hidx := correlate_sweep_first_max self diff (to_unsigned (work_zeros_on_left self + D))
    _ _ (0, 0) st hsweep (by omega) (by omega) hpos
    (fun i hi1 hi2 => by
      have h := hbefore ((i : Int) - work_zeros_on_left self) (by omega) (by omega)
      have e1 : work_zeros_on_left self + ((i : Int) - work_zeros_on_left self) = (i : Int) := by
        omega
      rw [e1, to_unsigned_of_lt i (by omega)] at h
      exact h)
    (fun i hi1 hi2 => by
      have h := hafter ((i : Int) - work_zeros_on_left self) (by omega) (by omega)
      have e1 : work_zeros_on_left self + ((i : Int) - work_zeros_on_left self) = (i : Int) := by
        omega
      rw [e1, to_unsigned_of_lt i (by omega)] at h
      exact h)
  rw [hidx, to_int_to_unsigned _ (by omega) (by omega)]
  omega

theorem example_numerics_abs_pos (z : gr_complex ℚ) (hz : z ≠ 0) :
    0 < example_numerics.abs z := by
  show 0 < |z.re| + |z.im|
  by_contra hle
  have h0 : |z.re| + |z.im| = 0 :=
    le_antisymm (not_lt.mp hle) (add_nonneg (abs_nonneg _) (abs_nonneg _))
  have hre : |z.re| = 0 := by
    have := abs_nonneg z.re
    have := abs_nonneg z.im
    linarith
  have him : |z.im| = 0 := by
    rw [hre, zero_add] at h0
    exact h0
  exact hz ((gr_complex.ext_iff' z 0).mpr ⟨abs_eq_zero.mp hre, abs_eq_zero.mp him⟩)

/-- Witness of C13: carrier 0 of a preamble call on the example engine; the received sample
is `2j`, the output is the known tap 1. -/
theorem general_work_preamble_output_witness :
    ∃ r, general_work example_numerics example_engine
        ⟨[1], [example_symbol], [⟨0, 0⟩, ⟨0, 0⟩, ⟨0, 0⟩, ⟨0, 0⟩]⟩ = some r
      ∧ r.out[0]? = some ⟨1, 0⟩ :=
  match hrun : general_work example_numerics example_engine
      ⟨[1], [example_symbol], [⟨0, 0⟩, ⟨0, 0⟩, ⟨0, 0⟩, ⟨0, 0⟩]⟩ with
  | some r =>
    ⟨r, rfl, general_work_preamble_output example_numerics example_engine
      ⟨[1], [example_symbol], [⟨0, 0⟩, ⟨0, 0⟩, ⟨0, 0⟩, ⟨0, 0⟩]⟩ r example_numerics_unit
      example_numerics_abs_pos (by decide) hrun 1 rfl (by decide) (by decide!) (by decide)
      0 (by decide) (by decide) ⟨1, 0⟩ (by with_unfolding_all rfl) (by decide!) (by
        intro c hc
        have hc0 : c = 0 := by
          have : c < 1 := hc
          omega
        subst hc0
        have h : (general_work example_numerics example_engine
            ⟨[1], [example_symbol], [⟨0, 0⟩, ⟨0, 0⟩, ⟨0, 0⟩, ⟨0, 0⟩]⟩).map
            (fun r => carrier_sample r.self [example_symbol]
              (work_zeros_on_left example_engine) 0 0) = some ⟨0, 2⟩ := by
          with_unfolding_all rfl
        rw [hrun] at h
        have h2 : carrier_sample r.self [example_symbol]
            (work_zeros_on_left example_engine) 0 0 = ⟨0, 2⟩ := Option.some.inj h
        show carrier_sample r.self [example_symbol] (work_zeros_on_left example_engine) 0 0 ≠ 0
        rw [h2]
        decide!)⟩
  | none => absurd hrun (by decide!)

/-- The first loop of the constructor, run for the counters `start, start + 2, ...`
(`count` of them) inside the vectors: it completes, and it has written the differential at
these positions and nothing else. -/
theorem known_phase_diff_loop (known_symbol : List (gr_complex R)) :
    ∀ (count start : Nat) (diff : List R),
      (∀ t, t < count → start + 2 * t + 2 < known_symbol.length) →
      (∀ t, t < count → start + 2 * t < diff.length) →
      ∃ diff', for_loop_from 2
          (fun i diff => (known_symbol[i]?).bind (fun a => (known_symbol[i + 2]?).bind (fun b =>
            write_at diff i (gr_complex.norm (a - b)))))
          count start diff = some diff'
        ∧ ∀ j, diff'[j]? =
            if start ≤ j ∧ j < start + 2 * count ∧ (j - start) % 2 = 0
            then some (known_differential known_symbol j) else diff[j]? := by
  intro count
  induction count with
  | zero =>
    intro start diff _ _
    refine ⟨diff, rfl, fun j => ?_⟩
    rw [if_neg (by omega)]
  | succ count ih =>
    intro start diff hk hd
    have hk0 := hk 0 (by omega)
    have hd0 := hd 0 (by omega)
    have ha : known_symbol[start]? = some (known_symbol[start]?.getD 0) := by
      rw [List.getElem?_eq_getElem (by omega)]
      rfl
    have hb : known_symbol[start + 2]? = some (known_symbol[start + 2]?.getD 0) := by
      rw [List.getElem?_eq_getElem (by omega)]
      rfl
    obtain ⟨diff', hrun, hspec⟩ := ih (start + 2)
      (diff.set start (known_differential known_symbol start))
      (fun t ht => by have := hk (t + 1) (by omega); omega)
      (fun t ht => by
        have := hd (t + 1) (by omega)
        rw [List.length_set]
        omega)
    refine ⟨diff', ?_, fun j => ?_⟩
    · simp only [for_loop_from]
      rw [ha, hb]
      simp only [Option.some_bind, write_at, if_pos (show start < diff.length by omega)]
      exact hrun
    · rw [hspec j]
      by_cases hj : j = start
      · subst hj
        rw [if_neg (by omega), if_pos (by omega), List.getElem?_set_self (by omega)]
      · rw [List.getElem?_set_ne (fun h => hj h.symm)]
        by_cases hc : start + 2 ≤ j ∧ j < start + 2 + 2 * count ∧ (j - (start + 2)) % 2 = 0
        · rw [if_pos hc, if_pos (by omega)]
        · rw [if_neg hc, if_neg (by omega)]

/-- C19, amended: for a known symbol `k` with `len(k) = occupied_carriers >= 2` (and a
phase look-up table of fewer than `2^32` entries) the constructor completes, and the
reference differential it builds is
`K[j] = |k[j] - k[j+2]|²` for every even `j` in `[0, occupied_carriers-2)` and `K[j] = 0`
for every odd `j` and for the remaining two entries. -/
theorem make_known_phase_diff (m : numerics R)
    (nchannels occupied_carriers fft_length cplen : Nat)
    (known_symbol : List (gr_complex R)) (max_fft_shift_len : Nat)
    (hlen : known_symbol.length = occupied_carriers) (h2 : 2 ≤ occupied_carriers)
    (h64 : occupied_carriers < 2 ^ 64)
    (hsz : (2 * max_fft_shift_len + 1) * MAX_NUM_SYMBOLS < 2 ^ 32) :
    ∃ self, make m nchannels occupied_carriers fft_length cplen known_symbol
        max_fft_shift_len = some self
      ∧ ∀ j, j < occupied_carriers → self.d_known_phase_diff[j]? =
          some (if j % 2 = 0 ∧ j + 2 < occupied_carriers
            then known_differential known_symbol j else 0) := by
  have hbound : (known_symbol.length + 2 ^ 64 - 2) % 2 ^ 64 = occupied_carriers - 2 := by
    omega
  obtain ⟨diff, hrun, hspec⟩ := known_phase_diff_loop known_symbol
    ((occupied_carriers - 2 - 0 + (2 - 1)) / 2) 0 (List.replicate occupied_carriers (0 : R))
    (fun t ht => by omega)
    (fun t ht => by rw [List.length_replicate]; omega)
  have hkpd : known_phase_diff known_symbol occupied_carriers = some diff := by
    rw [known_phase_diff, hbound, for_loop]
    exact hrun
  rw [make_eq m _ _ _ _ _ _ hsz, hkpd]
  refine ⟨_, rfl, fun j hj => ?_⟩
  show diff[j]? = _
  rw [hspec j]
  by_cases hc : j % 2 = 0 ∧ j + 2 < occupied_carriers
  · rw [if_pos (by omega), if_pos hc]
  · rw [if_neg (by omega), if_neg hc, List.getElem?_replicate, if_pos hj]

/-- Witness of C19: the known symbol `[1, 0, -1, 0]` of the example engine. -/
theorem make_known_phase_diff_witness :
    ∃ self, make example_numerics 1 4 8 2 [⟨1, 0⟩, ⟨0, 0⟩, ⟨-1, 0⟩, ⟨0, 0⟩] 1 = some self
      ∧ ∀ j, j < 4 → self.d_known_phase_diff[j]? =
          some (if j % 2 = 0 ∧ j + 2 < 4
            then known_differential [⟨1, 0⟩, ⟨0, 0⟩, ⟨-1, 0⟩, ⟨0, 0⟩] j else 0) :=
  make_known_phase_diff example_numerics 1 4 8 2 [⟨1, 0⟩, ⟨0, 0⟩, ⟨-1, 0⟩, ⟨0, 0⟩] 1 rfl
    (by decide) (by decide) (by decide)

/-- C18, evaluated for an FFT of length 12 with a cyclic prefix of 4, half-width 1, the
negative hypothesis `h = 0` and symbol index 1, with a `gr_expj` of period `M_TWOPI`: the
constructor computes the phase of the table entry with `0 - 1 = 4294967295`, the
`unsigned int` difference, which is a whole number of turns (`4294967295 / 3`), so the
entry is 1; the live `coarse_freq_comp(0 - 1, 1)` has the phase of a third of a turn and is
not 1. -/
theorem phase_lut_negative_hypothesis :
    ∃ self, make periodic_numerics 1 4 12 4 [⟨1, 0⟩, ⟨0, 0⟩, ⟨-1, 0⟩, ⟨0, 0⟩] 1 = some self
      ∧ self.d_phase_lut[1 + 0 * MAX_NUM_SYMBOLS]?
          = some (periodic_numerics.gr_expj
              (-periodic_numerics.M_TWOPI * 4 / 12 * 4294967295 * 1))
      ∧ periodic_numerics.gr_expj (-periodic_numerics.M_TWOPI * 4 / 12 * 4294967295 * 1)
          = ⟨1, 0⟩
      ∧ coarse_freq_comp periodic_numerics self (0 - 1) 1
          = periodic_numerics.gr_expj (-periodic_numerics.M_TWOPI * (-1) * 4 / 12 * 1)
      ∧ coarse_freq_comp periodic_numerics self (0 - 1) 1 = ⟨-3 / 5, 4 / 5⟩ := by
  have hkpd : known_phase_diff [(⟨1, 0⟩ : gr_complex ℚ), ⟨0, 0⟩, ⟨-1, 0⟩, ⟨0, 0⟩] 4
      = some [4, 0, 0, 0] := by with_unfolding_all rfl
  have hmake := make_eq periodic_numerics 1 4 12 4 [⟨1, 0⟩, ⟨0, 0⟩, ⟨-1, 0⟩, ⟨0, 0⟩] 1
    (by decide)
  rw [hkpd] at hmake
  refine ⟨_, hmake, ?_, by decide!, ?_, ?_⟩
  · have hentry := make_phase_lut_entry periodic_numerics 1 4 12 4
      [⟨1, 0⟩, ⟨0, 0⟩, ⟨-1, 0⟩, ⟨0, 0⟩] 1 _ (by decide) hmake 0 1 (by decide) (by decide)
    have harg : ((to_unsigned (((0 : Nat) : Int) - ((1 : Nat) : Int)) : Nat) : ℚ)
        = 4294967295 := by
      have : to_unsigned (((0 : Nat) : Int) - ((1 : Nat) : Int)) = 4294967295 := by decide
      rw [this]
      norm_num
    rw [harg] at hentry
    rw [hentry]
    norm_num
  · simp only [coarse_freq_comp]
    norm_num
  · decide!

/-! ### Bounds, frames and the symbol count -/

/-- A `general_work` call with a zero flag changes the engine in `d_phase_count` only. -/
theorem general_work_zero_flag (m : numerics R) (self : gr_ofdm_mimo_frame_acquisition R)
    (input : work_input R) (r : work_result R)
    (hrun : general_work m self input = some r)
    (hflag : input.signal_in[0]? = some 0) :
    r.self = { self with d_phase_count :=
      if (self.d_phase_count + 1) % 2 ^ 32 ≥ MAX_NUM_SYMBOLS then 1
      else (self.d_phase_count + 1) % 2 ^ 32 } := by
  obtain ⟨flag, self1, out, hflag', hself1, _, rfl⟩ := general_work_some m self input r hrun
  have hf : flag = 0 := Option.some.inj (hflag'.symm.trans hflag)
  subst hf
  rw [if_neg (by decide)] at hself1
  have h1 : self1 = self := (Option.some.inj hself1).symm
  subst h1
  rfl

/-- The symbol count after a run of calls with zero flags, started in `1..999`. -/
theorem work_calls_zero_flags (m : numerics R) (inputs : List (work_input R)) :
    ∀ self self' : gr_ofdm_mimo_frame_acquisition R,
      1 ≤ self.d_phase_count → self.d_phase_count < MAX_NUM_SYMBOLS →
      (∀ input ∈ inputs, input.signal_in[0]? = some 0) →
      work_calls m self inputs = some self' →
      self'.d_phase_count = (self.d_phase_count - 1 + inputs.length) % 999 + 1 := by
  induction inputs with
  | nil =>
    intro self self' h1 h2 _ hrun
    simp only [work_calls, Option.some.injEq] at hrun
    subst hrun
    simp only [MAX_NUM_SYMBOLS] at h2
    simp only [List.length_nil]
    omega
  | cons input inputs ih =>
    intro self self' h1 h2 hzero hrun
    simp only [work_calls] at hrun
    cases hw : general_work m self input with
    | none => rw [hw] at hrun; exact absurd hrun (by simp)
    | some r =>
      rw [hw] at hrun
      have hr := general_work_zero_flag m self input r hw (hzero input (by simp))
      have hb := general_work_phase_count m self input r hw h2
      have hpc : r.self.d_phase_count
          = if (self.d_phase_count + 1) % 2 ^ 32 ≥ MAX_NUM_SYMBOLS then 1
            else (self.d_phase_count + 1) % 2 ^ 32 := by rw [hr]
      rw [ih r.self self' hb.1 hb.2 (fun i hi => hzero i (by simp [hi])) hrun, hpc]
      simp only [MAX_NUM_SYMBOLS] at h2 ⊢
      have hmod : (self.d_phase_count + 1) % 2 ^ 32 = self.d_phase_count + 1 :=
        Nat.mod_eq_of_lt (by omega)
      rw [hmod]
      simp only [List.length_cons]
      split <;> omega

/-- C27: after a `general_work` call with a nonzero flag `d_phase_count` is 2; after `n`
further calls with a zero flag it is `((n + 1) mod 999) + 1`; and after any call on an
engine whose count is below `MAX_NUM_SYMBOLS` (0 as constructed) the count is not 0. -/
theorem phase_count_cycle (m : numerics R) (self : gr_ofdm_mimo_frame_acquisition R)
    (input : work_input R) (r : work_result R)
    (hrun : general_work m self input = some r)
    (flag : Int) (hflag : input.signal_in[0]? = some flag) (hnz : flag ≠ 0)
    (inputs : List (work_input R))
    (hzero : ∀ input ∈ inputs, input.signal_in[0]? = some 0)
    (self' : gr_ofdm_mimo_frame_acquisition R)
    (hcalls : work_calls m r.self inputs = some self') :
    r.self.d_phase_count = 2
    ∧ self'.d_phase_count = (inputs.length + 1) % 999 + 1
    ∧ ∀ (s : gr_ofdm_mimo_frame_acquisition R) (i : work_input R) (r' : work_result R),
        s.d_phase_count < MAX_NUM_SYMBOLS → general_work m s i = some r' →
        r'.self.d_phase_count ≠ 0 := by
  have h2 : r.self.d_phase_count = 2 := by
    obtain ⟨flag', self1, out, hflag', hself1, _, rfl⟩ := general_work_some m self input r hrun
    have hf : flag' = flag := Option.some.inj (hflag'.symm.trans hflag)
    subst hf
    rw [if_pos hnz] at hself1
    show (if (self1.d_phase_count + 1) % 2 ^ 32 ≥ MAX_NUM_SYMBOLS then 1
      else (self1.d_phase_count + 1) % 2 ^ 32) = 2
    rw [preamble_phase_count m self self1 _ _ hself1]
    decide
  refine ⟨h2, ?_, ?_⟩
  · rw [work_calls_zero_flags m inputs r.self self' (by omega) (by rw [h2]; decide) hzero hcalls,
      h2]
    congr 1
    omega
  · intro s i r' hs hr'
    have := (general_work_phase_count m s i r' hr' hs).1
    omega

/-- C24, amended: for a known symbol with `2 <= len(known_symbol) <= occupied_carriers + 2`
the loop bound `len(known_symbol) - 2` of the constructor's reference-differential loop
does not underflow, every counter value `i` of the loop has `i < occupied_carriers` (the
write `d_known_phase_diff[i]`) and `i + 2 < len(known_symbol)` (the read
`d_known_symbol[i+2]`), and the loop completes. -/
theorem known_phase_diff_in_bounds (known_symbol : List (gr_complex R))
    (occupied_carriers : Nat) (h2 : 2 ≤ known_symbol.length)
    (hocc : known_symbol.length ≤ occupied_carriers + 2)
    (h64 : known_symbol.length < 2 ^ 64) :
    (known_symbol.length + 2 ^ 64 - 2) % 2 ^ 64 = known_symbol.length - 2
    ∧ (∀ i, i % 2 = 0 → i < (known_symbol.length + 2 ^ 64 - 2) % 2 ^ 64 →
        i < (List.replicate occupied_carriers (0 : R)).length ∧ i + 2 < known_symbol.length)
    ∧ ∃ diff, known_phase_diff known_symbol occupied_carriers = some diff := by
  have hbound : (known_symbol.length + 2 ^ 64 - 2) % 2 ^ 64 = known_symbol.length - 2 := by
    omega
  refine ⟨hbound, ?_, ?_⟩
  · intro i _ hi
    rw [hbound] at hi
    rw [List.length_replicate]
    omega
  · obtain ⟨diff, hrun, _⟩ := known_phase_diff_loop known_symbol
      ((known_symbol.length - 2 - 0 + (2 - 1)) / 2) 0 (List.replicate occupied_carriers (0 : R))
      (fun t ht => by omega)
      (fun t ht => by rw [List.length_replicate]; omega)
    refine ⟨diff, ?_⟩
    rw [known_phase_diff, hbound, for_loop]
    exact hrun

/-- Witness of C24: the known symbol `[1, 0, -1, 0]` with 4 occupied carriers. -/
theorem known_phase_diff_in_bounds_witness :
    ∃ diff, known_phase_diff [(⟨1, 0⟩ : gr_complex ℚ), ⟨0, 0⟩, ⟨-1, 0⟩, ⟨0, 0⟩] 4 = some diff :=
  (known_phase_diff_in_bounds [(⟨1, 0⟩ : gr_complex ℚ), ⟨0, 0⟩, ⟨-1, 0⟩, ⟨0, 0⟩] 4 (by decide)
    (by decide) (by decide)).2.2

/-- C24 counterexample: (1) 4 occupied carriers, an FFT of length 8 (`zeros_on_left = 2`),
half-width 1, one channel and a known symbol of 8 entries meet the stated preconditions;
the loop runs for `i = 0, 2, 4` and the write `d_known_phase_diff[4]` is outside the 4
entries of the vector. (2) 1 occupied carrier, an FFT of length 2 (`zeros_on_left = 1`),
half-width 0, one channel and a known symbol of 1 entry meet them as well; the bound
`1 - 2` wraps to `2^64 - 1` and the first read `d_known_symbol[2]` is outside the vector. -/
theorem known_phase_diff_out_of_bounds :
    ((1 ≤ 1 ∧ 4 < 8 ∧ 4 ≤ ([⟨1, 0⟩, ⟨0, 0⟩, ⟨-1, 0⟩, ⟨0, 0⟩, ⟨1, 0⟩, ⟨0, 0⟩, ⟨-1, 0⟩, ⟨0, 0⟩]
          : List (gr_complex ℚ)).length
        ∧ 2 * ((example_engine.d_freq_shift_len : Nat) : Int)
            ≤ work_zeros_on_left example_engine)
      ∧ write_at (List.replicate 4 (0 : ℚ)) 4 4 = none
      ∧ known_phase_diff
          [(⟨1, 0⟩ : gr_complex ℚ), ⟨0, 0⟩, ⟨-1, 0⟩, ⟨0, 0⟩, ⟨1, 0⟩, ⟨0, 0⟩, ⟨-1, 0⟩, ⟨0, 0⟩] 4
          = none)
    ∧ ((1 ≤ 1 ∧ 1 < 2 ∧ 1 ≤ ([⟨1, 0⟩] : List (gr_complex ℚ)).length ∧ 2 * 0 ≤ (2 - 1 + 1) / 2)
      ∧ (([⟨1, 0⟩] : List (gr_complex ℚ)).length + 2 ^ 64 - 2) % 2 ^ 64 = 2 ^ 64 - 1
      ∧ ([⟨1, 0⟩] : List (gr_complex ℚ))[0 + 2]? = none
      ∧ known_phase_diff [(⟨1, 0⟩ : gr_complex ℚ)] 1 = none) := by
  refine ⟨⟨⟨by decide, by decide, by decide, by decide⟩, by decide, ?_⟩,
    ⟨⟨by decide, by decide, by decide, by decide⟩, by decide, by decide, ?_⟩⟩
  · with_unfolding_all rfl
  · with_unfolding_all rfl

/-- One run of the body of the equalizer loop for a counter `i >= 2`: afterwards tap `i - 1`
is `(H[i] + H[i-2]) / (2 + 0j)`. -/
theorem equalizer_step_interp (m : numerics R) (self : gr_ofdm_mimo_frame_acquisition R)
    (symbol : List (gr_complex R)) (zeros_on_left : Int) (i : Nat) (hi : 2 ≤ i)
    (h h' : List (gr_complex R))
    (hstep : equalizer_step m self symbol zeros_on_left i h = some h') :
    ∃ a b, h'[i]? = some a ∧ h'[i - 2]? = some b
      ∧ h'[i - 1]? = some ((a + b) / (⟨2, 0⟩ : gr_complex R)) := by
  simp only [equalizer_step, Option.bind_eq_bind, Option.bind_eq_some] at hstep
  obtain ⟨k, _, s, _, h1, hw1, a, ha, b, hb, hw2⟩ := hstep
  obtain ⟨hlt2, rfl⟩ := write_at_eq_some _ _ _ _ hw2
  refine ⟨a, b, ?_, ?_, ?_⟩
  · rw [List.getElem?_set_ne (by omega)]
    exact ha
  · rw [List.getElem?_set_ne (by omega)]
    exact hb
  · rw [List.getElem?_set_self hlt2]

/-- The equalizer loop, run `count` times from a counter `start >= 2`: afterwards every
tap `start + 2 t - 1`, `t < count`, is the mean of its two neighbours. -/
theorem equalizer_loop_interp (m : numerics R) (self : gr_ofdm_mimo_frame_acquisition R)
    (symbol : List (gr_complex R)) (zeros_on_left : Int) :
    ∀ (count start : Nat) (h h' : List (gr_complex R)), 2 ≤ start →
      for_loop_from 2 (equalizer_step m self symbol zeros_on_left) count start h = some h' →
      ∀ t, t < count → ∃ a b, h'[start + 2 * t]? = some a ∧ h'[start + 2 * t - 2]? = some b
        ∧ h'[start + 2 * t - 1]? = some ((a + b) / (⟨2, 0⟩ : gr_complex R)) := by
  intro count
  induction count with
  | zero => intro _ _ _ _ _ t ht; exact absurd ht (Nat.not_lt_zero t)
  | succ count ih =>
    intro start h h' hstart hrun
    simp only [for_loop_from] at hrun
    cases hstep : equalizer_step m self symbol zeros_on_left start h with
    | none => rw [hstep] at hrun; exact absurd hrun (by simp)
    | some hmid =>
      rw [hstep] at hrun
      intro t ht
      cases t with
      | zero =>
        obtain ⟨a, b, ha, hb, hab⟩ :=
          equalizer_step_interp m self symbol zeros_on_left start hstart h hmid hstep
        obtain ⟨hlow, _⟩ := equalizer_loop_spec m self symbol zeros_on_left count (start + 2)
          hmid h' (by omega) hrun
        refine ⟨a, b, ?_, ?_, ?_⟩
        · rw [Nat.mul_zero, Nat.add_zero, hlow start (by omega)]
          exact ha
        · rw [Nat.mul_zero, Nat.add_zero, hlow (start - 2) (by omega)]
          exact hb
        · rw [Nat.mul_zero, Nat.add_zero, hlow (start - 1) (by omega)]
          exact hab
      | succ t =>
        have e : start + 2 * (t + 1) = start + 2 + 2 * t := by omega
        rw [e]
        exact ih (start + 2) hmid h' (by omega) hrun t (by omega)

/-- Two runs of the body of the equalizer loop on tap vectors that agree below `i - 1`:
the results agree up to tap `i`. -/
theorem equalizer_step_agree (m : numerics R) (self : gr_ofdm_mimo_frame_acquisition R)
    (symbol : List (gr_complex R)) (zeros_on_left : Int) (i : Nat) (hi : 2 ≤ i)
    (h1 h2 h1' h2' : List (gr_complex R))
    (hag : ∀ j, j + 1 < i → h1[j]? = h2[j]?)
    (hs1 : equalizer_step m self symbol zeros_on_left i h1 = some h1')
    (hs2 : equalizer_step m self symbol zeros_on_left i h2 = some h2') :
    ∀ j, j < i + 1 → h1'[j]? = h2'[j]? := by
  obtain ⟨⟨k1, s1, hk1, hsy1, ht1⟩, hkeep1⟩ :=
    equalizer_step_spec m self symbol zeros_on_left i (by omega) h1 h1' hs1
  obtain ⟨⟨k2, s2, hk2, hsy2, ht2⟩, hkeep2⟩ :=
    equalizer_step_spec m self symbol zeros_on_left i (by omega) h2 h2' hs2
  obtain ⟨a1, b1, ha1, hb1, hab1⟩ :=
    equalizer_step_interp m self symbol zeros_on_left i hi h1 h1' hs1
  obtain ⟨a2, b2, ha2, hb2, hab2⟩ :=
    equalizer_step_interp m self symbol zeros_on_left i hi h2 h2' hs2
  have hk : k1 = k2 := Option.some.inj (hk1.symm.trans hk2)
  have hs : s1 = s2 := Option.some.inj (hsy1.symm.trans hsy2)
  have htop : h1'[i]? = h2'[i]? := by rw [ht1, ht2, hk, hs]
  have hbelow : ∀ j, j + 1 < i → h1'[j]? = h2'[j]? := by
    intro j hj
    rw [hkeep1 j (by omega) (by omega), hkeep2 j (by omega) (by omega), hag j hj]
  have ha : a1 = a2 := Option.some.inj (ha1.symm.trans (htop.trans ha2))
  have hb : b1 = b2 := Option.some.inj (hb1.symm.trans ((hbelow (i - 2) (by omega)).trans hb2))
  intro j hj
  rcases Nat.lt_or_ge (j + 1) i with hlt | hge
  · exact hbelow j hlt
  · rcases Nat.eq_or_lt_of_le hge with heq | hgt
    · have hj1 : j = i - 1 := by omega
      rw [hj1, hab1, hab2, ha, hb]
    · have hji : j = i := by omega
      rw [hji]
      exact htop

/-- Two runs of the equalizer loop on tap vectors that agree below `start - 1`: the results
agree on every tap the loop has reached. -/
theorem equalizer_loop_agree (m : numerics R) (self : gr_ofdm_mimo_frame_acquisition R)
    (symbol : List (gr_complex R)) (zeros_on_left : Int) :
    ∀ (count start : Nat) (h1 h2 h1' h2' : List (gr_complex R)), 2 ≤ start →
      (∀ j, j + 1 < start → h1[j]? = h2[j]?) →
      for_loop_from 2 (equalizer_step m self symbol zeros_on_left) count start h1 = some h1' →
      for_loop_from 2 (equalizer_step m self symbol zeros_on_left) count start h2 = some h2' →
      ∀ j, j + 1 < start + 2 * count → h1'[j]? = h2'[j]? := by
  intro count
  induction count with
  | zero =>
    intro start h1 h2 h1' h2' _ hag hr1 hr2
    simp only [for_loop_from, Option.some.injEq] at hr1 hr2
    subst hr1
    subst hr2
    exact hag
  | succ count ih =>
    intro start h1 h2 h1' h2' hstart hag hr1 hr2
    simp only [for_loop_from] at hr1 hr2
    cases hs1 : equalizer_step m self symbol zeros_on_left start h1 with
    | none => rw [hs1] at hr1; exact absurd hr1 (by simp)
    | some m1 =>
      cases hs2 : equalizer_step m self symbol zeros_on_left start h2 with
      | none => rw [hs2] at hr2; exact absurd hr2 (by simp)
      | some m2 =>
        rw [hs1] at hr1
        rw [hs2] at hr2
        have hmid := equalizer_step_agree m self symbol zeros_on_left start hstart h1 h2 m1 m2
          hag hs1 hs2
        intro j hj
        exact ih (start + 2) m1 m2 h1' h2' (by omega) (fun j hj => hmid j (by omega)) hr1 hr2
          j (by omega)

/-- The steps of a completed `calculate_equalizer` call. -/
theorem calculate_equalizer_some (m : numerics R)
    (self self' : gr_ofdm_mimo_frame_acquisition R) (channel : Nat)
    (symbol : List (gr_complex R)) (zeros_on_left : Int)
    (hrun : calculate_equalizer m self channel symbol zeros_on_left = some self') :
    ∃ (h0 h1 h2 h3 : List (gr_complex R)) (k s : gr_complex R),
      self.d_hestimate[channel]? = some h0
      ∧ self.d_known_symbol[0]? = some k
      ∧ read_at symbol (zeros_on_left + self.d_coarse_freq) = some s
      ∧ write_at h0 0 (k / (coarse_freq_comp m self self.d_coarse_freq 1 * s)) = some h1
      ∧ for_loop_from 2 (equalizer_step m self symbol zeros_on_left)
          ((self.d_occupied_carriers - 2 + (2 - 1)) / 2) 2 h1 = some h2
      ∧ (if self.d_occupied_carriers % 2 = 0 then
          (h2[to_unsigned ((self.d_occupied_carriers : Int) - 2)]?).bind
            (fun last => write_at h2 (to_unsigned ((self.d_occupied_carriers : Int) - 1)) last)
        else some h2) = some h3
      ∧ self' = { self with d_hestimate := self.d_hestimate.set channel h3 }
      ∧ ∀ i, tap self' channel i = (h3[i]?).getD 0 := by
  simp only [calculate_equalizer, Option.bind_eq_bind, Option.bind_eq_some, Option.pure_def,
    Option.some.injEq] at hrun
  obtain ⟨h0, hh0, k, hk, s, hs, h1, hw1, h2, hloop, h3, hfinal, rfl⟩ := hrun
  obtain ⟨hch, _⟩ := List.getElem?_eq_some.mp hh0
  refine ⟨h0, h1, h2, h3, k, s, hh0, hk, hs, hw1, hloop, hfinal, rfl, fun i => ?_⟩
  simp only [tap, List.getElem?_set_self hch, Option.some_bind]

/-- Two `calculate_equalizer` calls for the same channel and symbol on engines that differ
in the channel estimates and the symbol count only: the taps below `occupied_carriers` of
that channel are the same afterwards. -/
theorem calculate_equalizer_agree (m : numerics R)
    (s1 s2 s1' s2' : gr_ofdm_mimo_frame_acquisition R) (channel : Nat)
    (symbol : List (gr_complex R)) (zeros_on_left : Int)
    (hocc : s1.d_occupied_carriers < 2 ^ 32)
    (hcfg : s2 = { s1 with d_hestimate := s2.d_hestimate, d_phase_count := s2.d_phase_count })
    (hr1 : calculate_equalizer m s1 channel symbol zeros_on_left = some s1')
    (hr2 : calculate_equalizer m s2 channel symbol zeros_on_left = some s2') :
    ∀ i, i < s1.d_occupied_carriers → tap s1' channel i = tap s2' channel i := by
  obtain ⟨a0, a1, a2, a3, ka, sa, _, hka, hsa, hwa, hla, hfa, _, htapa⟩ :=
    calculate_equalizer_some m s1 s1' channel symbol zeros_on_left hr1
  obtain ⟨b0, b1, b2, b3, kb, sb, _, hkb, hsb, hwb, hlb, hfb, _, htapb⟩ :=
    calculate_equalizer_some m s2 s2' channel symbol zeros_on_left hr2
  have hstep : equalizer_step m s2 symbol zeros_on_left
      = equalizer_step m s1 symbol zeros_on_left := by
    rw [hcfg]
    rfl
  have hoc : s2.d_occupied_carriers = s1.d_occupied_carriers := by rw [hcfg]
  have hknown : s2.d_known_symbol = s1.d_known_symbol := by rw [hcfg]
  have hcf : s2.d_coarse_freq = s1.d_coarse_freq := by rw [hcfg]
  have hpc : coarse_freq_comp m s2 s2.d_coarse_freq 1 = coarse_freq_comp m s1 s1.d_coarse_freq 1 := by
    rw [hcfg]
    rfl
  rw [hstep, hoc] at hlb
  rw [hoc] at hfb
  rw [hknown] at hkb
  rw [hcf] at hsb
  rw [hpc] at hwb
  have hk : ka = kb := Option.some.inj (hka.symm.trans hkb)
  have hs : sa = sb := Option.some.inj (hsa.symm.trans hsb)
  subst hk
  subst hs
  obtain ⟨hlta, rfl⟩ := write_at_eq_some _ _ _ _ hwa
  obtain ⟨hltb, rfl⟩ := write_at_eq_some _ _ _ _ hwb
  intro i hi
  have hag := equalizer_loop_agree m s1 symbol zeros_on_left _ 2 _ _ a2 b2 (le_refl 2)
    (fun j hj => by
      have hj0 : j = 0 := by omega
      rw [hj0, List.getElem?_set_self hlta, List.getElem?_set_self hltb])
    hla hlb
  obtain ⟨hkeepa, hodda, hevena⟩ := equalizer_last_tap s1.d_occupied_carriers hocc a2 a3 hfa
    (by omega)
  obtain ⟨hkeepb, hoddb, hevenb⟩ := equalizer_last_tap s1.d_occupied_carriers hocc b2 b3 hfb
    (by omega)
  rw [htapa, htapb]
  congr 1
  rcases Nat.mod_two_eq_zero_or_one s1.d_occupied_carriers with hpar | hpar
  · rcases Nat.lt_or_ge (i + 1) s1.d_occupied_carriers with hlt | hge
    · rw [hkeepa i hlt, hkeepb i hlt]
      exact hag i (by omega)
    · have hi1 : i = s1.d_occupied_carriers - 1 := by omega
      rw [hi1, (hevena hpar).1, (hevenb hpar).1]
      exact hag _ (by omega)
  · rw [hodda hpar, hoddb hpar]
    exact hag i (by omega)

/-- C22: after `calculate_equalizer` for a channel with `occupied_carriers >= 1`, every odd
carrier `i` with `i + 1 < occupied_carriers` has `H[i] = (H[i-1] + H[i+1]) / 2`; for an
even `occupied_carriers` the last tap is `H[occupied_carriers-1] = H[occupied_carriers-2]`;
and every tap below `occupied_carriers` is assigned by the call: a call that starts from
other channel estimates leaves the same taps. -/
theorem calculate_equalizer_all_taps (m : numerics R)
    (self self' : gr_ofdm_mimo_frame_acquisition R) (channel : Nat)
    (symbol : List (gr_complex R)) (zeros_on_left : Int)
    (h1 : 1 ≤ self.d_occupied_carriers) (hocc : self.d_occupied_carriers < 2 ^ 32)
    (hrun : calculate_equalizer m self channel symbol zeros_on_left = some self') :
    (∀ i, i % 2 = 1 → i + 1 < self.d_occupied_carriers →
      tap self' channel i
        = gr_complex.div_real (tap self' channel (i - 1) + tap self' channel (i + 1)) 2)
    ∧ (self.d_occupied_carriers % 2 = 0 →
        tap self' channel (self.d_occupied_carriers - 1)
          = tap self' channel (self.d_occupied_carriers - 2))
    ∧ ∀ (prior : List (List (gr_complex R))) (other : gr_ofdm_mimo_frame_acquisition R),
        calculate_equalizer m { self with d_hestimate := prior } channel symbol zeros_on_left
          = some other →
        ∀ i, i < self.d_occupied_carriers → tap other channel i = tap self' channel i := by
  obtain ⟨a0, a1, a2, a3, k, s, _, _, _, _, hloop, hfinal, _, htap⟩ :=
    calculate_equalizer_some m self self' channel symbol zeros_on_left hrun
  obtain ⟨hkeep, hoddeq, heven⟩ := equalizer_last_tap self.d_occupied_carriers hocc a2 a3
    hfinal h1
  refine ⟨?_, ?_, ?_⟩
  · intro i hodd hi
    obtain ⟨a, b, ha, hb, hab⟩ := equalizer_loop_interp m self symbol zeros_on_left _ 2 a1 a2
      (le_refl 2) hloop ((i - 1) / 2) (by omega)
    have e0 : 2 + 2 * ((i - 1) / 2) = i + 1 := by omega
    have e1 : i + 1 - 1 = i := by omega
    have e2 : i + 1 - 2 = i - 1 := by omega
    rw [e0] at ha hb hab
    rw [e1] at hab
    rw [e2] at hb
    have hne : ∀ j, j ≤ i + 1 → a3[j]? = a2[j]? := by
      intro j hj
      rcases Nat.lt_or_ge (j + 1) self.d_occupied_carriers with hlt | hge
      · exact hkeep j hlt
      · rw [hoddeq (by omega)]
    rw [htap, htap, htap, hne i (by omega), hne (i - 1) (by omega), hne (i + 1) (le_refl _),
      ha, hb, hab]
    simp only [Option.getD_some]
    rw [gr_complex.div_two, gr_complex.add_comm']
  · intro hpar
    rw [htap, htap, (heven hpar).1, hkeep (self.d_occupied_carriers - 2) (by omega)]
  · intro prior other hother i hi
    exact (calculate_equalizer_agree m self { self with d_hestimate := prior } self' other
      channel symbol zeros_on_left hocc rfl hrun hother i hi).symm

/-- The loop of `general_work` over the channels `c0, c0 + 1, ...` keeps the tap vectors of
the channels below `c0`. -/
theorem equalizer_channels_keep (m : numerics R) (symbols : List (List (gr_complex R)))
    (zeros_on_left : Int) :
    ∀ (count c0 : Nat) (e e' : gr_ofdm_mimo_frame_acquisition R),
      for_loop_from 1
        (fun channel self => (symbols[channel]?).bind (fun symbol =>
          calculate_equalizer m self channel symbol zeros_on_left))
        count c0 e = some e' →
      ∀ c, c < c0 → e'.d_hestimate[c]? = e.d_hestimate[c]? := by
  intro count
  induction count with
  | zero =>
    intro c0 e e' h c _
    simp only [for_loop_from, Option.some.injEq] at h
    rw [h]
  | succ count ih =>
    intro c0 e e' h c hc
    simp only [for_loop_from] at h
    split at h
    · exact absurd h (by simp)
    · rename_i e1 hstep
      obtain ⟨symbol, hsym, hcalc⟩ := Option.bind_eq_some.mp hstep
      obtain ⟨taps, he1, _⟩ := calculate_equalizer_frame m e e1 c0 symbol zeros_on_left hcalc
      rw [ih (c0 + 1) e1 e' h c (by omega), he1]
      exact List.getElem?_set_ne (by omega)

/-- Two runs of the loop of `general_work` over the channels, on engines that differ in the
channel estimates and the symbol count only: afterwards the engines still differ in these
only, and the taps below `occupied_carriers` of the channels of the loop are the same. -/
theorem equalizer_channels_agree (m : numerics R) (symbols : List (List (gr_complex R)))
    (zeros_on_left : Int) :
    ∀ (count c0 : Nat) (s1 s2 s1' s2' : gr_ofdm_mimo_frame_acquisition R),
      s1.d_occupied_carriers < 2 ^ 32 →
      s2 = { s1 with d_hestimate := s2.d_hestimate, d_phase_count := s2.d_phase_count } →
      for_loop_from 1
        (fun channel self => (symbols[channel]?).bind (fun symbol =>
          calculate_equalizer m self channel symbol zeros_on_left))
        count c0 s1 = some s1' →
      for_loop_from 1
        (fun channel self => (symbols[channel]?).bind (fun symbol =>
          calculate_equalizer m self channel symbol zeros_on_left))
        count c0 s2 = some s2' →
      ∀ c, c0 ≤ c → c < c0 + count → ∀ i, i < s1.d_occupied_carriers →
        tap s1' c i = tap s2' c i := by
  intro count
  induction count with
  | zero => intro c0 _ _ _ _ _ _ _ _ c h1 h2; exact absurd h2 (by omega)
  | succ count ih =>
    intro c0 s1 s2 s1' s2' hocc hcfg hr1 hr2 c hc1 hc2 i hi
    simp only [for_loop_from] at hr1 hr2
    split at hr1
    · exact absurd hr1 (by simp)
    · rename_i m1 hstep1
      split at hr2
      · exact absurd hr2 (by simp)
      · rename_i m2 hstep2
        obtain ⟨symbol, hsym, hcalc1⟩ := Option.bind_eq_some.mp hstep1
        obtain ⟨symbol', hsym', hcalc2⟩ := Option.bind_eq_some.mp hstep2
        have hs : symbol' = symbol := Option.some.inj (hsym'.symm.trans hsym)
        subst hs
        obtain ⟨t1, hm1, _⟩ := calculate_equalizer_frame m s1 m1 c0 symbol' zeros_on_left hcalc1
        obtain ⟨t2, hm2, _⟩ := calculate_equalizer_frame m s2 m2 c0 symbol' zeros_on_left hcalc2
        have hcfg' :
            m2 = { m1 with d_hestimate := m2.d_hestimate, d_phase_count := m2.d_phase_count } := by
          rw [hm2, hm1, hcfg]
        have hocc' : m1.d_occupied_carriers < 2 ^ 32 := by rw [hm1]; exact hocc
        have hi' : i < m1.d_occupied_carriers := by rw [hm1]; exact hi
        rcases Nat.eq_or_lt_of_le hc1 with rfl | hgt
        · have hk1 := equalizer_channels_keep m symbols zeros_on_left count (c0 + 1) m1 s1' hr1
            c0 (by omega)
          have hk2 := equalizer_channels_keep m symbols zeros_on_left count (c0 + 1) m2 s2' hr2
            c0 (by omega)
          have hag := calculate_equalizer_agree m s1 s2 m1 m2 c0 symbol' zeros_on_left hocc hcfg
            hcalc1 hcalc2 i hi
          simp only [tap] at hag ⊢
          rw [hk1, hk2]
          exact hag
        · exact ih (c0 + 1) m1 m2 s1' s2' hocc' hcfg' hr1 hr2 c (by omega) (by omega) i hi'

/-- The coarse frequency search does not depend on the stored offset, channel estimates and
symbol count. -/
theorem correlate_independent (self : gr_ofdm_mimo_frame_acquisition R)
    (cf : Int) (H : List (List (gr_complex R))) (pc : Nat)
    (symbol : List (gr_complex R)) (zeros_on_left : Int) :
    correlate { self with d_coarse_freq := cf, d_hestimate := H, d_phase_count := pc }
        symbol zeros_on_left
      = (correlate self symbol zeros_on_left).map
          (fun e => { e with d_hestimate := H, d_phase_count := pc }) := by
  have h1 : symbol_phase_diff
      { self with d_coarse_freq := cf, d_hestimate := H, d_phase_count := pc } symbol
      = symbol_phase_diff self symbol := rfl
  have h2 : ∀ diff, correlate_sweep
      { self with d_coarse_freq := cf, d_hestimate := H, d_phase_count := pc } diff
        zeros_on_left = correlate_sweep self diff zeros_on_left := fun _ => rfl
  simp only [correlate, h1, h2, Option.bind_eq_bind, Option.pure_def]
  cases symbol_phase_diff self symbol with
  | none => rfl
  | some diff =>
    simp only [Option.some_bind]
    cases correlate_sweep self diff zeros_on_left <;> rfl

/-- C25: a `general_work` call with a zero flag leaves the coarse frequency offset and all
channel estimates as they were and changes the engine in `d_phase_count` only; a call with
a nonzero flag leaves a coarse frequency offset and, for each of the `N` antennas, taps
below `occupied_carriers` that do not depend on the offset, the channel estimates and the
symbol count stored before the call. -/
theorem general_work_frame (m : numerics R) (self : gr_ofdm_mimo_frame_acquisition R)
    (input : work_input R) (r : work_result R)
    (hocc : self.d_occupied_carriers < 2 ^ 32)
    (hrun : general_work m self input = some r) :
    (input.signal_in[0]? = some 0 →
      r.self.d_coarse_freq = self.d_coarse_freq ∧ r.self.d_hestimate = self.d_hestimate
      ∧ r.self = { self with d_phase_count := r.self.d_phase_count })
    ∧ ∀ flag : Int, input.signal_in[0]? = some flag → flag ≠ 0 →
        ∀ (cf : Int) (H : List (List (gr_complex R))) (pc : Nat) (r2 : work_result R),
          general_work m { self with d_coarse_freq := cf, d_hestimate := H, d_phase_count := pc }
            input = some r2 →
          r2.self.d_coarse_freq = r.self.d_coarse_freq
          ∧ ∀ c, c < self.d_nchannels → ∀ i, i < self.d_occupied_carriers →
              tap r2.self c i = tap r.self c i := by
  constructor
  · intro hflag
    have h := general_work_zero_flag m self input r hrun hflag
    rw [h]
    exact ⟨rfl, rfl, rfl⟩
  · intro flag hflag hnz cf H pc r2 hrun2
    obtain ⟨f1, self1, out1, hf1, hself1, _, rfl⟩ := general_work_some m self input r hrun
    obtain ⟨f2, self2, out2, hf2, hself2, _, rfl⟩ := general_work_some m _ input r2 hrun2
    have e1 : f1 = flag := Option.some.inj (hf1.symm.trans hflag)
    have e2 : f2 = flag := Option.some.inj (hf2.symm.trans hflag)
    subst e1
    subst e2
    rw [if_pos hnz] at hself1 hself2
    obtain ⟨sym1, a, a', hsym1, hcorr1, hloop1, rfl⟩ := preamble_some m self self1 _ _ hself1
    obtain ⟨sym2, b, b', hsym2, hcorr2, hloop2, rfl⟩ := preamble_some m _ self2 _ _ hself2
    have hs : sym2 = sym1 := Option.some.inj (hsym2.symm.trans hsym1)
    subst hs
    have hz : work_zeros_on_left
        ({ self with d_coarse_freq := cf, d_hestimate := H, d_phase_count := pc }
          : gr_ofdm_mimo_frame_acquisition R) = work_zeros_on_left self := rfl
    rw [hz] at hcorr2 hloop2
    rw [correlate_independent, hcorr1] at hcorr2
    have hb : b = { a with d_hestimate := H, d_phase_count := pc } :=
      (Option.some.inj hcorr2).symm
    obtain ⟨diff, st, _, _, ha⟩ := correlate_frame self a sym2 (work_zeros_on_left self) hcorr1
    have hacfg := equalizer_channels_frame m input.symbols (work_zeros_on_left self)
      a.d_nchannels 0 a a' hloop1
    have hbcfg := equalizer_channels_frame m input.symbols (work_zeros_on_left self)
      b.d_nchannels 0 b b' hloop2
    have hbn : b.d_nchannels = a.d_nchannels := by rw [hb]
    have han : a.d_nchannels = self.d_nchannels := by rw [ha]
    have hao : a.d_occupied_carriers = self.d_occupied_carriers := by rw [ha]
    rw [hbn] at hloop2
    have hag := equalizer_channels_agree m input.symbols (work_zeros_on_left self)
      a.d_nchannels 0 a b a' b' (by rw [hao]; exact hocc) (by rw [hb]) hloop1 hloop2
    refine ⟨?_, ?_⟩
    · show b'.d_coarse_freq = a'.d_coarse_freq
      rw [hbcfg, hacfg, hb]
    · intro c hc i hi
      exact (hag c (Nat.zero_le _) (by rw [Nat.zero_add, han]; exact hc) i
        (by rw [hao]; exact hi)).symm

/-- The index left by the sweep of `correlate` is the starting one or a window position. -/
theorem correlate_sweep_index (self : gr_ofdm_mimo_frame_acquisition R) (diff : List R) :
    ∀ (count a : Nat) (st st' : Int × R),
      for_loop_from 1
        (fun i st => (correlate_sum self diff i).bind (fun sum =>
          some (if sum > st.2 then (to_int i, sum) else st)))
        count a st = some st' →
      st'.1 = st.1 ∨ ∃ i, a ≤ i ∧ i < a + count ∧ st'.1 = to_int i := by
  intro count
  induction count with
  | zero =>
    intro a st st' h
    simp only [for_loop_from, Option.some.injEq] at h
    exact Or.inl (by rw [h])
  | succ count ih =>
    intro a st st' h
    simp only [for_loop_from] at h
    split at h
    · exact absurd h (by simp)
    · rename_i st1 hstep
      obtain ⟨sum, _, hst1⟩ := Option.bind_eq_some.mp hstep
      have hst1' := (Option.some.inj hst1).symm
      rcases ih (a + 1) st1 st' h with hkeep | ⟨i, hi1, hi2, hi⟩
      · rw [hkeep, hst1']
        split
        · exact Or.inr ⟨a, le_refl _, by omega, rfl⟩
        · exact Or.inl rfl
      · exact Or.inr ⟨i, by omega, by omega, hi⟩

/-- The fields that the constructor takes from its arguments, and the initial offset. -/
theorem make_fields (m : numerics R) (nchannels occupied_carriers fft_length cplen : Nat)
    (known_symbol : List (gr_complex R)) (max_fft_shift_len : Nat)
    (self : gr_ofdm_mimo_frame_acquisition R)
    (h : make m nchannels occupied_carriers fft_length cplen known_symbol max_fft_shift_len
      = some self) :
    self.d_occupied_carriers = occupied_carriers ∧ self.d_fft_length = fft_length
    ∧ self.d_freq_shift_len = max_fft_shift_len ∧ self.d_coarse_freq = 0 := by
  simp only [make, Option.bind_eq_bind, Option.bind_eq_some, Option.pure_def,
    Option.some.injEq] at h
  obtain ⟨_, _, _, _, rfl⟩ := h
  exact ⟨rfl, rfl, rfl, rfl⟩

/-- A `general_work` call keeps the dimensions of the engine; with a zero flag it keeps the
stored offset, and with a nonzero flag the offset afterwards is `-zeros_on_left` or a
window position minus `zeros_on_left`. -/
theorem general_work_coarse_freq_cases (m : numerics R)
    (self : gr_ofdm_mimo_frame_acquisition R) (input : work_input R) (r : work_result R)
    (hrun : general_work m self input = some r) :
    r.self.d_occupied_carriers = self.d_occupied_carriers
    ∧ r.self.d_fft_length = self.d_fft_length
    ∧ r.self.d_freq_shift_len = self.d_freq_shift_len
    ∧ ((input.signal_in[0]? = some 0 ∧ r.self.d_coarse_freq = self.d_coarse_freq)
      ∨ ((∃ flag : Int, input.signal_in[0]? = some flag ∧ flag ≠ 0)
        ∧ (r.self.d_coarse_freq = -work_zeros_on_left self
          ∨ ∃ i, to_unsigned (work_zeros_on_left self - (self.d_freq_shift_len : Int)) ≤ i
            ∧ i < to_unsigned (work_zeros_on_left self + (self.d_freq_shift_len : Int))
            ∧ r.self.d_coarse_freq = to_int i - work_zeros_on_left self))) := by
  obtain ⟨flag, self1, out, hflag, hself1, _, rfl⟩ := general_work_some m self input r hrun
  by_cases hf : flag ≠ 0
  · rw [if_pos hf] at hself1
    obtain ⟨symbol, e, e', _, hcorr, hloop, rfl⟩ := preamble_some m self self1 _ _ hself1
    obtain ⟨diff, st, _, hsweep, he⟩ := correlate_frame self e symbol _ hcorr
    have hcfg := equalizer_channels_frame m input.symbols (work_zeros_on_left self)
      e.d_nchannels 0 e e' hloop
    have hc : (to_unsigned (work_zeros_on_left self + (self.d_freq_shift_len : Int))
        - to_unsigned (work_zeros_on_left self - (self.d_freq_shift_len : Int)) + (1 - 1)) / 1
        = to_unsigned (work_zeros_on_left self + (self.d_freq_shift_len : Int))
          - to_unsigned (work_zeros_on_left self - (self.d_freq_shift_len : Int)) := by simp
    rw [correlate_sweep, for_loop, hc] at hsweep
    have hcf : e'.d_coarse_freq = st.1 - work_zeros_on_left self := by rw [hcfg, he]
    refine ⟨?_, ?_, ?_, Or.inr ⟨⟨flag, hflag, hf⟩, ?_⟩⟩
    · show e'.d_occupied_carriers = _
      rw [hcfg, he]
    · show e'.d_fft_length = _
      rw [hcfg, he]
    · show e'.d_freq_shift_len = _
      rw [hcfg, he]
    · show e'.d_coarse_freq = _ ∨ ∃ i, _ ∧ _ ∧ e'.d_coarse_freq = _
      rcases correlate_sweep_index self diff _ _ (0, 0) st hsweep with h0 | ⟨i, hi1, hi2, hi⟩
      · refine Or.inl ?_
        rw [hcf, h0]
        simp
      · refine Or.inr ⟨i, hi1, by omega, ?_⟩
        rw [hcf, hi]
  · rw [if_neg hf] at hself1
    have h1 : self1 = self := (Option.some.inj hself1).symm
    subst h1
    have hf0 : flag = 0 := by
      by_contra h
      exact hf h
    rw [hf0] at hflag
    exact ⟨rfl, rfl, rfl, Or.inl ⟨hflag, rfl⟩⟩

/-- The offset after a `general_work` call with a nonzero flag, under the constructor
preconditions: `-zeros_on_left` or one of `-max_fft_shift_len, ..., max_fft_shift_len - 1`. -/
theorem general_work_coarse_freq_range (m : numerics R)
    (self : gr_ofdm_mimo_frame_acquisition R) (input : work_input R) (r : work_result R)
    (hocc : self.d_occupied_carriers < self.d_fft_length) (hfft : self.d_fft_length < 2 ^ 31)
    (hwin : 2 * (self.d_freq_shift_len : Int) ≤ work_zeros_on_left self)
    (hrun : general_work m self input = some r) :
    (input.signal_in[0]? = some 0 ∧ r.self.d_coarse_freq = self.d_coarse_freq)
    ∨ ((∃ flag : Int, input.signal_in[0]? = some flag ∧ flag ≠ 0)
      ∧ (r.self.d_coarse_freq = -work_zeros_on_left self
        ∨ (-(self.d_freq_shift_len : Int) ≤ r.self.d_coarse_freq
          ∧ r.self.d_coarse_freq < (self.d_freq_shift_len : Int)))) := by
  obtain ⟨_, _, _, hcases⟩ := general_work_coarse_freq_cases m self input r hrun
  have hzol : work_zeros_on_left self
      = ((self.d_fft_length : Int) - (self.d_occupied_carriers : Int) + 1) / 2 := by
    unfold work_zeros_on_left
    rw [to_int_to_unsigned _ (by omega) (by omega)]
  rcases hcases with h | ⟨hflag, h | ⟨i, hi1, hi2, hi⟩⟩
  · exact Or.inl h
  · exact Or.inr ⟨hflag, Or.inl h⟩
  · refine Or.inr ⟨hflag, Or.inr ?_⟩
    have ha := to_unsigned_nonneg (work_zeros_on_left self - (self.d_freq_shift_len : Int))
      (by omega) (by omega)
    have hb := to_unsigned_nonneg (work_zeros_on_left self + (self.d_freq_shift_len : Int))
      (by omega) (by omega)
    have hti : to_int i = (i : Int) := by
      unfold to_int
      split <;> omega
    rw [hi, hti]
    omega

/-- The offsets that a constructed engine can hold: 0 (as constructed), `-zeros_on_left`
(a preamble without a positive score) and `-max_fft_shift_len, ..., max_fft_shift_len - 1`
(a window position). -/
theorem work_calls_coarse_freq (m : numerics R) (inputs : List (work_input R)) :
    ∀ self self' : gr_ofdm_mimo_frame_acquisition R,
      self.d_occupied_carriers < self.d_fft_length → self.d_fft_length < 2 ^ 31 →
      2 * (self.d_freq_shift_len : Int) ≤ work_zeros_on_left self →
      (self.d_coarse_freq = 0 ∨ self.d_coarse_freq = -work_zeros_on_left self
        ∨ (-(self.d_freq_shift_len : Int) ≤ self.d_coarse_freq
          ∧ self.d_coarse_freq < (self.d_freq_shift_len : Int))) →
      work_calls m self inputs = some self' →
      self'.d_occupied_carriers = self.d_occupied_carriers
      ∧ self'.d_fft_length = self.d_fft_length
      ∧ self'.d_freq_shift_len = self.d_freq_shift_len
      ∧ (self'.d_coarse_freq = 0 ∨ self'.d_coarse_freq = -work_zeros_on_left self
        ∨ (-(self.d_freq_shift_len : Int) ≤ self'.d_coarse_freq
          ∧ self'.d_coarse_freq < (self.d_freq_shift_len : Int))) := by
  induction inputs with
  | nil =>
    intro self self' _ _ _ hcf hrun
    simp only [work_calls, Option.some.injEq] at hrun
    subst hrun
    exact ⟨rfl, rfl, rfl, hcf⟩
  | cons input inputs ih =>
    intro self self' hocc hfft hwin hcf hrun
    simp only [work_calls] at hrun
    cases hw : general_work m self input with
    | none => rw [hw] at hrun; exact absurd hrun (by simp)
    | some r =>
      rw [hw] at hrun
      obtain ⟨ho, hf, hm, _⟩ := general_work_coarse_freq_cases m self input r hw
      have hz : work_zeros_on_left r.self = work_zeros_on_left self := by
        unfold work_zeros_on_left
        rw [ho, hf]
      have hcf' : r.self.d_coarse_freq = 0 ∨ r.self.d_coarse_freq = -work_zeros_on_left self
          ∨ (-(self.d_freq_shift_len : Int) ≤ r.self.d_coarse_freq
            ∧ r.self.d_coarse_freq < (self.d_freq_shift_len : Int)) := by
        rcases general_work_coarse_freq_range m self input r hocc hfft hwin hw with
          ⟨_, h⟩ | ⟨_, h | h⟩
        · rw [h]
          exact hcf
        · exact Or.inr (Or.inl h)
        · exact Or.inr (Or.inr h)
      have := ih r.self self' (by rw [ho, hf]; exact hocc) (by rw [hf]; exact hfft)
        (by rw [hm, hz]; exact hwin) (by rw [hm, hz]; exact hcf') hrun
      rw [ho, hf, hm, hz] at this
      exact this

/-- Witness of C22: the equalizer of the example engine for the example symbol; tap 1 is
the mean of the taps 0 and 2, and tap 3 is tap 2. -/
theorem calculate_equalizer_all_taps_witness :
    tap ({ example_engine with
        d_hestimate := [[⟨0, -1 / 2⟩, ⟨1 / 6, -1 / 4⟩, ⟨1 / 3, 0⟩, ⟨1 / 3, 0⟩]] }
        : gr_ofdm_mimo_frame_acquisition ℚ) 0 1
      = gr_complex.div_real
          (tap ({ example_engine with
            d_hestimate := [[⟨0, -1 / 2⟩, ⟨1 / 6, -1 / 4⟩, ⟨1 / 3, 0⟩, ⟨1 / 3, 0⟩]] }
            : gr_ofdm_mimo_frame_acquisition ℚ) 0 (1 - 1)
          + tap ({ example_engine with
            d_hestimate := [[⟨0, -1 / 2⟩, ⟨1 / 6, -1 / 4⟩, ⟨1 / 3, 0⟩, ⟨1 / 3, 0⟩]] }
            : gr_ofdm_mimo_frame_acquisition ℚ) 0 (1 + 1)) 2 :=
  (calculate_equalizer_all_taps example_numerics example_engine
    { example_engine with
      d_hestimate := [[⟨0, -1 / 2⟩, ⟨1 / 6, -1 / 4⟩, ⟨1 / 3, 0⟩, ⟨1 / 3, 0⟩]] }
    0 example_symbol 2 (by decide) (by decide) (by with_unfolding_all rfl)).1 1 (by decide)
    (by decide)

/-- Witness of C25: a preamble call on the example engine and the same call on the engine
with another offset, other channel estimates and another symbol count. -/
theorem general_work_frame_witness :
    ∃ r r2, general_work example_numerics example_engine
        ⟨[1], [example_symbol], [⟨0, 0⟩, ⟨0, 0⟩, ⟨0, 0⟩, ⟨0, 0⟩]⟩ = some r
      ∧ general_work example_numerics
          { example_engine with
            d_coarse_freq := 1
            d_hestimate := [[⟨1, 0⟩, ⟨2, 0⟩, ⟨3, 0⟩, ⟨4, 0⟩]]
            d_phase_count := 7 }
          ⟨[1], [example_symbol], [⟨0, 0⟩, ⟨0, 0⟩, ⟨0, 0⟩, ⟨0, 0⟩]⟩ = some r2
      ∧ r2.self.d_coarse_freq = r.self.d_coarse_freq
      ∧ tap r2.self 0 1 = tap r.self 0 1 := by
  obtain ⟨r, hrun⟩ := Option.isSome_iff_exists.mp
    (by decide! : (general_work example_numerics example_engine
      ⟨[1], [example_symbol], [⟨0, 0⟩, ⟨0, 0⟩, ⟨0, 0⟩, ⟨0, 0⟩]⟩).isSome = true)
  obtain ⟨r2, hrun2⟩ := Option.isSome_iff_exists.mp
    (by decide! : (general_work example_numerics
      { example_engine with
        d_coarse_freq := 1
        d_hestimate := [[⟨1, 0⟩, ⟨2, 0⟩, ⟨3, 0⟩, ⟨4, 0⟩]]
        d_phase_count := 7 }
      ⟨[1], [example_symbol], [⟨0, 0⟩, ⟨0, 0⟩, ⟨0, 0⟩, ⟨0, 0⟩]⟩).isSome = true)
  have h := (general_work_frame example_numerics example_engine
    ⟨[1], [example_symbol], [⟨0, 0⟩, ⟨0, 0⟩, ⟨0, 0⟩, ⟨0, 0⟩]⟩ r (by decide) hrun).2 1 rfl
    (by decide) 1 [[⟨1, 0⟩, ⟨2, 0⟩, ⟨3, 0⟩, ⟨4, 0⟩]] 7 r2 hrun2
  exact ⟨r, r2, hrun, hrun2, h.1, h.2 0 (by decide) 1 (by decide)⟩

/-- Witness of C27: a preamble call on the example engine followed by two calls with a zero
flag. -/
theorem phase_count_cycle_witness :
    ∃ r self', general_work example_numerics example_engine
        ⟨[1], [example_symbol], [⟨0, 0⟩, ⟨0, 0⟩, ⟨0, 0⟩, ⟨0, 0⟩]⟩ = some r
      ∧ work_calls example_numerics r.self
          [⟨[0], [example_symbol], [⟨0, 0⟩, ⟨0, 0⟩, ⟨0, 0⟩, ⟨0, 0⟩]⟩,
            ⟨[0], [example_symbol], [⟨0, 0⟩, ⟨0, 0⟩, ⟨0, 0⟩, ⟨0, 0⟩]⟩] = some self'
      ∧ r.self.d_phase_count = 2 ∧ self'.d_phase_count = (2 + 1) % 999 + 1 := by
  have hex : ((general_work example_numerics example_engine
      ⟨[1], [example_symbol], [⟨0, 0⟩, ⟨0, 0⟩, ⟨0, 0⟩, ⟨0, 0⟩]⟩).bind (fun r =>
        work_calls example_numerics r.self
          [⟨[0], [example_symbol], [⟨0, 0⟩, ⟨0, 0⟩, ⟨0, 0⟩, ⟨0, 0⟩]⟩,
            ⟨[0], [example_symbol], [⟨0, 0⟩, ⟨0, 0⟩, ⟨0, 0⟩, ⟨0, 0⟩]⟩])).isSome = true := by
    decide!
  obtain ⟨self', hself'⟩ := Option.isSome_iff_exists.mp hex
  obtain ⟨r, hrun, hcalls⟩ := Option.bind_eq_some.mp hself'
  have h := phase_count_cycle example_numerics example_engine
    ⟨[1], [example_symbol], [⟨0, 0⟩, ⟨0, 0⟩, ⟨0, 0⟩, ⟨0, 0⟩]⟩ r hrun 1 rfl (by decide)
    [⟨[0], [example_symbol], [⟨0, 0⟩, ⟨0, 0⟩, ⟨0, 0⟩, ⟨0, 0⟩]⟩,
      ⟨[0], [example_symbol], [⟨0, 0⟩, ⟨0, 0⟩, ⟨0, 0⟩, ⟨0, 0⟩]⟩]
    (by
      intro input hin
      simp only [List.mem_cons, List.mem_singleton, List.not_mem_nil, or_false, or_self] at hin
      rw [hin]
      rfl)
    self' hcalls
  exact ⟨r, self', hrun, hcalls, h.1, h.2.1⟩

/-! ### The combined output and the taps across calls -/

/-- The preamble branch of `general_work` keeps the number of occupied carriers. -/
theorem preamble_occupied_carriers (m : numerics R)
    (self self1 : gr_ofdm_mimo_frame_acquisition R)
    (symbols : List (List (gr_complex R))) (zeros_on_left : Int)
    (h : preamble m self symbols zeros_on_left = some self1) :
    self1.d_occupied_carriers = self.d_occupied_carriers := by
  obtain ⟨symbol, e, e', _, hcorr, hloop, rfl⟩ := preamble_some m self self1 symbols
    zeros_on_left h
  obtain ⟨diff, st, _, _, he⟩ := correlate_frame self e symbol zeros_on_left hcorr
  have hcfg := equalizer_channels_frame m symbols zeros_on_left e.d_nchannels 0 e e' hloop
  show e'.d_occupied_carriers = _
  rw [hcfg, he]

/-- C14: in a `general_work` call with a zero-filled output buffer and all taps nonzero
(exact arithmetic), every carrier `i < occupied_carriers` of the output is
`(sum over antennas c of (H_c[i]/|H_c[i]|) * phase_comp(coarse_freq, n) *
s_c[i + zeros_on_left + coarse_freq]) / (sum over antennas c of 1/|H_c[i]|)`, where `n` is
1 when the flag is nonzero and the symbol count stored before the call otherwise, and `H`,
`coarse_freq` are those of the state `self1` after the preamble processing of this call:
the result of the preamble branch on the block when the flag is nonzero, the block before
the call when the flag is zero. They are the taps and the offset the call leaves in the
block. -/
theorem general_work_combined_output (m : numerics R)
    (self self1 : gr_ofdm_mimo_frame_acquisition R) (input : work_input R) (r : work_result R)
    (hrun : general_work m self input = some r)
    (flag : Int) (hflag : input.signal_in[0]? = some flag)
    (hpre : (if flag ≠ 0 then preamble m self input.symbols (work_zeros_on_left self)
      else some self) = some self1)
    (hzero : ∀ o ∈ input.out, o = 0)
    (htaps : ∀ c, c < self1.d_nchannels → ∀ j, j < self1.d_occupied_carriers →
      tap self1 c j ≠ 0)
    (i : Nat) (hi : i < self.d_occupied_carriers) :
    r.out[i]? = some (combined_output m self1 input.symbols (work_zeros_on_left self)
        (if flag ≠ 0 then 1 else to_int self.d_phase_count) i)
    ∧ r.self.d_hestimate = self1.d_hestimate
    ∧ r.self.d_coarse_freq = self1.d_coarse_freq
    ∧ (flag = 0 → self1 = self) := by
  obtain ⟨flag', self1', out, hflag', hself1, hout, rfl⟩ := general_work_some m self input r hrun
  have hf : flag' = flag := Option.some.inj (hflag'.symm.trans hflag)
  subst hf
  have hs : self1' = self1 := Option.some.inj (hself1.symm.trans hpre)
  subst hs
  have hocc : self1'.d_occupied_carriers = self.d_occupied_carriers := by
    by_cases hfl : flag' ≠ 0
    · rw [if_pos hfl] at hpre
      exact preamble_occupied_carriers m self self1' _ _ hpre
    · rw [if_neg hfl] at hpre
      rw [← Option.some.inj hpre]
  obtain ⟨o, ho, hres⟩ := equalize_and_combine_spec m self1' input.symbols
    (work_zeros_on_left self) input.out out hout i (by rw [hocc]; exact hi)
  have ho0 : o = 0 := hzero o (List.getElem?_mem ho)
  refine ⟨?_, rfl, rfl, ?_⟩
  · rw [← general_work_symbol_index m self self1' input.symbols (work_zeros_on_left self) flag'
      hself1]
    show out[i]? = _
    rw [hres, ho0]
    rfl
  · intro h0
    rw [if_neg (by rw [h0]; decide)] at hpre
    exact (Option.some.inj hpre).symm

/-- Witness of C14: a preamble call on the example engine; the preamble processing leaves
the taps `-j/2, 1/6 - j/4, 1/3, 1/3` and the offset 0, and carrier 0 of the output is
`((-j/2)/(1/2) * 1 * 2j) / (1/(1/2)) = 1`. -/
theorem general_work_combined_output_witness :
    ∃ r, general_work example_numerics example_engine
        ⟨[1], [example_symbol], [⟨0, 0⟩, ⟨0, 0⟩, ⟨0, 0⟩, ⟨0, 0⟩]⟩ = some r
      ∧ r.out[0]? = some ⟨1, 0⟩
      ∧ r.self.d_hestimate = [[⟨0, -1 / 2⟩, ⟨1 / 6, -1 / 4⟩, ⟨1 / 3, 0⟩, ⟨1 / 3, 0⟩]]
      ∧ r.self.d_coarse_freq = 0 :=
  match hrun : general_work example_numerics example_engine
      ⟨[1], [example_symbol], [⟨0, 0⟩, ⟨0, 0⟩, ⟨0, 0⟩, ⟨0, 0⟩]⟩ with
  | some r =>
    have h := general_work_combined_output example_numerics example_engine
      { example_engine with
        d_symbol_phase_diff := [4, 0, 13, 0, 9, 0, 0, 0]
        d_hestimate := [[⟨0, -1 / 2⟩, ⟨1 / 6, -1 / 4⟩, ⟨1 / 3, 0⟩, ⟨1 / 3, 0⟩]]
        d_phase_count := 1 }
      ⟨[1], [example_symbol], [⟨0, 0⟩, ⟨0, 0⟩, ⟨0, 0⟩, ⟨0, 0⟩]⟩ r hrun 1 rfl
      (by with_unfolding_all rfl) (by decide!) (by decide!) 0 (by decide)
    ⟨r, rfl, h.1.trans (by with_unfolding_all rfl), h.2.1, h.2.2.1⟩
  | none => absurd hrun (by decide!)

/-- A run of `general_work` calls with zero flags leaves the channel estimates, the offset
and the fields set at construction as they were. -/
theorem work_calls_zero_flags_keep (m : numerics R) (inputs : List (work_input R)) :
    ∀ self self' : gr_ofdm_mimo_frame_acquisition R,
      (∀ input ∈ inputs, input.signal_in[0]? = some 0) →
      work_calls m self inputs = some self' →
      self' = { self with d_phase_count := self'.d_phase_count } := by
  induction inputs with
  | nil =>
    intro self self' _ hrun
    simp only [work_calls, Option.some.injEq] at hrun
    subst hrun
    rfl
  | cons input inputs ih =>
    intro self self' hzero hrun
    simp only [work_calls] at hrun
    cases hw : general_work m self input with
    | none => rw [hw] at hrun; exact absurd hrun (by simp)
    | some r =>
      rw [hw] at hrun
      have hr := general_work_zero_flag m self input r hw (hzero input (by simp))
      rw [ih r.self self' (fun i hi => hzero i (by simp [hi])) hrun, hr]

/-- C16, amended: after a `general_work` call with a nonzero flag, in that call and in
every later call up to the next nonzero flag, for every antenna `c` and every even carrier
`i < occupied_carriers` at which the known tap `k[i]` is nonzero, the tap the data path
divides by has `|H_c[i]| > 0`, provided the calibration of that tap did not itself divide
by zero, that is, the sample `s_c[i + zeros_on_left + coarse_freq]` of the preamble symbol
is nonzero; in exact arithmetic, with a unit-magnitude `gr_expj`, an `abs` that is positive
on nonzero numbers and input symbols of at most `2^32` samples. The block `self2` is the
block after any run `later` of calls with zero flags that follows the preamble call: the
block whose taps the next call divides by, and for an empty run the block after the
preamble call, whose taps the data path of the preamble call divides by. -/
theorem work_calls_even_taps_nonzero (m : numerics R)
    (self : gr_ofdm_mimo_frame_acquisition R) (input : work_input R) (r : work_result R)
    (hexpj : ∀ phase, gr_complex.norm (m.gr_expj phase) = 1)
    (habs : ∀ z : gr_complex R, z ≠ 0 → 0 < m.abs z)
    (hlen : ∀ symbol ∈ input.symbols, symbol.length ≤ 2 ^ 32)
    (hrun : general_work m self input = some r)
    (flag : Int) (hflag : input.signal_in[0]? = some flag) (hnz : flag ≠ 0)
    (later : List (work_input R)) (hzero : ∀ call ∈ later, call.signal_in[0]? = some 0)
    (self2 : gr_ofdm_mimo_frame_acquisition R) (hlater : work_calls m r.self later = some self2)
    (c : Nat) (hc : c < self.d_nchannels)
    (i : Nat) (hi : i < self.d_occupied_carriers) (heven : i % 2 = 0)
    (k : gr_complex R) (hk : self.d_known_symbol[i]? = some k) (hk0 : k ≠ 0)
    (hs : carrier_sample r.self input.symbols (work_zeros_on_left self) c i ≠ 0) :
    0 < m.abs (tap self2 c i) := by
  have hkeep := work_calls_zero_flags_keep m later r.self self2 hzero hlater
  have htap : tap self2 c i = tap r.self c i := by
    rw [hkeep]
    rfl
  rw [htap]
  obtain ⟨flag', self1, out, hflag', hself1, hout, rfl⟩ := general_work_some m self input r hrun
  have hf : flag' = flag := Option.some.inj (hflag'.symm.trans hflag)
  subst hf
  rw [if_pos hnz] at hself1
  exact habs _ (preamble_even_tap_ne_zero m self self1 input.symbols (work_zeros_on_left self)
    hexpj hlen hself1 c hc i hi heven k hk hk0 hs)

/-- Witness of C16: tap 0 of the example engine after a preamble call on the example
symbol and one later call with a zero flag. -/
theorem work_calls_even_taps_nonzero_witness :
    ∃ r self2, general_work example_numerics example_engine
        ⟨[1], [example_symbol], [⟨0, 0⟩, ⟨0, 0⟩, ⟨0, 0⟩, ⟨0, 0⟩]⟩ = some r
      ∧ work_calls example_numerics r.self
        [⟨[0], [example_symbol], [⟨0, 0⟩, ⟨0, 0⟩, ⟨0, 0⟩, ⟨0, 0⟩]⟩] = some self2
      ∧ 0 < example_numerics.abs (tap self2 0 0) := by
  obtain ⟨r, hrun⟩ := Option.isSome_iff_exists.mp
    (by decide! : (general_work example_numerics example_engine
      ⟨[1], [example_symbol], [⟨0, 0⟩, ⟨0, 0⟩, ⟨0, 0⟩, ⟨0, 0⟩]⟩).isSome = true)
  have hself : r.self = { example_engine with
      d_symbol_phase_diff := [4, 0, 13, 0, 9, 0, 0, 0]
      d_hestimate := [[⟨0, -1 / 2⟩, ⟨1 / 6, -1 / 4⟩, ⟨1 / 3, 0⟩, ⟨1 / 3, 0⟩]]
      d_phase_count := 2 } := by
    have h : (general_work example_numerics example_engine
        ⟨[1], [example_symbol], [⟨0, 0⟩, ⟨0, 0⟩, ⟨0, 0⟩, ⟨0, 0⟩]⟩).map (fun r => r.self)
        = some { example_engine with
          d_symbol_phase_diff := [4, 0, 13, 0, 9, 0, 0, 0]
          d_hestimate := [[⟨0, -1 / 2⟩, ⟨1 / 6, -1 / 4⟩, ⟨1 / 3, 0⟩, ⟨1 / 3, 0⟩]]
          d_phase_count := 2 } := by with_unfolding_all rfl
    rw [hrun] at h
    exact Option.some.inj h
  obtain ⟨self2, hlater⟩ := Option.isSome_iff_exists.mp
    (by decide! : (work_calls example_numerics { example_engine with
        d_symbol_phase_diff := [4, 0, 13, 0, 9, 0, 0, 0]
        d_hestimate := [[⟨0, -1 / 2⟩, ⟨1 / 6, -1 / 4⟩, ⟨1 / 3, 0⟩, ⟨1 / 3, 0⟩]]
        d_phase_count := 2 }
      [⟨[0], [example_symbol], [⟨0, 0⟩, ⟨0, 0⟩, ⟨0, 0⟩, ⟨0, 0⟩]⟩]).isSome = true)
  rw [← hself] at hlater
  exact ⟨r, self2, hrun, hlater,
    work_calls_even_taps_nonzero example_numerics example_engine
      ⟨[1], [example_symbol], [⟨0, 0⟩, ⟨0, 0⟩, ⟨0, 0⟩, ⟨0, 0⟩]⟩ r example_numerics_unit
      example_numerics_abs_pos (by decide) hrun 1 rfl (by decide)
      [⟨[0], [example_symbol], [⟨0, 0⟩, ⟨0, 0⟩, ⟨0, 0⟩, ⟨0, 0⟩]⟩] (by decide) self2 hlater
      0 (by decide) 0 (by decide) (by decide) ⟨1, 0⟩ (by with_unfolding_all rfl) (by decide!)
      (by rw [hself]; decide!)⟩

/-- A preamble call on a symbol whose sample for carrier 2 is zero: the offset is 0 and
the calibration of tap 2 divides the known tap `k[2] = -1` by
`phase_comp(coarse_freq, 1) * s[4] = 0`. The quotient is not a number of exact arithmetic
(in `float` it is an infinity or a NaN); in this development a division by zero gives 0, and
the tap is left at 0. -/
theorem general_work_zero_sample :
    (general_work example_numerics example_engine
        ⟨[1], [[⟨0, 0⟩, ⟨0, 0⟩, ⟨0, 2⟩, ⟨0, 0⟩, ⟨0, 0⟩, ⟨0, 0⟩, ⟨0, 0⟩, ⟨0, 0⟩]],
          [⟨0, 0⟩, ⟨0, 0⟩, ⟨0, 0⟩, ⟨0, 0⟩]⟩).map
      (fun r => (r.self.d_coarse_freq,
        coarse_freq_comp example_numerics r.self r.self.d_coarse_freq 1
          * carrier_sample r.self
              [[⟨0, 0⟩, ⟨0, 0⟩, ⟨0, 2⟩, ⟨0, 0⟩, ⟨0, 0⟩, ⟨0, 0⟩, ⟨0, 0⟩, ⟨0, 0⟩]]
              (work_zeros_on_left example_engine) 0 2,
        tap r.self 0 2))
      = some (0, ⟨0, 0⟩, ⟨0, 0⟩) := by
  with_unfolding_all rfl

/-! ### The shifted known symbol -/

theorem mul_zero_c (z : gr_complex R) : z * (0 : gr_complex R) = 0 := by
  rw [gr_complex.ext_iff']
  simp only [gr_complex.mul_re, gr_complex.mul_im, gr_complex.zero_re, gr_complex.zero_im]
  constructor <;> ring

theorem norm_mul_sub (p a b : gr_complex R) (hp : gr_complex.norm p = 1) :
    gr_complex.norm (p * a - p * b) = gr_complex.norm (a - b) := by
  have h : p * a - p * b = p * (a - b) := by
    rw [gr_complex.ext_iff']
    show (p.re * a.re - p.im * a.im) - (p.re * b.re - p.im * b.im)
        = p.re * (a.re - b.re) - p.im * (a.im - b.im)
      ∧ (p.re * a.im + p.im * a.re) - (p.re * b.im + p.im * b.re)
        = p.re * (a.im - b.im) + p.im * (a.re - b.re)
    constructor <;> ring
  rw [h, gr_complex.norm_mul, hp, one_mul]

/-- A property that every run of the body keeps holds after a completed loop. -/
theorem for_loop_from_invariant {σ : Type} (step : Nat) (body : Nat → σ → Option σ) :
    ∀ (count : Nat) (P : Nat → σ → Prop) (i : Nat) (s s' : σ),
      for_loop_from step body count i s = some s' → P 0 s →
      (∀ t s s1, t < count → P t s → body (i + t * step) s = some s1 → P (t + 1) s1) →
      P count s' := by
  intro count
  induction count with
  | zero =>
    intro P i s s' h h0 _
    simp only [for_loop_from, Option.some.injEq] at h
    rw [← h]
    exact h0
  | succ count ih =>
    intro P i s s' h h0 hstep
    simp only [for_loop_from] at h
    split at h
    · exact absurd h (by simp)
    · rename_i s1 hbody
      have h1 := hstep 0 s s1 (by omega) h0 (by rw [Nat.zero_mul, Nat.add_zero]; exact hbody)
      exact ih (fun t s => P (t + 1) s) (i + step) s1 s' h h1 (fun t s s2 ht hp hb => by
        have e : i + (t + 1) * step = i + step + t * step := by ring
        exact hstep (t + 1) s s2 (by omega) hp (by rw [e]; exact hb))

/-- A loop whose body completes on every state with a property that it keeps completes. -/
theorem for_loop_from_completes {σ : Type} (step : Nat) (body : Nat → σ → Option σ)
    (P : σ → Prop) :
    ∀ (count i : Nat) (s : σ), P s →
      (∀ t s, t < count → P s → ∃ s', body (i + t * step) s = some s' ∧ P s') →
      ∃ s', for_loop_from step body count i s = some s' ∧ P s' := by
  intro count
  induction count with
  | zero =>
    intro i s hs _
    exact ⟨s, rfl, hs⟩
  | succ count ih =>
    intro i s hs hbody
    obtain ⟨s1, h1, hp1⟩ := hbody 0 s (by omega) hs
    rw [Nat.zero_mul, Nat.add_zero] at h1
    obtain ⟨s', h', hp'⟩ := ih (i + step) s1 hp1 (fun t s ht hp => by
      have e : i + (t + 1) * step = i + step + t * step := by ring
      have := hbody (t + 1) s (by omega) hp
      rw [e] at this
      exact this)
    refine ⟨s', ?_, hp'⟩
    simp only [for_loop_from, h1]
    exact h'

/-- The differential that `correlate` computes for a symbol: `|symbol[n] - symbol[n+2]|²`
below the bound of its first loop, 0 from there on. -/
theorem symbol_phase_diff_entries (self : gr_ofdm_mimo_frame_acquisition R)
    (symbol : List (gr_complex R)) (diff : List R)
    (h : symbol_phase_diff self symbol = some diff) :
    ∀ n, n < diff.length → diff[n]? = some
      (if n < to_unsigned ((self.d_fft_length : Int) - 2)
        then gr_complex.norm ((symbol[n]?).getD 0 - (symbol[n + 2]?).getD 0) else 0) := by
  have hc : (to_unsigned ((self.d_fft_length : Int) - 2) - 0 + (1 - 1)) / 1
      = to_unsigned ((self.d_fft_length : Int) - 2) := by simp
  rw [symbol_phase_diff, for_loop, hc] at h
  have hinv := for_loop_from_invariant 1 _ (to_unsigned ((self.d_fft_length : Int) - 2))
    (fun t (d : List R) => d.length = self.d_symbol_phase_diff.length
      ∧ ∀ n, n < d.length → d[n]? = some
        (if n < t then gr_complex.norm ((symbol[n]?).getD 0 - (symbol[n + 2]?).getD 0) else 0))
    0 _ diff h
    ⟨by simp, fun n hn => by
      rw [if_neg (by omega), List.getElem?_eq_getElem hn]
      simp⟩
    (fun t d d1 _ hp hb => by
      simp only [Option.bind_eq_bind, Option.bind_eq_some] at hb
      obtain ⟨a, ha, b, hb', hw⟩ := hb
      rw [Nat.zero_add, Nat.mul_one] at ha hb' hw
      obtain ⟨hlt, rfl⟩ := write_at_eq_some _ _ _ _ hw
      refine ⟨by rw [List.length_set]; exact hp.1, fun n hn => ?_⟩
      rw [List.length_set] at hn
      by_cases hnt : n = t
      · subst hnt
        rw [List.getElem?_set_self hlt, if_pos (by omega), ha, hb']
        rfl
      · rw [List.getElem?_set_ne (fun e => hnt e.symm), hp.2 n hn]
        by_cases hlt2 : n < t
        · rw [if_pos hlt2, if_pos (by omega)]
        · rw [if_neg hlt2, if_neg (by omega)])
  exact hinv.2

/-- The score that `correlate` computes for a window position is the sum of the products
of the entries it reads. -/
theorem correlate_sum_eq (self : gr_ofdm_mimo_frame_acquisition R) (diff : List R) (i : Nat)
    (v : R) (h : correlate_sum self diff i = some v) (f : Nat → R)
    (hf : ∀ j, j < self.d_occupied_carriers → ∀ k d, self.d_known_phase_diff[j]? = some k →
      diff[to_unsigned (i + j)]? = some d → k * d = f j) :
    v = sum_from 0 self.d_occupied_carriers f := by
  have hc : (self.d_occupied_carriers - 0 + (1 - 1)) / 1 = self.d_occupied_carriers := by simp
  rw [correlate_sum, for_loop, hc] at h
  exact for_loop_from_invariant 1 _ self.d_occupied_carriers
    (fun t (sum : R) => t ≤ self.d_occupied_carriers → sum = sum_from 0 t f) 0 0 v h
    (fun _ => rfl)
    (fun t sum sum1 ht hp hb => by
      intro _
      simp only [Option.bind_eq_bind, Option.bind_eq_some, Option.pure_def,
        Option.some.injEq] at hb
      obtain ⟨k, hk, d, hd, rfl⟩ := hb
      rw [Nat.zero_add, Nat.mul_one] at hk hd
      rw [sum_from_succ, hp (by omega), hf t ht k d hk hd])
    (le_refl _)

/-- A completed sweep of `correlate` has computed the score of every window position. -/
theorem correlate_sweep_sums (self : gr_ofdm_mimo_frame_acquisition R) (diff : List R) :
    ∀ (count a : Nat) (st st' : Int × R),
      for_loop_from 1
        (fun i st => (correlate_sum self diff i).bind (fun sum =>
          some (if sum > st.2 then (to_int i, sum) else st)))
        count a st = some st' →
      ∀ i, a ≤ i → i < a + count → ∃ v, correlate_sum self diff i = some v := by
  intro count
  induction count with
  | zero =>
    intro a st st' _ i h1 h2
    exact absurd h2 (by omega)
  | succ count ih =>
    intro a st st' h i hi1 hi2
    simp only [for_loop_from] at h
    split at h
    · exact absurd h (by simp)
    · rename_i st1 hstep
      obtain ⟨sum, hsum, _⟩ := Option.bind_eq_some.mp hstep
      rcases Nat.eq_or_lt_of_le hi1 with rfl | hlt
      · exact ⟨sum, hsum⟩
      · exact ih (a + 1) st1 st' h i (by omega) (by omega)

/-- The bins of the shifted known symbol. -/
theorem shifted_known_symbol_get (self : gr_ofdm_mimo_frame_acquisition R) (p : gr_complex R)
    (offset : Int) (n : Nat) (hn : n < self.d_fft_length) :
    ((shifted_known_symbol self p offset)[n]?).getD 0
      = p * known_at self ((n : Int) - offset) := by
  unfold shifted_known_symbol known_at
  rw [List.getElem?_map, List.getElem?_range hn]
  simp only [Option.map_some', Option.getD_some]
  by_cases hc : offset ≤ (n : Int) ∧ (n : Int) < offset + (self.d_occupied_carriers : Int)
  · rw [if_pos hc, if_pos (by omega)]
  · rw [if_neg hc, if_neg (by omega), mul_zero_c]

/-- The window scores of a preamble call on the shifted known symbol are the scores of the
known symbol against itself. -/
theorem window_score_shifted_known_symbol (m : numerics R)
    (self : gr_ofdm_mimo_frame_acquisition R) (input : work_input R) (r : work_result R)
    (hrun : general_work m self input = some r)
    (flag : Int) (hflag : input.signal_in[0]? = some flag) (hnz : flag ≠ 0)
    (hocc1 : 1 ≤ self.d_occupied_carriers)
    (hocc : self.d_occupied_carriers < self.d_fft_length) (hfft : self.d_fft_length < 2 ^ 31)
    (hwin : (self.d_freq_shift_len : Int) ≤ work_zeros_on_left self)
    (p : gr_complex R) (hp : gr_complex.norm p = 1) (D : Int)
    (hsym : input.symbols[0]?
      = some (shifted_known_symbol self p (work_zeros_on_left self + D)))
    (D' : Int) (h1 : -(self.d_freq_shift_len : Int) ≤ D')
    (h2 : D' < (self.d_freq_shift_len : Int)) :
    window_score self (shifted_known_symbol self p (work_zeros_on_left self + D))
        (to_unsigned (work_zeros_on_left self + D'))
      = known_correlation self (work_zeros_on_left self + D) (D' - D) := by
  obtain ⟨flag', self1, out, hflag', hself1, hout, _⟩ := general_work_some m self input r hrun
  have hf : flag' = flag := Option.some.inj (hflag'.symm.trans hflag)
  subst hf
  rw [if_pos hnz] at hself1
  obtain ⟨symbol', e, e', hsym', hcorr, hloop, _⟩ := preamble_some m self self1 input.symbols
    (work_zeros_on_left self) hself1
  have hs : symbol' = shifted_known_symbol self p (work_zeros_on_left self + D) :=
    Option.some.inj (hsym'.symm.trans hsym)
  rw [hs] at hcorr
  obtain ⟨diff, st, hdiff, hsweep, _⟩ := correlate_frame self e _ (work_zeros_on_left self) hcorr
  have hzol : work_zeros_on_left self
      = ((self.d_fft_length : Int) - (self.d_occupied_carriers : Int) + 1) / 2 := by
    unfold work_zeros_on_left
    rw [to_int_to_unsigned _ (by omega) (by omega)]
  have hc : (to_unsigned (work_zeros_on_left self + (self.d_freq_shift_len : Int))
      - to_unsigned (work_zeros_on_left self - (self.d_freq_shift_len : Int)) + (1 - 1)) / 1
      = to_unsigned (work_zeros_on_left self + (self.d_freq_shift_len : Int))
        - to_unsigned (work_zeros_on_left self - (self.d_freq_shift_len : Int)) := by simp
  rw [correlate_sweep, for_loop, hc] at hsweep
  generalize work_zeros_on_left self = z at hzol hwin hsweep hdiff ⊢
  have ha := to_unsigned_nonneg (z - (self.d_freq_shift_len : Int)) (by omega) (by omega)
  have hb := to_unsigned_nonneg (z + (self.d_freq_shift_len : Int)) (by omega) (by omega)
  have hi := to_unsigned_nonneg (z + D') (by omega) (by omega)
  have hfft2 := to_unsigned_nonneg ((self.d_fft_length : Int) - 2) (by omega) (by omega)
  generalize to_unsigned (z + D') = i at hi ⊢
  obtain ⟨v, hv⟩ := correlate_sweep_sums self diff _ _ (0, 0) st hsweep i (by omega) (by omega)
  simp only [window_score, hdiff, Option.some_bind, hv, Option.getD_some]
  unfold known_correlation
  refine correlate_sum_eq self diff i v hv _ (fun j hj k d hk hd => ?_)
  have hij : to_unsigned ((i : Int) + (j : Int)) = i + j := by
    have := to_unsigned_of_lt (i + j) (by omega)
    push_cast at this
    exact this
  rw [hij] at hd
  obtain ⟨hlt, _⟩ := List.getElem?_eq_some.mp hd
  have hentry := symbol_phase_diff_entries self _ diff hdiff (i + j) hlt
  rw [hd] at hentry
  have hd' := Option.some.inj hentry
  show k * d = (self.d_known_phase_diff[j]?).getD 0 * _
  rw [hk, Option.getD_some, hd']
  congr 1
  by_cases hcase : i + j + 2 < self.d_fft_length
  · rw [if_pos (by omega), if_pos (by omega),
      shifted_known_symbol_get self p _ (i + j) (by omega),
      shifted_known_symbol_get self p _ (i + j + 2) (by omega), norm_mul_sub _ _ _ hp]
    have e1 : ((i + j : Nat) : Int) - (z + D) = D' - D + (j : Int) := by
      push_cast
      omega
    have e2 : ((i + j + 2 : Nat) : Int) - (z + D) = D' - D + (j : Int) + 2 := by
      push_cast
      omega
    rw [e1, e2]
  · rw [if_neg (by omega), if_neg (by omega)]

/-- C12, amended: in exact arithmetic, for every known symbol `k` and every integer shift
`D` with `-max_fft_shift_len+1 <= D <= max_fft_shift_len-1`, if antenna 1's preamble symbol
is the known symbol placed at bins `zeros_on_left + D .. zeros_on_left + D +
occupied_carriers - 1` (zero elsewhere, each sample multiplied by one unit-magnitude phase
`p`), and the score of the known symbol against itself,
`c(t) = sum over j of K[j] * |k[j+t] - k[j+t+2]|²`, has its first maximum over the searched
lags at `t = 0` (`c(0) > 0`, `c(t) < c(0)` for `-max_fft_shift_len - D <= t < 0` and
`c(t) <= c(0)` for `0 < t < max_fft_shift_len - D`), then after `general_work` with a
nonzero flag the engine has `coarse_freq == D`; for `occupied_carriers < fft_length < 2^31`
and a search window that starts at a non-negative bin. -/
theorem general_work_shifted_symbol_coarse_freq (m : numerics R)
    (self : gr_ofdm_mimo_frame_acquisition R) (input : work_input R) (r : work_result R)
    (hrun : general_work m self input = some r)
    (flag : Int) (hflag : input.signal_in[0]? = some flag) (hnz : flag ≠ 0)
    (hocc : self.d_occupied_carriers < self.d_fft_length) (hfft : self.d_fft_length < 2 ^ 31)
    (hwin : (self.d_freq_shift_len : Int) ≤ work_zeros_on_left self)
    (p : gr_complex R) (hp : gr_complex.norm p = 1)
    (D : Int) (hD1 : -(self.d_freq_shift_len : Int) + 1 ≤ D)
    (hD2 : D ≤ (self.d_freq_shift_len : Int) - 1)
    (hsym : input.symbols[0]?
      = some (shifted_known_symbol self p (work_zeros_on_left self + D)))
    (hpos : 0 < known_correlation self (work_zeros_on_left self + D) 0)
    (hbefore : ∀ t : Int, -(self.d_freq_shift_len : Int) - D ≤ t → t < 0 →
      known_correlation self (work_zeros_on_left self + D) t
        < known_correlation self (work_zeros_on_left self + D) 0)
    (hafter : ∀ t : Int, 0 < t → t < (self.d_freq_shift_len : Int) - D →
      known_correlation self (work_zeros_on_left self + D) t
        ≤ known_correlation self (work_zeros_on_left self + D) 0) :
    r.self.d_coarse_freq = D := by
  have hocc1 : 1 ≤ self.d_occupied_carriers := by
    by_contra h0
    have h0' : self.d_occupied_carriers = 0 := by omega
    unfold known_correlation at hpos
    rw [h0'] at hpos
    exact lt_irrefl _ hpos
  have hscore := window_score_shifted_known_symbol m self input r hrun flag hflag hnz hocc1 hocc
    hfft hwin p hp D hsym
  have h0 := hscore D (by omega) (by omega)
  rw [sub_self] at h0
  refine general_work_coarse_freq_first_max m self input r hrun flag hflag hnz _ hsym hwin D
    hD1 hD2 (by rw [h0]; exact hpos) (fun D' h1 h2 => ?_) (fun D' h1 h2 => ?_)
  · rw [h0, hscore D' h1 (by omega)]
    exact hbefore (D' - D) (by omega) (by omega)
  · rw [h0, hscore D' (by omega) h2]
    exact hafter (D' - D) (by omega) (by omega)

/-- Witness of C12: the known symbol `[1, 0, -1, 0]` of the example engine, multiplied by
the phase `j` and placed at bins 2 to 5 (shift 0); the scores at the lags -1 and 0 are 0
and 16. -/
theorem general_work_shifted_symbol_coarse_freq_witness :
    shifted_known_symbol example_engine ⟨0, 1⟩ (work_zeros_on_left example_engine + 0)
      = [⟨0, 0⟩, ⟨0, 0⟩, ⟨0, 1⟩, ⟨0, 0⟩, ⟨0, -1⟩, ⟨0, 0⟩, ⟨0, 0⟩, ⟨0, 0⟩]
    ∧ known_correlation example_engine (work_zeros_on_left example_engine + 0) (-1) = 0
    ∧ known_correlation example_engine (work_zeros_on_left example_engine + 0) 0 = 16
    ∧ ∃ r, general_work example_numerics example_engine
        ⟨[1], [[⟨0, 0⟩, ⟨0, 0⟩, ⟨0, 1⟩, ⟨0, 0⟩, ⟨0, -1⟩, ⟨0, 0⟩, ⟨0, 0⟩, ⟨0, 0⟩]],
          [⟨0, 0⟩, ⟨0, 0⟩, ⟨0, 0⟩, ⟨0, 0⟩]⟩ = some r
      ∧ r.self.d_coarse_freq = 0 :=
  ⟨by decide!, by decide!, by decide!,
  match hrun : general_work example_numerics example_engine
      ⟨[1], [[⟨0, 0⟩, ⟨0, 0⟩, ⟨0, 1⟩, ⟨0, 0⟩, ⟨0, -1⟩, ⟨0, 0⟩, ⟨0, 0⟩, ⟨0, 0⟩]],
        [⟨0, 0⟩, ⟨0, 0⟩, ⟨0, 0⟩, ⟨0, 0⟩]⟩ with
  | some r =>
    ⟨r, rfl, general_work_shifted_symbol_coarse_freq example_numerics example_engine
      ⟨[1], [[⟨0, 0⟩, ⟨0, 0⟩, ⟨0, 1⟩, ⟨0, 0⟩, ⟨0, -1⟩, ⟨0, 0⟩, ⟨0, 0⟩, ⟨0, 0⟩]],
        [⟨0, 0⟩, ⟨0, 0⟩, ⟨0, 0⟩, ⟨0, 0⟩]⟩ r hrun 1 rfl (by decide) (by decide) (by decide)
      (by decide) ⟨0, 1⟩ (by decide!) 0 (by decide) (by decide) (by decide!) (by decide!)
      (by
        intro t h1 h2
        have h1' : (-1 : Int) ≤ t := by
          have : -(((1 : Nat) : Int)) - 0 ≤ t := h1
          omega
        have ht : t = -1 := by omega
        subst ht
        decide!)
      (by
        intro t h1 h2
        have h2' : t < (1 : Int) := by
          have : t < ((1 : Nat) : Int) - 0 := h2
          omega
        omega)⟩
  | none => absurd hrun (by decide!)⟩

/-! ### Completion of the calls -/

/-- The symbol index `i + zeros_on_left + coarse_freq` of a carrier `i < occupied_carriers`
is inside a symbol of `fft_length` samples, for each offset that an engine can hold. -/
theorem carrier_index_in_bounds (occupied_carriers fft_length max_fft_shift_len : Nat)
    (z cf : Int) (hocc : occupied_carriers < fft_length) (hfft : fft_length < 2 ^ 31)
    (hz : z = ((fft_length : Int) - (occupied_carriers : Int) + 1) / 2)
    (hwin : 2 * (max_fft_shift_len : Int) ≤ z)
    (hcf : cf = 0 ∨ cf = -z
      ∨ (-(max_fft_shift_len : Int) ≤ cf ∧ cf < (max_fft_shift_len : Int)))
    (i : Nat) (hi : i < occupied_carriers) :
    0 ≤ (i : Int) + z + cf ∧ (i : Int) + z + cf < (fft_length : Int)
    ∧ to_unsigned ((i : Int) + z + cf) < fft_length
    ∧ ((to_unsigned ((i : Int) + z + cf) : Nat) : Int) = (i : Int) + z + cf := by
  have h0 : 0 ≤ (i : Int) + z + cf := by omega
  have h1 : (i : Int) + z + cf < (fft_length : Int) := by omega
  have h2 := to_unsigned_nonneg ((i : Int) + z + cf) h0 (by omega)
  exact ⟨h0, h1, by omega, h2⟩

/-- The first loop of `correlate` completes on a symbol of `fft_length` samples. -/
theorem symbol_phase_diff_completes (self : gr_ofdm_mimo_frame_acquisition R)
    (symbol : List (gr_complex R)) (h2 : 2 ≤ self.d_fft_length)
    (hfft : self.d_fft_length < 2 ^ 31) (hsym : symbol.length = self.d_fft_length)
    (hD : self.d_symbol_phase_diff.length = self.d_fft_length) :
    ∃ diff, symbol_phase_diff self symbol = some diff ∧ diff.length = self.d_fft_length := by
  have hc : (to_unsigned ((self.d_fft_length : Int) - 2) - 0 + (1 - 1)) / 1
      = to_unsigned ((self.d_fft_length : Int) - 2) := by simp
  have hcount := to_unsigned_nonneg ((self.d_fft_length : Int) - 2) (by omega) (by omega)
  rw [symbol_phase_diff, for_loop, hc]
  refine for_loop_from_completes 1 _ (fun (d : List R) => d.length = self.d_fft_length) _ 0 _
    (by beta_reduce; rw [List.length_replicate, hD]) (fun t d ht hd => ?_)
  beta_reduce at hd ⊢
  rw [Nat.zero_add, Nat.mul_one]
  have ha : symbol[t]? = some (symbol[t]?.getD 0) := by
    rw [List.getElem?_eq_getElem (by omega)]
    rfl
  have hb : symbol[t + 2]? = some (symbol[t + 2]?.getD 0) := by
    rw [List.getElem?_eq_getElem (by omega)]
    rfl
  refine ⟨d.set t (gr_complex.norm (symbol[t]?.getD 0 - symbol[t + 2]?.getD 0)), ?_,
    by rw [List.length_set]; exact hd⟩
  rw [ha, hb]
  simp only [Option.bind_eq_bind, Option.some_bind, Option.getD_some, write_at,
    if_pos (show t < d.length by omega)]

/-- The inner loop of `correlate` completes when its reads are inside the buffers. -/
theorem correlate_sum_completes (self : gr_ofdm_mimo_frame_acquisition R) (diff : List R)
    (i : Nat) (hK : self.d_occupied_carriers ≤ self.d_known_phase_diff.length)
    (hd : ∀ j, j < self.d_occupied_carriers → to_unsigned ((i : Int) + (j : Int)) < diff.length) :
    ∃ v, correlate_sum self diff i = some v := by
  have hc : (self.d_occupied_carriers - 0 + (1 - 1)) / 1 = self.d_occupied_carriers := by simp
  rw [correlate_sum, for_loop, hc]
  obtain ⟨v, hv, _⟩ := for_loop_from_completes 1
    (fun j sum => (self.d_known_phase_diff[j]?).bind (fun k =>
      (diff[to_unsigned ((i : Int) + (j : Int))]?).bind (fun d => some (sum + k * d))))
    (fun (_ : R) => True) self.d_occupied_carriers 0 0 trivial (fun t s ht _ => by
      rw [Nat.zero_add, Nat.mul_one]
      have ha : self.d_known_phase_diff[t]? = some (self.d_known_phase_diff[t]?.getD 0) := by
        rw [List.getElem?_eq_getElem (by omega)]
        rfl
      have hb : diff[to_unsigned ((i : Int) + (t : Int))]?
          = some (diff[to_unsigned ((i : Int) + (t : Int))]?.getD 0) := by
        rw [List.getElem?_eq_getElem (hd t ht)]
        rfl
      beta_reduce
      rw [ha, hb]
      exact ⟨_, rfl, trivial⟩)
  exact ⟨v, hv⟩

/-- The sweep of `correlate` completes when every window position does. -/
theorem correlate_sweep_completes (self : gr_ofdm_mimo_frame_acquisition R) (diff : List R)
    (zeros_on_left : Int)
    (h : ∀ i, to_unsigned (zeros_on_left - self.d_freq_shift_len) ≤ i →
      i < to_unsigned (zeros_on_left + self.d_freq_shift_len) →
      ∃ v, correlate_sum self diff i = some v) :
    ∃ st, correlate_sweep self diff zeros_on_left = some st := by
  have hc : (to_unsigned (zeros_on_left + (self.d_freq_shift_len : Int))
      - to_unsigned (zeros_on_left - (self.d_freq_shift_len : Int)) + (1 - 1)) / 1
      = to_unsigned (zeros_on_left + (self.d_freq_shift_len : Int))
        - to_unsigned (zeros_on_left - (self.d_freq_shift_len : Int)) := by simp
  rw [correlate_sweep, for_loop, hc]
  obtain ⟨st, hst, _⟩ := for_loop_from_completes 1
    (fun i (st : Int × R) => (correlate_sum self diff i).bind (fun sum =>
      some (if sum > st.2 then (to_int i, sum) else st)))
    (fun (_ : Int × R) => True)
    (to_unsigned (zeros_on_left + (self.d_freq_shift_len : Int))
      - to_unsigned (zeros_on_left - (self.d_freq_shift_len : Int)))
    (to_unsigned (zeros_on_left - (self.d_freq_shift_len : Int))) (0, 0) trivial
    (fun t s ht _ => by
      beta_reduce
      rw [Nat.mul_one]
      obtain ⟨v, hv⟩ := h (to_unsigned (zeros_on_left - (self.d_freq_shift_len : Int)) + t)
        (by omega) (by omega)
      rw [hv]
      exact ⟨_, rfl, trivial⟩)
  exact ⟨st, hst⟩

/-- The coarse frequency search completes on a symbol of `fft_length` samples, under the
constructor preconditions, and leaves the offset `-zeros_on_left` or a window position. -/
theorem correlate_completes (self : gr_ofdm_mimo_frame_acquisition R)
    (symbol : List (gr_complex R))
    (hocc1 : 1 ≤ self.d_occupied_carriers)
    (hocc : self.d_occupied_carriers < self.d_fft_length) (hfft : self.d_fft_length < 2 ^ 31)
    (hwin : 2 * (self.d_freq_shift_len : Int) ≤ work_zeros_on_left self)
    (hsym : symbol.length = self.d_fft_length)
    (hK : self.d_known_phase_diff.length = self.d_occupied_carriers)
    (hD : self.d_symbol_phase_diff.length = self.d_fft_length) :
    ∃ (diff : List R) (cf : Int),
      correlate self symbol (work_zeros_on_left self)
        = some { self with d_symbol_phase_diff := diff, d_coarse_freq := cf }
      ∧ diff.length = self.d_fft_length
      ∧ (cf = -work_zeros_on_left self
        ∨ (-(self.d_freq_shift_len : Int) ≤ cf ∧ cf < (self.d_freq_shift_len : Int))) := by
  have hzol : work_zeros_on_left self
      = ((self.d_fft_length : Int) - (self.d_occupied_carriers : Int) + 1) / 2 := by
    unfold work_zeros_on_left
    rw [to_int_to_unsigned _ (by omega) (by omega)]
  obtain ⟨diff, hdiff, hlen⟩ := symbol_phase_diff_completes self symbol (by omega) hfft hsym hD
  have ha := to_unsigned_nonneg (work_zeros_on_left self - (self.d_freq_shift_len : Int))
    (by omega) (by omega)
  have hb := to_unsigned_nonneg (work_zeros_on_left self + (self.d_freq_shift_len : Int))
    (by omega) (by omega)
  obtain ⟨st, hst⟩ := correlate_sweep_completes self diff (work_zeros_on_left self)
    (fun i hi1 hi2 => correlate_sum_completes self diff i (by omega) (fun j hj => by
      have h0 := to_unsigned_nonneg ((i : Int) + (j : Int)) (by omega) (by omega)
      omega))
  refine ⟨diff, st.1 - work_zeros_on_left self, ?_, hlen, ?_⟩
  · simp only [correlate, hdiff, hst, Option.bind_eq_bind, Option.some_bind, Option.pure_def]
  · have hc : (to_unsigned (work_zeros_on_left self + (self.d_freq_shift_len : Int))
        - to_unsigned (work_zeros_on_left self - (self.d_freq_shift_len : Int)) + (1 - 1)) / 1
        = to_unsigned (work_zeros_on_left self + (self.d_freq_shift_len : Int))
          - to_unsigned (work_zeros_on_left self - (self.d_freq_shift_len : Int)) := by simp
    rw [correlate_sweep, for_loop, hc] at hst
    rcases correlate_sweep_index self diff _ _ (0, 0) st hst with h0 | ⟨i, hi1, hi2, hi⟩
    · refine Or.inl ?_
      rw [h0]
      simp
    · refine Or.inr ?_
      have hti : to_int i = (i : Int) := by
        unfold to_int
        split <;> omega
      rw [hi, hti]
      omega

/-- One run of the loop of `calculate_equalizer` completes when its indices are inside the
buffers, and keeps the length of the tap vector. -/
theorem equalizer_step_completes (m : numerics R) (self : gr_ofdm_mimo_frame_acquisition R)
    (symbol : List (gr_complex R)) (zeros_on_left : Int) (i : Nat) (h : List (gr_complex R))
    (hi2 : 2 ≤ i) (hi : i < h.length) (hk : i < self.d_known_symbol.length)
    (hs : to_unsigned ((i : Int) + zeros_on_left + self.d_coarse_freq) < symbol.length) :
    ∃ h', equalizer_step m self symbol zeros_on_left i h = some h' ∧ h'.length = h.length := by
  simp only [equalizer_step, Option.bind_eq_bind]
  rw [List.getElem?_eq_getElem hk, List.getElem?_eq_getElem hs]
  simp only [Option.some_bind, write_at, if_pos hi, List.getElem?_set_self hi]
  generalize self.d_known_symbol[i]
    / (coarse_freq_comp m self self.d_coarse_freq 1
      * symbol[to_unsigned ((i : Int) + zeros_on_left + self.d_coarse_freq)]) = v
  have hlt2 : i - 2 < (h.set i v).length := by
    rw [List.length_set]
    omega
  have hlt1 : i - 1 < (h.set i v).length := by
    rw [List.length_set]
    omega
  rw [List.getElem?_eq_getElem hlt2]
  simp only [Option.some_bind, if_pos hlt1]
  exact ⟨_, rfl, by rw [List.length_set, List.length_set]⟩

/-- The call `calculate_equalizer` completes when the tap vector of its channel has
`occupied_carriers >= 1` entries, the known symbol has at least as many, and the symbol
indices are inside the symbol; it replaces that tap vector by one of the same length. -/
theorem calculate_equalizer_completes (m : numerics R)
    (self : gr_ofdm_mimo_frame_acquisition R) (channel : Nat) (symbol : List (gr_complex R))
    (zeros_on_left : Int) (h0 : List (gr_complex R))
    (hch : self.d_hestimate[channel]? = some h0) (hlen : h0.length = self.d_occupied_carriers)
    (hocc1 : 1 ≤ self.d_occupied_carriers) (hocc32 : self.d_occupied_carriers < 2 ^ 32)
    (hknown : self.d_occupied_carriers ≤ self.d_known_symbol.length)
    (hfirst : 0 ≤ zeros_on_left + self.d_coarse_freq
      ∧ (zeros_on_left + self.d_coarse_freq).toNat < symbol.length)
    (hidx : ∀ i, i < self.d_occupied_carriers →
      to_unsigned ((i : Int) + zeros_on_left + self.d_coarse_freq) < symbol.length) :
    ∃ h3, calculate_equalizer m self channel symbol zeros_on_left
        = some { self with d_hestimate := self.d_hestimate.set channel h3 }
      ∧ h3.length = self.d_occupied_carriers := by
  have hk0 : self.d_known_symbol[0]? = some self.d_known_symbol[0] :=
    List.getElem?_eq_getElem (by omega)
  generalize self.d_known_symbol[0] = k at hk0
  have hs0 : read_at symbol (zeros_on_left + self.d_coarse_freq)
      = some symbol[(zeros_on_left + self.d_coarse_freq).toNat] := by
    rw [read_at, if_pos hfirst.1]
    exact List.getElem?_eq_getElem hfirst.2
  generalize symbol[(zeros_on_left + self.d_coarse_freq).toNat] = s at hs0
  have hw0 : write_at h0 0 (k / (coarse_freq_comp m self self.d_coarse_freq 1 * s))
      = some (h0.set 0 (k / (coarse_freq_comp m self self.d_coarse_freq 1 * s))) := by
    simp only [write_at, if_pos (show 0 < h0.length by omega)]
  obtain ⟨h2, hloop, hlen2⟩ := for_loop_from_completes 2
    (equalizer_step m self symbol zeros_on_left)
    (fun (h : List (gr_complex R)) => h.length = self.d_occupied_carriers)
    ((self.d_occupied_carriers - 2 + (2 - 1)) / 2) 2
    (h0.set 0 (k / (coarse_freq_comp m self self.d_coarse_freq 1 * s)))
    (by beta_reduce; rw [List.length_set]; exact hlen)
    (fun t h ht hh => by
      beta_reduce at hh ⊢
      obtain ⟨h', hstep, hl⟩ := equalizer_step_completes m self symbol zeros_on_left
        (2 + t * 2) h (by omega) (by omega) (by omega) (hidx _ (by omega))
      exact ⟨h', hstep, by rw [hl]; exact hh⟩)
  have hlast : ∃ h3, (if self.d_occupied_carriers % 2 = 0 then
        (h2[to_unsigned ((self.d_occupied_carriers : Int) - 2)]?).bind
          (fun last => write_at h2 (to_unsigned ((self.d_occupied_carriers : Int) - 1)) last)
      else some h2) = some h3 ∧ h3.length = self.d_occupied_carriers := by
    by_cases hev : self.d_occupied_carriers % 2 = 0
    · rw [if_pos hev]
      have e2 := to_unsigned_nonneg ((self.d_occupied_carriers : Int) - 2) (by omega) (by omega)
      have e1 := to_unsigned_nonneg ((self.d_occupied_carriers : Int) - 1) (by omega) (by omega)
      have hr : h2[to_unsigned ((self.d_occupied_carriers : Int) - 2)]?
          = some h2[to_unsigned ((self.d_occupied_carriers : Int) - 2)] :=
        List.getElem?_eq_getElem (by omega)
      rw [hr, Option.some_bind, write_at,
        if_pos (show to_unsigned ((self.d_occupied_carriers : Int) - 1) < h2.length by omega)]
      exact ⟨_, rfl, by rw [List.length_set]; exact hlen2⟩
    · rw [if_neg hev]
      exact ⟨h2, rfl, hlen2⟩
  obtain ⟨h3, hfinal, hlen3⟩ := hlast
  refine ⟨h3, ?_, hlen3⟩
  simp only [calculate_equalizer, equalizer_loop, for_loop, Option.bind_eq_bind, hch, hk0, hs0,
    Option.some_bind, hw0, hloop, Option.pure_def]
  rw [hfinal]
  rfl

/-- The loop of `general_work` over the channels completes when every channel has a tap
vector of `occupied_carriers` entries and a symbol whose indices are in bounds; it changes
tap vectors only and keeps their number and lengths. -/
theorem equalizer_channels_completes (m : numerics R) (symbols : List (List (gr_complex R)))
    (zeros_on_left : Int) (e : gr_ofdm_mimo_frame_acquisition R)
    (hN : e.d_nchannels ≤ e.d_hestimate.length) (hsyms : e.d_nchannels ≤ symbols.length)
    (htaps : ∀ taps ∈ e.d_hestimate, taps.length = e.d_occupied_carriers)
    (hocc1 : 1 ≤ e.d_occupied_carriers) (hocc32 : e.d_occupied_carriers < 2 ^ 32)
    (hknown : e.d_occupied_carriers ≤ e.d_known_symbol.length)
    (hfirst : ∀ symbol ∈ symbols, 0 ≤ zeros_on_left + e.d_coarse_freq
      ∧ (zeros_on_left + e.d_coarse_freq).toNat < symbol.length)
    (hidx : ∀ symbol ∈ symbols, ∀ i, i < e.d_occupied_carriers →
      to_unsigned ((i : Int) + zeros_on_left + e.d_coarse_freq) < symbol.length) :
    ∃ H, for_loop_from 1
        (fun channel self => (symbols[channel]?).bind (fun symbol =>
          calculate_equalizer m self channel symbol zeros_on_left))
        e.d_nchannels 0 e = some { e with d_hestimate := H }
      ∧ H.length = e.d_hestimate.length
      ∧ ∀ taps ∈ H, taps.length = e.d_occupied_carriers := by
  obtain ⟨e', hloop, hH, hlen, hl⟩ := for_loop_from_completes 1
    (fun channel (self : gr_ofdm_mimo_frame_acquisition R) =>
      (symbols[channel]?).bind (fun symbol =>
        calculate_equalizer m self channel symbol zeros_on_left))
    (fun (s : gr_ofdm_mimo_frame_acquisition R) =>
      s = { e with d_hestimate := s.d_hestimate }
      ∧ s.d_hestimate.length = e.d_hestimate.length
      ∧ ∀ taps ∈ s.d_hestimate, taps.length = e.d_occupied_carriers)
    e.d_nchannels 0 e ⟨rfl, rfl, htaps⟩
    (fun t s ht hs => by
      beta_reduce at hs ⊢
      obtain ⟨hs1, hs2, hs3⟩ := hs
      rw [Nat.zero_add, Nat.mul_one]
      have hocc : s.d_occupied_carriers = e.d_occupied_carriers := by rw [hs1]
      have hkn : s.d_known_symbol = e.d_known_symbol := by rw [hs1]
      have hcf : s.d_coarse_freq = e.d_coarse_freq := by rw [hs1]
      have hsym : symbols[t]? = some symbols[t] := List.getElem?_eq_getElem (by omega)
      have hmem : symbols[t] ∈ symbols := List.getElem_mem (by omega)
      have hch : s.d_hestimate[t]? = some s.d_hestimate[t] :=
        List.getElem?_eq_getElem (by omega)
      have hchm : s.d_hestimate[t] ∈ s.d_hestimate := List.getElem_mem (by omega)
      obtain ⟨h3, hcalc, hlen3⟩ := calculate_equalizer_completes m s t symbols[t] zeros_on_left
        s.d_hestimate[t] hch (by rw [hocc]; exact hs3 _ hchm) (by rw [hocc]; exact hocc1)
        (by rw [hocc]; exact hocc32) (by rw [hocc, hkn]; exact hknown)
        (by rw [hcf]; exact hfirst _ hmem)
        (by rw [hocc, hcf]; exact hidx _ hmem)
      refine ⟨{ s with d_hestimate := s.d_hestimate.set t h3 }, ?_, ?_, ?_, ?_⟩
      · rw [hsym, Option.some_bind]
        exact hcalc
      · show ({ s with d_hestimate := s.d_hestimate.set t h3 } : gr_ofdm_mimo_frame_acquisition R)
          = { e with d_hestimate := s.d_hestimate.set t h3 }
        rw [hs1]
      · show (s.d_hestimate.set t h3).length = _
        rw [List.length_set]
        exact hs2
      · intro taps ht'
        rcases List.mem_or_eq_of_mem_set ht' with h | h
        · exact hs3 taps h
        · rw [h, hlen3, hocc])
  refine ⟨e'.d_hestimate, ?_, hlen, hl⟩
  rw [← hH]
  exact hloop

/-- The preamble branch of `general_work` completes on symbols of `fft_length` samples,
one for each channel and at least one, under the constructor preconditions. -/
theorem preamble_completes (m : numerics R) (self : gr_ofdm_mimo_frame_acquisition R)
    (symbols : List (List (gr_complex R)))
    (hocc1 : 1 ≤ self.d_occupied_carriers)
    (hocc : self.d_occupied_carriers < self.d_fft_length) (hfft : self.d_fft_length < 2 ^ 31)
    (hwin : 2 * (self.d_freq_shift_len : Int) ≤ work_zeros_on_left self)
    (hknown : self.d_occupied_carriers ≤ self.d_known_symbol.length)
    (hK : self.d_known_phase_diff.length = self.d_occupied_carriers)
    (hD : self.d_symbol_phase_diff.length = self.d_fft_length)
    (hH : self.d_hestimate.length = self.d_nchannels)
    (htaps : ∀ taps ∈ self.d_hestimate, taps.length = self.d_occupied_carriers)
    (hs1 : 1 ≤ symbols.length) (hsN : self.d_nchannels ≤ symbols.length)
    (hlen : ∀ symbol ∈ symbols, symbol.length = self.d_fft_length) :
    ∃ (diff : List R) (cf : Int) (H : List (List (gr_complex R))),
      preamble m self symbols (work_zeros_on_left self)
        = some { self with
            d_symbol_phase_diff := diff, d_coarse_freq := cf, d_hestimate := H,
            d_phase_count := 1 }
      ∧ diff.length = self.d_fft_length
      ∧ (cf = -work_zeros_on_left self
        ∨ (-(self.d_freq_shift_len : Int) ≤ cf ∧ cf < (self.d_freq_shift_len : Int)))
      ∧ H.length = self.d_nchannels
      ∧ ∀ taps ∈ H, taps.length = self.d_occupied_carriers := by
  have hzol : work_zeros_on_left self
      = ((self.d_fft_length : Int) - (self.d_occupied_carriers : Int) + 1) / 2 := by
    unfold work_zeros_on_left
    rw [to_int_to_unsigned _ (by omega) (by omega)]
  have hsym0 : symbols[0]? = some symbols[0] := List.getElem?_eq_getElem (by omega)
  obtain ⟨diff, cf, hcorr, hdl, hcf⟩ := correlate_completes self symbols[0] hocc1 hocc hfft hwin
    (hlen _ (List.getElem_mem (by omega))) hK hD
  have hbounds := carrier_index_in_bounds self.d_occupied_carriers self.d_fft_length
    self.d_freq_shift_len (work_zeros_on_left self) cf hocc hfft hzol hwin (Or.inr hcf)
  obtain ⟨H, hloop, hHl, hHt⟩ := equalizer_channels_completes m symbols (work_zeros_on_left self)
    { self with d_symbol_phase_diff := diff, d_coarse_freq := cf }
    (by show self.d_nchannels ≤ self.d_hestimate.length; omega) hsN htaps hocc1 (by
      show self.d_occupied_carriers < 2 ^ 32
      omega) hknown
    (fun symbol hmem => by
      show 0 ≤ work_zeros_on_left self + cf ∧ (work_zeros_on_left self + cf).toNat < symbol.length
      have h := hbounds 0 hocc1
      rw [hlen symbol hmem]
      omega)
    (fun symbol hmem i hi => by
      show to_unsigned ((i : Int) + work_zeros_on_left self + cf) < symbol.length
      rw [hlen symbol hmem]
      exact (hbounds i hi).2.2.1)
  refine ⟨diff, cf, H, ?_, hdl, hcf, by rw [hHl, hH], hHt⟩
  have hc : (self.d_nchannels - 0 + (1 - 1)) / 1 = self.d_nchannels := by simp
  simp only [preamble, Option.bind_eq_bind, hsym0, Option.some_bind, hcorr, for_loop, hc]
  have hloop' : for_loop_from 1
      (fun channel s => (symbols[channel]?).bind (fun symbol =>
        calculate_equalizer m s channel symbol (work_zeros_on_left self)))
      self.d_nchannels 0
      ({ self with d_symbol_phase_diff := diff, d_coarse_freq := cf }
        : gr_ofdm_mimo_frame_acquisition R)
      = some { self with d_symbol_phase_diff := diff, d_coarse_freq := cf, d_hestimate := H } :=
    hloop
  rw [hloop']
  rfl

/-- One run of the inner loop of the data path completes when its indices are inside the
buffers, and keeps the length of the output buffer. -/
theorem combine_channel_completes (m : numerics R) (self : gr_ofdm_mimo_frame_acquisition R)
    (symbols : List (List (gr_complex R))) (zeros_on_left : Int) (i channel : Nat)
    (st : List (gr_complex R) × R)
    (hsym : channel < symbols.length) (hch : channel < self.d_hestimate.length)
    (htaps : ∀ taps ∈ self.d_hestimate, i < taps.length)
    (hidx : ∀ symbol ∈ symbols,
      to_unsigned ((i : Int) + zeros_on_left + self.d_coarse_freq) < symbol.length)
    (hout : i < st.1.length) :
    ∃ st', combine_channel m self symbols zeros_on_left i channel st = some st'
      ∧ st'.1.length = st.1.length := by
  simp only [combine_channel, Option.bind_eq_bind]
  rw [List.getElem?_eq_getElem hsym, List.getElem?_eq_getElem hch]
  simp only [Option.some_bind]
  rw [List.getElem?_eq_getElem (htaps _ (List.getElem_mem hch))]
  simp only [Option.some_bind]
  rw [List.getElem?_eq_getElem (hidx _ (List.getElem_mem hsym)), List.getElem?_eq_getElem hout]
  simp only [Option.some_bind, write_at, if_pos hout, Option.pure_def]
  exact ⟨_, rfl, by rw [List.length_set]⟩

/-- The data path of `general_work` completes when every channel has a symbol and a tap
vector of `occupied_carriers` entries, the symbol indices are inside the symbols and the
output buffer has room for `occupied_carriers` samples. -/
theorem equalize_and_combine_completes (m : numerics R)
    (self : gr_ofdm_mimo_frame_acquisition R) (symbols : List (List (gr_complex R)))
    (zeros_on_left : Int) (out : List (gr_complex R))
    (hsyms : self.d_nchannels ≤ symbols.length)
    (hH : self.d_nchannels ≤ self.d_hestimate.length)
    (htaps : ∀ taps ∈ self.d_hestimate, taps.length = self.d_occupied_carriers)
    (hidx : ∀ symbol ∈ symbols, ∀ i, i < self.d_occupied_carriers →
      to_unsigned ((i : Int) + zeros_on_left + self.d_coarse_freq) < symbol.length)
    (hout : self.d_occupied_carriers ≤ out.length) :
    ∃ out', equalize_and_combine m self symbols zeros_on_left out = some out' := by
  have hc : (self.d_occupied_carriers - 0 + (1 - 1)) / 1 = self.d_occupied_carriers := by simp
  have hcN : (self.d_nchannels - 0 + (1 - 1)) / 1 = self.d_nchannels := by simp
  simp only [equalize_and_combine, for_loop, hc, hcN]
  obtain ⟨out', hrun, _⟩ := for_loop_from_completes 1
    (fun i (out : List (gr_complex R)) =>
      (for_loop_from 1 (combine_channel m self symbols zeros_on_left i) self.d_nchannels 0
        (out, 0)).bind (fun st => (st.1[i]?).bind (fun o =>
          write_at st.1 i (gr_complex.div_real o st.2))))
    (fun (o : List (gr_complex R)) => o.length = out.length)
    self.d_occupied_carriers 0 out rfl
    (fun t o ht ho => by
      beta_reduce at ho ⊢
      rw [Nat.zero_add, Nat.mul_one]
      obtain ⟨st, hst, hstl⟩ := for_loop_from_completes 1
        (combine_channel m self symbols zeros_on_left t)
        (fun (st : List (gr_complex R) × R) => st.1.length = out.length)
        self.d_nchannels 0 (o, 0) ho
        (fun c st hc' hs => by
          beta_reduce at hs ⊢
          rw [Nat.zero_add, Nat.mul_one]
          obtain ⟨st', hst', hl'⟩ := combine_channel_completes m self symbols zeros_on_left t c
            st (by omega) (by omega) (fun taps hm => by rw [htaps taps hm]; exact ht)
            (fun symbol hm => hidx symbol hm t ht) (by omega)
          exact ⟨st', hst', by rw [hl']; exact hs⟩)
      rw [hst, Option.some_bind, List.getElem?_eq_getElem (show t < st.1.length by omega),
        Option.some_bind, write_at, if_pos (show t < st.1.length by omega)]
      exact ⟨_, rfl, by rw [List.length_set]; exact hstl⟩)
  exact ⟨out', hrun⟩

/-- A `general_work` call whose three steps complete. -/
theorem general_work_of_steps (m : numerics R) (self self1 : gr_ofdm_mimo_frame_acquisition R)
    (input : work_input R) (flag : Int) (out : List (gr_complex R))
    (hflag : input.signal_in[0]? = some flag)
    (hself1 : (if flag ≠ 0 then preamble m self input.symbols (work_zeros_on_left self)
      else some self) = some self1)
    (hout : equalize_and_combine m self1 input.symbols (work_zeros_on_left self) input.out
      = some out) :
    general_work m self input
      = some { self := { self1 with d_phase_count :=
                  if (self1.d_phase_count + 1) % 2 ^ 32 ≥ MAX_NUM_SYMBOLS then 1
                  else (self1.d_phase_count + 1) % 2 ^ 32 }
               out := out
               signal_out := if flag ≠ 0 then 1 else 0
               consumed := 1
               produced := 1 } := by
  simp only [general_work, Option.bind_eq_bind, Option.bind_eq_some, Option.pure_def,
    Option.some.injEq]
  exact ⟨flag, hflag, self1, hself1, out, hout, rfl⟩

/-- A `general_work` call completes on an engine with the buffers of a constructed block
and on input and output buffers of the sizes of the block's signature, under the
constructor preconditions; the engine has the buffers of a constructed block afterwards. -/
theorem general_work_completes (m : numerics R)
    (nchannels occupied_carriers fft_length max_fft_shift_len : Nat)
    (known_symbol : List (gr_complex R))
    (hocc1 : 1 ≤ occupied_carriers) (hocc : occupied_carriers < fft_length)
    (hfft : fft_length < 2 ^ 31) (hknown : occupied_carriers ≤ known_symbol.length)
    (hwin : 2 * (max_fft_shift_len : Int)
      ≤ ((fft_length : Int) - (occupied_carriers : Int) + 1) / 2)
    (self : gr_ofdm_mimo_frame_acquisition R)
    (hinv : self.d_nchannels = nchannels ∧ self.d_occupied_carriers = occupied_carriers
      ∧ self.d_fft_length = fft_length ∧ self.d_freq_shift_len = max_fft_shift_len
      ∧ self.d_known_symbol = known_symbol
      ∧ self.d_known_phase_diff.length = occupied_carriers
      ∧ self.d_symbol_phase_diff.length = fft_length
      ∧ self.d_hestimate.length = nchannels
      ∧ (∀ taps ∈ self.d_hestimate, taps.length = occupied_carriers)
      ∧ (self.d_coarse_freq = 0
        ∨ self.d_coarse_freq = -(((fft_length : Int) - (occupied_carriers : Int) + 1) / 2)
        ∨ (-(max_fft_shift_len : Int) ≤ self.d_coarse_freq
          ∧ self.d_coarse_freq < (max_fft_shift_len : Int))))
    (input : work_input R)
    (hinput : input.signal_in ≠ [] ∧ 1 ≤ input.symbols.length
      ∧ nchannels ≤ input.symbols.length
      ∧ (∀ symbol ∈ input.symbols, symbol.length = fft_length)
      ∧ input.out.length = occupied_carriers) :
    ∃ r, general_work m self input = some r
      ∧ r.self.d_nchannels = nchannels ∧ r.self.d_occupied_carriers = occupied_carriers
      ∧ r.self.d_fft_length = fft_length ∧ r.self.d_freq_shift_len = max_fft_shift_len
      ∧ r.self.d_known_symbol = known_symbol
      ∧ r.self.d_known_phase_diff.length = occupied_carriers
      ∧ r.self.d_symbol_phase_diff.length = fft_length
      ∧ r.self.d_hestimate.length = nchannels
      ∧ (∀ taps ∈ r.self.d_hestimate, taps.length = occupied_carriers)
      ∧ (r.self.d_coarse_freq = 0
        ∨ r.self.d_coarse_freq = -(((fft_length : Int) - (occupied_carriers : Int) + 1) / 2)
        ∨ (-(max_fft_shift_len : Int) ≤ r.self.d_coarse_freq
          ∧ r.self.d_coarse_freq < (max_fft_shift_len : Int))) := by
  obtain ⟨hN, ho, hf, hm, hk, hK, hD, hH, htaps, hcf⟩ := hinv
  obtain ⟨hsig, hs1, hsN, hlen, hout⟩ := hinput
  have hzol : work_zeros_on_left self
      = ((fft_length : Int) - (occupied_carriers : Int) + 1) / 2 := by
    unfold work_zeros_on_left
    rw [ho, hf, to_int_to_unsigned _ (by omega) (by omega)]
  obtain ⟨flag, hflag⟩ : ∃ flag, input.signal_in[0]? = some flag := by
    cases hsi : input.signal_in with
    | nil => exact absurd hsi hsig
    | cons flag rest => exact ⟨flag, by simp⟩
  by_cases hfl : flag ≠ 0
  · obtain ⟨diff, cf, H, hpre, hdl, hcf', hHl, hHt⟩ := preamble_completes m self input.symbols
      (by rw [ho]; exact hocc1) (by rw [ho, hf]; exact hocc) (by rw [hf]; exact hfft)
      (by rw [hm, hzol]; exact hwin) (by rw [ho, hk]; exact hknown) (by rw [hK, ho])
      (by rw [hD, hf]) (by rw [hH, hN]) (by rw [ho]; exact htaps) hs1 (by rw [hN]; exact hsN)
      (by rw [hf]; exact hlen)
    rw [hzol, hm] at hcf'
    rw [hf] at hdl
    rw [hN] at hHl
    rw [ho] at hHt
    have hbounds := carrier_index_in_bounds occupied_carriers fft_length max_fft_shift_len
      (((fft_length : Int) - (occupied_carriers : Int) + 1) / 2) cf hocc hfft rfl hwin
      (Or.inr hcf')
    obtain ⟨out, hout'⟩ := equalize_and_combine_completes m
      { self with
        d_symbol_phase_diff := diff, d_coarse_freq := cf, d_hestimate := H, d_phase_count := 1 }
      input.symbols (work_zeros_on_left self) input.out
      (by show self.d_nchannels ≤ _; rw [hN]; exact hsN)
      (by show self.d_nchannels ≤ H.length; rw [hN, hHl])
      (by
        show ∀ taps ∈ H, taps.length = self.d_occupied_carriers
        rw [ho]
        exact hHt)
      (fun symbol hmem i hi => by
        show to_unsigned ((i : Int) + work_zeros_on_left self + cf) < symbol.length
        rw [hlen symbol hmem, hzol]
        exact (hbounds i (by
          have : i < self.d_occupied_carriers := hi
          omega)).2.2.1)
      (by show self.d_occupied_carriers ≤ _; omega)
    refine ⟨_, general_work_of_steps m self _ input flag out hflag
      (by rw [if_pos hfl]; exact hpre) hout', hN, ho, hf, hm, hk, hK, hdl, hHl, hHt,
      Or.inr hcf'⟩
  · have hbounds := carrier_index_in_bounds occupied_carriers fft_length max_fft_shift_len
      (((fft_length : Int) - (occupied_carriers : Int) + 1) / 2) self.d_coarse_freq hocc hfft
      rfl hwin hcf
    obtain ⟨out, hout'⟩ := equalize_and_combine_completes m self input.symbols
      (work_zeros_on_left self) input.out (by rw [hN]; exact hsN) (by rw [hN, hH])
      (by rw [ho]; exact htaps)
      (fun symbol hmem i hi => by
        rw [hlen symbol hmem, hzol]
        exact (hbounds i (by omega)).2.2.1)
      (by omega)
    exact ⟨_, general_work_of_steps m self self input flag out hflag
      (by rw [if_neg hfl]) hout', hN, ho, hf, hm, hk, hK, hD, hH, htaps, hcf⟩

/-- Every run of `general_work` calls completes on an engine with the buffers of a
constructed block and on buffers of the sizes of the block's signature, under the
constructor preconditions; the offset afterwards is 0, `-zeros_on_left` or one of
`-max_fft_shift_len, ..., max_fft_shift_len - 1`. -/
theorem work_calls_completes (m : numerics R)
    (nchannels occupied_carriers fft_length max_fft_shift_len : Nat)
    (known_symbol : List (gr_complex R))
    (hocc1 : 1 ≤ occupied_carriers) (hocc : occupied_carriers < fft_length)
    (hfft : fft_length < 2 ^ 31) (hknown : occupied_carriers ≤ known_symbol.length)
    (hwin : 2 * (max_fft_shift_len : Int)
      ≤ ((fft_length : Int) - (occupied_carriers : Int) + 1) / 2)
    (inputs : List (work_input R)) :
    ∀ self : gr_ofdm_mimo_frame_acquisition R,
      (self.d_nchannels = nchannels ∧ self.d_occupied_carriers = occupied_carriers
        ∧ self.d_fft_length = fft_length ∧ self.d_freq_shift_len = max_fft_shift_len
        ∧ self.d_known_symbol = known_symbol
        ∧ self.d_known_phase_diff.length = occupied_carriers
        ∧ self.d_symbol_phase_diff.length = fft_length
        ∧ self.d_hestimate.length = nchannels
        ∧ (∀ taps ∈ self.d_hestimate, taps.length = occupied_carriers)
        ∧ (self.d_coarse_freq = 0
          ∨ self.d_coarse_freq = -(((fft_length : Int) - (occupied_carriers : Int) + 1) / 2)
          ∨ (-(max_fft_shift_len : Int) ≤ self.d_coarse_freq
            ∧ self.d_coarse_freq < (max_fft_shift_len : Int)))) →
      (∀ input ∈ inputs, input.signal_in ≠ [] ∧ 1 ≤ input.symbols.length
        ∧ nchannels ≤ input.symbols.length
        ∧ (∀ symbol ∈ input.symbols, symbol.length = fft_length)
        ∧ input.out.length = occupied_carriers) →
      ∃ self', work_calls m self inputs = some self'
        ∧ self'.d_occupied_carriers = occupied_carriers ∧ self'.d_fft_length = fft_length
        ∧ (self'.d_coarse_freq = 0
          ∨ self'.d_coarse_freq = -(((fft_length : Int) - (occupied_carriers : Int) + 1) / 2)
          ∨ (-(max_fft_shift_len : Int) ≤ self'.d_coarse_freq
            ∧ self'.d_coarse_freq < (max_fft_shift_len : Int))) := by
  induction inputs with
  | nil =>
    intro self hinv _
    exact ⟨self, rfl, hinv.2.1, hinv.2.2.1, hinv.2.2.2.2.2.2.2.2.2⟩
  | cons input inputs ih =>
    intro self hinv hinputs
    obtain ⟨r, hrun, hinv'⟩ := general_work_completes m nchannels occupied_carriers fft_length
      max_fft_shift_len known_symbol hocc1 hocc hfft hknown hwin self hinv input
      (hinputs input (by simp))
    obtain ⟨self', hcalls, hres⟩ := ih r.self hinv' (fun i hi => hinputs i (by simp [hi]))
    refine ⟨self', ?_, hres⟩
    simp only [work_calls, hrun]
    exact hcalls

/-- The buffers of a constructed engine. -/
theorem make_sizes (m : numerics R) (nchannels occupied_carriers fft_length cplen : Nat)
    (known_symbol : List (gr_complex R)) (max_fft_shift_len : Nat)
    (self : gr_ofdm_mimo_frame_acquisition R)
    (h : make m nchannels occupied_carriers fft_length cplen known_symbol max_fft_shift_len
      = some self) :
    self.d_nchannels = nchannels ∧ self.d_known_symbol = known_symbol
    ∧ self.d_known_phase_diff.length = occupied_carriers
    ∧ self.d_symbol_phase_diff.length = fft_length
    ∧ self.d_hestimate.length = nchannels
    ∧ ∀ taps ∈ self.d_hestimate, taps.length = occupied_carriers := by
  simp only [make, Option.bind_eq_bind, Option.bind_eq_some, Option.pure_def,
    Option.some.injEq] at h
  obtain ⟨K, hK, _, _, rfl⟩ := h
  refine ⟨rfl, rfl, ?_, List.length_replicate _ _, List.length_replicate _ _, ?_⟩
  · show K.length = occupied_carriers
    rw [known_phase_diff, for_loop] at hK
    exact for_loop_from_invariant 2 _ _
      (fun _ (d : List R) => d.length = occupied_carriers) 0 _ K hK
      (List.length_replicate _ _)
      (fun t d d1 _ hp hb => by
        simp only [Option.bind_eq_bind, Option.bind_eq_some] at hb
        obtain ⟨_, _, _, _, hw⟩ := hb
        obtain ⟨_, rfl⟩ := write_at_eq_some _ _ _ _ hw
        show (d.set _ _).length = occupied_carriers
        rw [List.length_set]
        exact hp)
  · intro taps hmem
    show taps.length = occupied_carriers
    rw [List.eq_of_mem_replicate hmem, List.length_replicate]

/-- C23, amended: for an engine built by the constructor with
`1 <= occupied_carriers < fft_length` (below `2^31`),
`occupied_carriers <= len(known_symbol)` and `2 * max_fft_shift_len <= zeros_on_left`,
every sequence of `general_work` calls on buffers of the sizes of the block's signature (a
flag item, at least one symbol and one symbol for each channel, `fft_length` samples in
each symbol, `occupied_carriers` samples of output) completes, that is, every index used is
in bounds, with any flags and samples; in particular each read `D[i+j]` of `correlate`
(`i` a window position, `j < occupied_carriers`) has `i + j < fft_length`, and after the
sequence each symbol read `s_c[i + zeros_on_left + coarse_freq]`, `i < occupied_carriers`,
of `calculate_equalizer` and of the data path has `0 <= index < fft_length`, also for the
offset 0 of the constructor and the offset `-zeros_on_left` left by a preamble without a
positive score. -/
theorem work_calls_in_bounds (m : numerics R)
    (nchannels occupied_carriers fft_length cplen : Nat) (known_symbol : List (gr_complex R))
    (max_fft_shift_len : Nat) (self0 : gr_ofdm_mimo_frame_acquisition R)
    (hmake : make m nchannels occupied_carriers fft_length cplen known_symbol max_fft_shift_len
      = some self0)
    (hocc1 : 1 ≤ occupied_carriers) (hocc : occupied_carriers < fft_length)
    (hfft : fft_length < 2 ^ 31) (hknown : occupied_carriers ≤ known_symbol.length)
    (hwin : 2 * (max_fft_shift_len : Int) ≤ work_zeros_on_left self0)
    (inputs : List (work_input R))
    (hinputs : ∀ input ∈ inputs, input.signal_in ≠ [] ∧ 1 ≤ input.symbols.length
      ∧ nchannels ≤ input.symbols.length
      ∧ (∀ symbol ∈ input.symbols, symbol.length = fft_length)
      ∧ input.out.length = occupied_carriers) :
    (∃ self, work_calls m self0 inputs = some self
      ∧ work_zeros_on_left self = work_zeros_on_left self0
      ∧ ∀ i : Nat, i < occupied_carriers →
          0 ≤ (i : Int) + work_zeros_on_left self + self.d_coarse_freq
          ∧ (i : Int) + work_zeros_on_left self + self.d_coarse_freq < (fft_length : Int)
          ∧ to_unsigned ((i : Int) + work_zeros_on_left self + self.d_coarse_freq)
              < fft_length)
    ∧ ∀ i j : Nat,
        to_unsigned (work_zeros_on_left self0 - (max_fft_shift_len : Int)) ≤ i →
        i < to_unsigned (work_zeros_on_left self0 + (max_fft_shift_len : Int)) →
        j < occupied_carriers →
        i + j < fft_length ∧ to_unsigned ((i : Int) + (j : Int)) < fft_length := by
  obtain ⟨ho, hf, hm, hc0⟩ := make_fields m _ _ _ _ _ _ self0 hmake
  obtain ⟨hN, hk, hK, hD, hH, htaps⟩ := make_sizes m _ _ _ _ _ _ self0 hmake
  have hzol : work_zeros_on_left self0
      = ((fft_length : Int) - (occupied_carriers : Int) + 1) / 2 := by
    unfold work_zeros_on_left
    rw [ho, hf, to_int_to_unsigned _ (by omega) (by omega)]
  constructor
  · obtain ⟨self, hcalls, ho', hf', hcf⟩ := work_calls_completes m nchannels occupied_carriers
      fft_length max_fft_shift_len known_symbol hocc1 hocc hfft hknown (by rw [← hzol]; exact hwin)
      inputs self0 ⟨hN, ho, hf, hm, hk, hK, hD, hH, htaps, Or.inl hc0⟩ hinputs
    have hz : work_zeros_on_left self = work_zeros_on_left self0 := by
      unfold work_zeros_on_left
      rw [ho', hf', ho, hf]
    refine ⟨self, hcalls, hz, fun i hi => ?_⟩
    rw [hz, hzol]
    have h := carrier_index_in_bounds occupied_carriers fft_length max_fft_shift_len
      (((fft_length : Int) - (occupied_carriers : Int) + 1) / 2) self.d_coarse_freq hocc hfft
      rfl (by rw [← hzol]; exact hwin) hcf i hi
    exact ⟨h.1, h.2.1, h.2.2.1⟩
  · intro i j hi1 hi2 hj
    have ha := to_unsigned_nonneg (work_zeros_on_left self0 - (max_fft_shift_len : Int))
      (by omega) (by omega)
    have hb := to_unsigned_nonneg (work_zeros_on_left self0 + (max_fft_shift_len : Int))
      (by omega) (by omega)
    have hlt : i + j < fft_length := by omega
    refine ⟨hlt, ?_⟩
    unfold to_unsigned
    omega

/-- C23 counterexample: three constructor calls that complete and meet
`occupied_carriers < fft_length` and `2 * max_fft_shift_len <= zeros_on_left`, each
followed by a `general_work` call with a nonzero flag that does not complete. (1)
`occupied_carriers = 0`, `fft_length = 1`, `max_fft_shift_len = 0` (`zeros_on_left = 1`),
a symbol of one sample: the bound `d_fft_length - 2` of the first loop of `correlate`
wraps, and the loop reads `symbol[2]`. (2) `occupied_carriers = 0`, `fft_length = 2`,
`max_fft_shift_len = 0` (`zeros_on_left = 1`), a symbol of two samples:
`calculate_equalizer` writes the first tap `d_hestimate[0][0]` of a tap vector without
entries. (3) `occupied_carriers = 4`, `fft_length = 8`, `max_fft_shift_len = 1`
(`zeros_on_left = 2`) and a known symbol of two entries, a symbol of 8 samples:
`calculate_equalizer` reads `d_known_symbol[2]`. The inputs (1) and (2) also meet
`occupied_carriers <= len(known_symbol)`. -/
theorem general_work_index_out_of_bounds :
    (make example_numerics 1 0 1 2 [⟨1, 0⟩, ⟨1, 0⟩] 0).map (fun self =>
        (work_zeros_on_left self,
          general_work example_numerics self ⟨[1], [[⟨0, 0⟩]], []⟩)) = some (1, none)
    ∧ (make example_numerics 1 0 2 2 [⟨1, 0⟩, ⟨1, 0⟩] 0).map (fun self =>
        (work_zeros_on_left self,
          general_work example_numerics self ⟨[1], [[⟨0, 0⟩, ⟨0, 0⟩]], []⟩)) = some (1, none)
    ∧ (make example_numerics 1 4 8 2 [⟨1, 0⟩, ⟨0, 0⟩] 1).map (fun self =>
        (work_zeros_on_left self,
          general_work example_numerics self
            ⟨[1], [example_symbol], [⟨0, 0⟩, ⟨0, 0⟩, ⟨0, 0⟩, ⟨0, 0⟩]⟩)) = some (2, none) := by
  rw [make_eq example_numerics 1 0 1 2 _ 0 (by decide),
    make_eq example_numerics 1 0 2 2 _ 0 (by decide),
    make_eq example_numerics 1 4 8 2 _ 1 (by decide)]
  exact ⟨by with_unfolding_all rfl, by with_unfolding_all rfl, by with_unfolding_all rfl⟩

/-- Witness of C23: the example engine, a preamble call followed by a call with a zero
flag. -/
theorem work_calls_in_bounds_witness :
    (∃ self, work_calls example_numerics example_engine
        [⟨[1], [example_symbol], [⟨0, 0⟩, ⟨0, 0⟩, ⟨0, 0⟩, ⟨0, 0⟩]⟩,
          ⟨[0], [example_symbol], [⟨0, 0⟩, ⟨0, 0⟩, ⟨0, 0⟩, ⟨0, 0⟩]⟩] = some self
      ∧ work_zeros_on_left self = work_zeros_on_left example_engine
      ∧ ∀ i : Nat, i < 4 →
          0 ≤ (i : Int) + work_zeros_on_left self + self.d_coarse_freq
          ∧ (i : Int) + work_zeros_on_left self + self.d_coarse_freq < ((8 : Nat) : Int)
          ∧ to_unsigned ((i : Int) + work_zeros_on_left self + self.d_coarse_freq) < 8)
    ∧ ∀ i j : Nat,
        to_unsigned (work_zeros_on_left example_engine - ((1 : Nat) : Int)) ≤ i →
        i < to_unsigned (work_zeros_on_left example_engine + ((1 : Nat) : Int)) →
        j < 4 →
        i + j < 8 ∧ to_unsigned ((i : Int) + (j : Int)) < 8 :=
  work_calls_in_bounds example_numerics 1 4 8 2
    [⟨1, 0⟩, ⟨0, 0⟩, ⟨-1, 0⟩, ⟨0, 0⟩] 1 example_engine example_engine_made (by decide)
    (by decide) (by decide) (by decide) (by decide)
    [⟨[1], [example_symbol], [⟨0, 0⟩, ⟨0, 0⟩, ⟨0, 0⟩, ⟨0, 0⟩]⟩,
      ⟨[0], [example_symbol], [⟨0, 0⟩, ⟨0, 0⟩, ⟨0, 0⟩, ⟨0, 0⟩]⟩]
    (by decide)

end gr_ofdm_mimo_frame_acquisition
end gr
